import Mathlib

/-!
# image-inspector: extraction pipeline and scanner orchestration

A shallow embedding of `pkg/inspector` (image-receiver.go, image-inspector.go,
customscan.go, httpserve.go), `pkg/cmd/types.go` and `cmd/image-inspector.go`.

Go strings are modelled as `List Char` (one `Char` per byte; only the ASCII
bytes `/` and `.` are ever inspected), Go `error` values as `Option` or as
small inductive types, and calls into the operating system or the docker
client as explicit state passing or as outcome records.
-/

namespace ImageInspector

/-! ## Constants (httpserve.go) -/

/-- The constant `DOCKER_TAR_PREFIX = "rootfs/"`. -/
def DOCKER_TAR_PREFIX : List Char := "rootfs/".toList

/-- The constant `OWNER_PERM_RW = 0600`. -/
def OWNER_PERM_RW : Nat := 0o600

/-! ## Go library functions used by the tar reconstructor: `strings.TrimPrefix`,
`path.Clean`, `path.Join` -/

/-- Go `strings.TrimPrefix(s, prefix)`: `s` without the leading `prefix`, or `s`
itself when it does not start with `prefix`. -/
def TrimPrefix (s pre : List Char) : List Char :=
  if pre.isPrefixOf s then s.drop pre.length else s

/-- The state of the loop of `path.Clean`: the bytes written so far (`out`, of
length `out.w`) and the index `dotdot` below which `..` must not backtrack. -/
structure CleanState where
  out : List Char
  dotdot : Nat
deriving DecidableEq, Repr

/-- The inner loop of the `..` case of `path.Clean`:
`for out.w > dotdot && out.index(out.w) != '/' { out.w-- }`, started at `w`. -/
def backtrack (out : List Char) (dotdot : Nat) : Nat → Nat
  | 0 => 0
  | w + 1 =>
    if dotdot < w + 1 ∧ out.get? (w + 1) ≠ some '/' then backtrack out dotdot w else w + 1

/-- The `..` case of `path.Clean`: backtrack to the last slash when possible,
else (for a path that is not rooted) append a `..` element. -/
def dotdotElem (rooted : Bool) (s : CleanState) : CleanState :=
  if s.dotdot < s.out.length then
    { s with out := s.out.take (backtrack s.out s.dotdot (s.out.length - 1)) }
  else if !rooted then
    let out1 := if 0 < s.out.length then s.out ++ ['/'] else s.out
    let out2 := out1 ++ ['.', '.']
    { out := out2, dotdot := out2.length }
  else s

/-- The default case of `path.Clean`: add a slash if needed, then copy the element. -/
def realElem (rooted : Bool) (s : CleanState) (e : List Char) : CleanState :=
  let out1 :=
    if (rooted && s.out.length != 1) || (!rooted && s.out.length != 0) then s.out ++ ['/']
    else s.out
  { s with out := out1 ++ e }

/-- The main loop `for r < n` of `path.Clean`, on the unread suffix `path[r:]`.
Every iteration consumes at least one byte, so `fuel = len(path)` is enough
(`cleanLoop_fuel`). -/
def cleanLoop (rooted : Bool) : Nat → List Char → CleanState → CleanState
  | 0, _, s => s
  | _ + 1, [], s => s
  | fuel + 1, c :: rest, s =>
    if c = '/' then
      cleanLoop rooted fuel rest s
    else if c = '.' ∧ (rest = [] ∨ rest.head? = some '/') then
      cleanLoop rooted fuel rest s
    else if c = '.' ∧ rest.head? = some '.' ∧ (rest.tail = [] ∨ rest.tail.head? = some '/') then
      cleanLoop rooted fuel rest.tail (dotdotElem rooted s)
    else
      cleanLoop rooted fuel ((c :: rest).dropWhile (fun x => x != '/'))
        (realElem rooted s ((c :: rest).takeWhile (fun x => x != '/')))

/-- The state in which the loop of `path.Clean` starts and the suffix it reads. -/
def cleanInit (path : List Char) : Bool × List Char × CleanState :=
  if path.head? = some '/' then (true, path.tail, ⟨['/'], 1⟩) else (false, path, ⟨[], 0⟩)

/-- Go `path.Clean`. -/
def Clean (path : List Char) : List Char :=
  if path = [] then ['.']
  else
    let i := cleanInit path
    let s := cleanLoop i.1 path.length i.2.1 i.2.2
    if s.out = [] then ['.'] else s.out

/-- The buffer `path.Join` builds before cleaning: the elements from the first
non-empty one on, separated by slashes. -/
def joinBuf : List Char → List (List Char) → List Char
  | buf, [] => buf
  | buf, e :: es =>
    if buf ≠ [] ∨ e ≠ [] then joinBuf ((if buf ≠ [] then buf ++ ['/'] else buf) ++ e) es
    else joinBuf buf es

/-- Go `path.Join(elem...)`. -/
def Join (elem : List (List Char)) : List Char :=
  if (elem.map List.length).sum = 0 then [] else Clean (joinBuf [] elem)

/-- The path an entry is written to in `processTarStream`:
`path.Join(destination, strings.TrimPrefix(hdr.Name, DOCKER_TAR_PREFIX))`; the
target of a hard link is computed from `hdr.Linkname` by the same expression. -/
def dstpath (destination name : List Char) : List Char :=
  Join [destination, TrimPrefix name DOCKER_TAR_PREFIX]

/-! ## Specification vocabulary for paths -/

/-- The elements of a slash-separated path. -/
def splitSlash : List Char → List (List Char)
  | [] => [[]]
  | c :: cs =>
    if c = '/' then [] :: splitSlash cs
    else
      match splitSlash cs with
      | [] => [[c]]
      | e :: es => (c :: e) :: es

/-- The first element of a path. -/
def firstElem (p : List Char) : List Char := p.takeWhile (fun x => x != '/')

/-- The path `p` lies inside the directory `D`, lexically: it is the cleaned `D`, or
continues it after a slash; below the root `/` lies every rooted path, and
below `.` every relative path whose first element is not `..`. -/
def liesInside (D p : List Char) : Bool :=
  let root := Clean D
  p == root || (root ++ ['/']).isPrefixOf p
    || (root == ['/'] && p.head? == some '/')
    || (root == ['.'] && firstElem p != [] && firstElem p != ['.', '.'])

/-! ## The loop of `path.Clean`, element by element -/

/-- What one iteration of the loop of `path.Clean` does with the element `e`. -/
def elemStep (rooted : Bool) (s : CleanState) (e : List Char) : CleanState :=
  if e = [] ∨ e = ['.'] then s
  else if e = ['.', '.'] then dotdotElem rooted s
  else realElem rooted s e

/-- The state in which the loop of `path.Clean` ends on `path`. -/
def cleanState (path : List Char) : CleanState :=
  (splitSlash (cleanInit path).2.1).foldl (elemStep (cleanInit path).1) (cleanInit path).2.2

/-- On a rooted path the buffer of `path.Clean` always starts with the slash. -/
def RootedInv (s : CleanState) : Prop := s.dotdot = 1 ∧ s.out.head? = some '/'

/-- The slash test of the default case of `path.Clean`. -/
def slashNeeded (rooted : Bool) (out : List Char) : Bool :=
  (rooted && out.length != 1) || (!rooted && out.length != 0)

/-! ## The file system, as far as `os.Mkdir`, `os.Chmod`, `os.OpenFile`,
`os.Symlink`, `os.Link` and `os.Chtimes` observe it

Directory entries are keyed by their real path, the list of the elements from
the working directory, or from the root when the list starts with the empty
element; every entry names an inode, so that hard links share mode, content
and times. A path is looked up element by element: an element that is a
symlink is followed, the last one only by the calls that follow it (`open`,
`chmod`, `utimensat`), at most `MAXSYMLINKS` times in one lookup. A new entry
gets the mode asked for without the bits of the process umask, and sets the
modification time of its directory. No permission check is made, as for a
process that runs as root. -/

/-- The errno values the modelled calls return. -/
inductive Errno
  | EEXIST | ENOENT | ENOTDIR | EISDIR | EPERM | ELOOP
deriving DecidableEq, Repr

/-- Go `os.IsExist(err)`. -/
def IsExist (e : Errno) : Bool := e == Errno.EEXIST

/-- What an inode is: a directory, a regular file with its bytes, or a symlink
with its target. -/
inductive Kind
  | dir
  | file (content : List Char)
  | symlink (target : List Char)
deriving DecidableEq, Repr

/-- An inode: kind, permission bits and the two timestamps `os.Chtimes` sets. -/
structure Inode where
  kind : Kind
  mode : Nat
  atime : Nat
  mtime : Nat
deriving DecidableEq, Repr

/-- The file system state: the directory entries by real path, the inode table, the
next free inode number, the clock new inodes are stamped with, and the umask
of the process. -/
structure FS where
  names : List (List Char) → Option Nat
  inodes : Nat → Option Inode
  next : Nat
  clock : Nat
  umask : Nat

/-- The inode at a real path. -/
def FS.node (fs : FS) (q : List (List Char)) : Option Inode :=
  match fs.names q with
  | some i => fs.inodes i
  | none => none

/-- Replace the inode number `i`. -/
def FS.setInode (fs : FS) (i : Nat) (ino : Inode) : FS :=
  { fs with inodes := fun j => if j = i then some ino else fs.inodes j }

/-- Adding or removing an entry of the directory at `q` sets its modification time. -/
def FS.touch (fs : FS) (q : List (List Char)) : FS :=
  match fs.names q with
  | some i =>
    match fs.inodes i with
    | some ino => fs.setInode i { ino with mtime := fs.clock }
    | none => fs
  | none => fs

/-- Add a directory entry at the real path `q` for a fresh inode `ino`. -/
def FS.create (fs : FS) (q : List (List Char)) (ino : Inode) : FS :=
  { fs with
    names := fun r => if r = q then some fs.next else fs.names r
    inodes := fun i => if i = fs.next then some ino else (fs.touch q.dropLast).inodes i
    next := fs.next + 1 }

/-- Add a directory entry at the real path `q` for the inode number `i`. -/
def FS.addName (fs : FS) (q : List (List Char)) (i : Nat) : FS :=
  { fs with
    names := fun r => if r = q then some i else fs.names r
    inodes := (fs.touch q.dropLast).inodes }

/-- The mode a new file or directory gets: the permission bits of the umask are
cleared. -/
def applyUmask (umask mode : Nat) : Nat := mode - (mode &&& (umask &&& 0o777))

/-- The elements of a path as the lookup reads them: the empty element first for a
path that starts at the root, then the elements between the slashes, without
the empty ones and the `.` ones. -/
def elements (p : List Char) : List (List Char) :=
  (if p.head? = some '/' then [[]] else [])
    ++ (splitSlash p).filter (fun e => !(e == []) && !(e == ['.']))

/-- The directory above the directory at `cur`: the root is its own parent, and above
the working directory the real path goes on with `..` elements. -/
def up (cur : List (List Char)) : List (List Char) :=
  if cur = [[]] then [[]]
  else if cur = [] ∨ cur.getLast? = some ['.', '.'] then cur ++ [['.', '.']]
  else cur.dropLast

/-- The lookup of the elements `rest` from the directory at `cur`, where `follow`
is the lookup that goes on after a symlink and `links` the number of symlinks
that may still be followed: the real path reached, which need not exist when
it is the last element that is missing, and the symlinks left. -/
def walkWith (fs : FS) (links : Nat)
    (follow : List (List Char) → List (List Char) → Except Errno (List (List Char) × Nat))
    (followLast : Bool) :
    List (List Char) → List (List Char) → Except Errno (List (List Char) × Nat)
  | cur, [] => .ok (cur, links)
  | cur, c :: rest =>
    if c = [] then walkWith fs links follow followLast [[]] rest
    else if c = ['.', '.'] then walkWith fs links follow followLast (up cur) rest
    else
      match fs.node (cur ++ [c]) with
      | none => if rest = [] then .ok (cur ++ [c], links) else .error Errno.ENOENT
      | some ino =>
        match ino.kind with
        | Kind.dir => walkWith fs links follow followLast (cur ++ [c]) rest
        | Kind.file _ => if rest = [] then .ok (cur ++ [c], links) else .error Errno.ENOTDIR
        | Kind.symlink t =>
          if rest = [] ∧ followLast = false then .ok (cur ++ [c], links)
          else if t = [] then .error Errno.ENOENT
          else follow cur (elements t ++ rest)

/-- The lookup of the elements `rest` from the directory at `cur`, following at most
`links` symlinks; `ELOOP` when there are more. -/
def walk (fs : FS) (followLast : Bool) :
    Nat → List (List Char) → List (List Char) → Except Errno (List (List Char) × Nat)
  | 0 => walkWith fs 0 (fun _ _ => .error Errno.ELOOP) followLast
  | links + 1 => walkWith fs (links + 1) (walk fs followLast links) followLast

/-- The number of symlinks Linux follows in one lookup. -/
def MAXSYMLINKS : Nat := 40

/-- The real path a path leads to when a symlink at its last element is not
followed (`lstat`, `mkdir`, `symlink`, `link`). -/
def FS.locate (fs : FS) (p : List Char) : Except Errno (List (List Char)) :=
  if p = [] then .error Errno.ENOENT
  else
    match walk fs false MAXSYMLINKS [] (elements p) with
    | .ok r => .ok r.1
    | .error e => .error e

/-- The real path a path leads to when a symlink at its last element is followed
(`open`, `chmod`, `utimensat`). -/
def FS.resolve (fs : FS) (p : List Char) : Except Errno (List (List Char)) :=
  if p = [] then .error Errno.ENOENT
  else
    match walk fs true MAXSYMLINKS [] (elements p) with
    | .ok r => .ok r.1
    | .error e => .error e

/-- The inode a path names, not following a symlink at its last element (`lstat`). -/
def FS.stat (fs : FS) (p : List Char) : Option Inode :=
  match fs.locate p with
  | .ok q => fs.node q
  | .error _ => none

/-- The real path ends in a name under which an entry can be made: it is not the
root, the working directory or a `..`. -/
def creatable (q : List (List Char)) : Bool :=
  match q.getLast? with
  | some c => !(c == []) && !(c == ['.', '.'])
  | none => false

/-- Go `os.Mkdir(name, perm)`. -/
def Mkdir (fs : FS) (p : List Char) (mode : Nat) : Except Errno FS :=
  match fs.locate p with
  | .error e => .error e
  | .ok q =>
    match fs.names q with
    | some _ => .error Errno.EEXIST
    | none =>
      if creatable q then
        .ok (fs.create q ⟨Kind.dir, applyUmask fs.umask mode, fs.clock, fs.clock⟩)
      else .error Errno.EEXIST

/-- Go `os.Chmod(name, mode)`. -/
def Chmod (fs : FS) (p : List Char) (mode : Nat) : Except Errno FS :=
  match fs.resolve p with
  | .error e => .error e
  | .ok q =>
    match fs.names q with
    | none => .error Errno.ENOENT
    | some i =>
      match fs.inodes i with
      | none => .error Errno.ENOENT
      | some ino => .ok (fs.setInode i { ino with mode := mode })

/-- Go `os.Chtimes(name, atime, mtime)`. -/
def Chtimes (fs : FS) (p : List Char) (atime mtime : Nat) : Except Errno FS :=
  match fs.resolve p with
  | .error e => .error e
  | .ok q =>
    match fs.names q with
    | none => .error Errno.ENOENT
    | some i =>
      match fs.inodes i with
      | none => .error Errno.ENOENT
      | some ino => .ok (fs.setInode i { ino with atime := atime, mtime := mtime })

/-- Go `os.OpenFile(name, os.O_CREATE|os.O_TRUNC|os.O_WRONLY, perm)`: the file
system after the call and the inode the returned file writes to. -/
def OpenFile (fs : FS) (p : List Char) (mode : Nat) : Except Errno (FS × Nat) :=
  match fs.resolve p with
  | .error e => .error e
  | .ok q =>
    match fs.names q with
    | some i =>
      match fs.inodes i with
      | none => .error Errno.ENOENT
      | some ino =>
        match ino.kind with
        | Kind.file _ => .ok (fs.setInode i { ino with kind := Kind.file [], mtime := fs.clock }, i)
        | Kind.dir => .error Errno.EISDIR
        | Kind.symlink _ => .error Errno.ELOOP
    | none =>
      if creatable q then
        .ok (fs.create q ⟨Kind.file [], applyUmask fs.umask mode, fs.clock, fs.clock⟩, fs.next)
      else .error Errno.EISDIR

/-- Writing `bytes` at the end of the open file with inode `i` (`io.Copy(file, tr)`). -/
def Write (fs : FS) (i : Nat) (bytes : List Char) : FS :=
  match fs.inodes i with
  | some ino =>
    match ino.kind with
    | Kind.file content => fs.setInode i { ino with kind := Kind.file (content ++ bytes) }
    | _ => fs
  | none => fs

/-- Go `os.Symlink(oldname, newname)`: an empty target is refused. -/
def Symlink (fs : FS) (oldname newname : List Char) : Except Errno FS :=
  if oldname = [] then .error Errno.ENOENT
  else
    match fs.locate newname with
    | .error e => .error e
    | .ok q =>
      match fs.names q with
      | some _ => .error Errno.EEXIST
      | none =>
        if creatable q then
          .ok (fs.create q ⟨Kind.symlink oldname, 0o777, fs.clock, fs.clock⟩)
        else .error Errno.EEXIST

/-- Go `os.Link(oldname, newname)`; `oldname` is not followed when it is a symlink. -/
def Link (fs : FS) (oldname newname : List Char) : Except Errno FS :=
  match fs.locate oldname with
  | .error e => .error e
  | .ok o =>
    match fs.names o with
    | none => .error Errno.ENOENT
    | some i =>
      match fs.inodes i with
      | none => .error Errno.ENOENT
      | some ino =>
        if ino.kind = Kind.dir then .error Errno.EPERM
        else
          match fs.locate newname with
          | .error e => .error e
          | .ok q =>
            match fs.names q with
            | some _ => .error Errno.EEXIST
            | none => if creatable q then .ok (fs.addName q i) else .error Errno.EEXIST

/-- Go `ioutil.TempDir(dir, prefix)`: a new directory `dir/prefix<random>` with
mode 0700; a name that exists is retried with the next random suffix, of
which `suffixes` are the ones drawn. -/
def TempDir (fs : FS) (dir pre : List Char) : List (List Char) → Except Errno (FS × List Char)
  | [] => .error Errno.EEXIST
  | r :: rs =>
    match Mkdir fs (Join [dir, pre ++ r]) 0o700 with
    | .ok fs1 => .ok (fs1, Join [dir, pre ++ r])
    | .error e => if IsExist e then TempDir fs dir pre rs else .error e

/-! ## The tar stream (`archive/tar`) -/

/-- The fields of a `tar.Header` that `processTarStream` reads. `Mode` is the
`os.FileMode` that `hdr.FileInfo().Mode()` returns. -/
structure Header where
  Name : List Char
  Linkname : List Char
  Typeflag : Char
  Mode : Nat
  AccessTime : Nat
  ModTime : Nat
deriving DecidableEq, Repr

/-- `tar.TypeReg`. -/
def TypeReg : Char := '0'
/-- `tar.TypeRegA`. -/
def TypeRegA : Char := '\x00'
/-- `tar.TypeLink`. -/
def TypeLink : Char := '1'
/-- `tar.TypeSymlink`. -/
def TypeSymlink : Char := '2'
/-- `tar.TypeChar`. -/
def TypeChar : Char := '3'
/-- `tar.TypeBlock`. -/
def TypeBlock : Char := '4'
/-- `tar.TypeDir`. -/
def TypeDir : Char := '5'
/-- `tar.TypeFifo`. -/
def TypeFifo : Char := '6'

/-- One entry as `tr.Next()` and `io.Copy(file, tr)` deliver it: the header, the
payload bytes copied, and the error with which the copy ends, if any. -/
structure Entry where
  hdr : Header
  payload : List Char
  copyErr : Option (List Char)
deriving DecidableEq, Repr

/-- A tar stream: its entries and what `tr.Next()` returns after them, `none`
for `io.EOF`, else the read error. -/
structure TarStream where
  entries : List Entry
  endErr : Option (List Char)
deriving DecidableEq, Repr

/-- The errors `processTarStream` returns, one constructor per `fmt.Errorf`. -/
inductive ExtractError
  | read (err : List Char)
  | createDirectory (e : Errno)
  | updateDirectoryMode (e : Errno)
  | createFile (e : Errno)
  | writeFile (err : List Char)
  | createSymlink (e : Errno)
  | createLink (e : Errno)
deriving DecidableEq, Repr

/-! ## The tar reconstructor (image-receiver.go) -/

/-- The mode of `processTarStream`: `hdrInfo.Mode() | OWNER_PERM_RW`. -/
def entryMode (hdr : Header) : Nat := hdr.Mode ||| OWNER_PERM_RW

/-- The `switch hdr.Typeflag` of `processTarStream` for one entry: the file
system afterwards and the error returned, if any. -/
def extractEntry (fs : FS) (destination : List Char) (e : Entry) : FS × Option ExtractError :=
  let dst := dstpath destination e.hdr.Name
  let mode := entryMode e.hdr
  if e.hdr.Typeflag = TypeDir then
    match Mkdir fs dst mode with
    | .ok fs1 => (fs1, none)
    | .error err =>
      if !IsExist err then (fs, some (.createDirectory err))
      else
        match Chmod fs dst mode with
        | .error err2 => (fs, some (.updateDirectoryMode err2))
        | .ok fs1 => (fs1, none)
  else if e.hdr.Typeflag = TypeReg ∨ e.hdr.Typeflag = TypeRegA then
    match OpenFile fs dst mode with
    | .error err => (fs, some (.createFile err))
    | .ok (fs1, file) =>
      match e.copyErr with
      | some err => (Write fs1 file e.payload, some (.writeFile err))
      | none => (Write fs1 file e.payload, none)
  else if e.hdr.Typeflag = TypeSymlink then
    match Symlink fs e.hdr.Linkname dst with
    | .error err => (fs, some (.createSymlink err))
    | .ok fs1 => (fs1, none)
  else if e.hdr.Typeflag = TypeLink then
    match Link fs (dstpath destination e.hdr.Linkname) dst with
    | .error err => (fs, some (.createLink err))
    | .ok fs1 => (fs1, none)
  else (fs, none)

/-- The call `os.Chtimes(dstpath, hdr.AccessTime, hdr.ModTime)` whose error is dropped. -/
def chtimesBestEffort (fs : FS) (destination : List Char) (e : Entry) : FS :=
  match Chtimes fs (dstpath destination e.hdr.Name) e.hdr.AccessTime e.hdr.ModTime with
  | .ok fs1 => fs1
  | .error _ => fs

/-- The function `processTarStream(tr, destination)`: the file system it leaves and
the error it returns. -/
def processTarStream (destination : List Char) :
    FS → List Entry → Option (List Char) → FS × Option ExtractError
  | fs, [], none => (fs, none)
  | fs, [], some err => (fs, some (.read err))
  | fs, e :: es, endErr =>
    match extractEntry fs destination e with
    | (fs1, some err) => (fs1, some err)
    | (fs1, none) => processTarStream destination (chtimesBestEffort fs1 destination e) es endErr

/-- How the bytes written to the pipe go on after the entries: with the
end-of-archive marker (`endErr` is `none`) or with a block that `tr.Next()`
rejects, and then perhaps with more bytes (`trailing`), which nobody reads;
or not at all (`stops`). The pipe is closed by the deferred calls of
`createAndExtractImage` only, so a read after the last byte written does not
return. -/
inductive PipeTail
  | ended (endErr : Option (List Char)) (trailing : Bool)
  | stops
deriving DecidableEq, Repr

/-- What `DownloadFromContainer` writes to the pipe. -/
structure PipeData where
  entries : List Entry
  tail : PipeTail
deriving DecidableEq, Repr

/-- How a `processTarStream` that reads from the pipe ends: it returns, all the
bytes written having been read or not, or it blocks in a read. -/
inductive ReadEnd
  | returned (allRead : Bool)
  | blocked
deriving DecidableEq, Repr

/-- Whether the bytes of the entry have all been read when `processTarStream`
returns the error `err` for it: the payload of a file that could not be
created has not been read, nor all of one whose copy failed. -/
def entryRead (e : Entry) (err : ExtractError) : Bool :=
  match err with
  | .createFile _ => e.payload.isEmpty
  | .writeFile _ => false
  | _ => true

/-- The function `processTarStream(tr, destination)` where `tr` reads from the pipe:
the file system it leaves, the error it returns, and how it ends. -/
def processPipe (destination : List Char) :
    FS → List Entry → PipeTail → FS × Option ExtractError × ReadEnd
  | fs, [], .ended none trailing => (fs, none, .returned (!trailing))
  | fs, [], .ended (some err) trailing => (fs, some (.read err), .returned (!trailing))
  | fs, [], .stops => (fs, none, .blocked)
  | fs, e :: es, tail =>
    match extractEntry fs destination e with
    | (fs1, some err) =>
      (fs1, some err, .returned (es.isEmpty && tail == .stops && entryRead e err))
    | (fs1, none) => processPipe destination (chtimesBestEffort fs1 destination e) es tail

/-- The function `handleTarStream(reader, destination)`: runs `processTarStream`
and logs its error; it returns nothing, the second component is what was
logged. -/
def handleTarStream (fs : FS) (reader : PipeData) (destination : List Char) :
    FS × Option ExtractError × ReadEnd :=
  processPipe destination fs reader.entries reader.tail

/-- The function `createOutputDir`; its errors. -/
inductive OutputDirError
  | createDestination (e : Errno)
  | createTemporary (e : Errno)
deriving DecidableEq, Repr

/-- The function `createOutputDir(dirName, tempName)`, with `osMkdir = os.Mkdir` and
`ioutilTempDir = ioutil.TempDir`; `suffixes` are the random suffixes drawn. -/
def createOutputDir (suffixes : List (List Char)) (fs : FS) (dirName tempName : List Char) :
    FS × Except OutputDirError (List Char) :=
  if 0 < dirName.length then
    match Mkdir fs dirName 0o755 with
    | .ok fs1 => (fs1, .ok dirName)
    | .error e =>
      if !IsExist e then (fs, .error (.createDestination e)) else (fs, .ok dirName)
  else
    match TempDir fs "/var/tmp".toList tempName suffixes with
    | .ok (fs1, name) => (fs1, .ok name)
    | .error e => (fs, .error (.createTemporary e))

/-! ## Options (pkg/cmd/types.go) -/

/-- One element of `CustomScanOptions`. -/
structure CustomScan where
  Name : List Char
  ImageScan : List (List Char)
  ContainerScan : List (List Char)
  VolumeScan : List (List Char)
deriving DecidableEq, Repr

/-- The struct `ImageInspectorOptions`; a `MultiStringVar` is its `Values`. -/
structure ImageInspectorOptions where
  ConfigFilePath : List Char
  URI : List Char
  Image : List Char
  Container : List Char
  Volume : List Char
  CustomScanConf : List Char
  DstPath : List Char
  Serve : List Char
  Webdav : Bool
  Chroot : Bool
  DockerCfg : List (List Char)
  Username : List Char
  PasswordFile : List Char
  ScanType : List (List Char)
  ScanResultsDir : List Char
  OpenScapHTML : Bool
  CVEUrlPath : List Char
  CustomScans : List CustomScan
deriving DecidableEq, Repr

/-- The method `MultiStringVar.HasValue`. -/
def HasValue (values : List (List Char)) (s : List Char) : Bool :=
  match values with
  | [] => false
  | v :: rest => if v = s then true else HasValue rest s

/-! ## The docker client and the other collaborators, as the outcomes of their calls -/

/-- The struct `docker.AuthConfiguration`. -/
structure AuthConfiguration where
  Username : List Char
  Password : List Char
  Email : List Char
  ServerAddress : List Char
deriving DecidableEq, Repr, Inhabited

/-- The map `Configs` of a `docker.AuthConfigurations`: an association list with
distinct keys. -/
abbrev AuthConfigurations := List (List Char × AuthConfiguration)

/-- The assignment `m[k] = v` on a Go map. -/
def mapSet (m : AuthConfigurations) (k : List Char) (v : AuthConfiguration) :
    AuthConfigurations :=
  match m with
  | [] => [(k, v)]
  | (k1, v1) :: rest => if k1 = k then (k, v) :: rest else (k1, v1) :: mapSet rest k v

/-- What `os.Open` and `docker.NewAuthConfigurations` make of a docker config file. -/
inductive DockerCfgFile
  | openFails (err : List Char)
  | parseFails (err : List Char)
  | auths (configs : AuthConfigurations)
deriving DecidableEq, Repr

/-- The struct `docker.Image`, opaque to the inspector. -/
structure DockerImage where
  ID : List Char
deriving DecidableEq, Repr

/-- The interface `openscap.Scanner`, as far as `scanImage` calls it. -/
structure Scanner where
  ScannerName : List Char
  Scan : List Char → DockerImage → Option (List Char)
  ResultsFileName : List Char
  HTMLResultsFileName : List Char

/-- The outcomes of the calls one run makes outside this repository. An error is
the text of its `Error()`; `none` is a nil error. -/
structure Env where
  /-- The error of `docker.NewClient(URI)`. -/
  NewClient : List Char → Option (List Char)
  /-- The result of `ioutil.ReadFile`. -/
  ReadFile : List Char → Except (List Char) (List Char)
  /-- The docker config file at a path. -/
  OpenDockerCfg : List Char → DockerCfgFile
  /-- The order in which `range` visits the entries of a map. -/
  rangeOrder : AuthConfigurations → AuthConfigurations
  /-- The error of the n-th call of `client.PullImage`, made with the given credentials. -/
  PullImage : Nat → AuthConfiguration → Option (List Char)
  /-- The result of `rand.Int`, formatted with `%016x`. -/
  randInt : Except (List Char) (List Char)
  /-- The result of `client.CreateContainer`: the container ID. -/
  CreateContainer : List Char → Except (List Char) (List Char)
  /-- The result of `client.InspectContainer`: the field `Image`. -/
  InspectContainer : List Char → Except (List Char) (List Char)
  /-- The result of `client.InspectImage`. -/
  InspectImage : List Char → Except (List Char) DockerImage
  /-- What `client.DownloadFromContainer` writes to the pipe and the error it returns. -/
  DownloadFromContainer : List Char → PipeData × Option (List Char)
  /-- The random suffixes `ioutil.TempDir` draws for a prefix. -/
  tempSuffixes : List Char → List (List Char)
  /-- The scanner `openscap.NewDefaultScanner(cveDir, resultsDir, cveUrl, html)`. -/
  NewDefaultScanner : List Char → List Char → List Char → Bool → Scanner
  /-- The error of `cmd.Run()` for a command and its environment. -/
  runCommand : List (List Char) → List (List Char) → Option (List Char)
  /-- The error of `Serve`. -/
  Serve : ImageInspectorOptions → Option (List Char)

/-! ## Scan status and metadata -/

/-- Modelled from the spec: the type of `OpenSCAP.Status` is declared outside the
given sources; "ScanStatus: one of {NotRequested, Success, Error}". -/
inductive ScanStatus
  | StatusNotRequested
  | StatusSuccess
  | StatusError
deriving DecidableEq, Repr

/-- Modelled from the spec: the struct of `meta.OpenSCAP` is declared outside the
given sources; a status, and "Error carries a message". -/
structure OpenSCAPMetadata where
  Status : ScanStatus
  ErrorMessage : List Char
deriving DecidableEq, Repr

/-- Modelled from the spec: the struct `InspectorMetadata` is declared outside the
given sources; the image descriptor and the status of the openscap scanner. -/
structure InspectorMetadata where
  Image : DockerImage
  OpenSCAP : OpenSCAPMetadata
deriving DecidableEq, Repr

/-- Modelled from the spec: `NewInspectorMetadata` is defined outside the given
sources; a scan "with no prior scan leaves status NotRequested until invoked". -/
def NewInspectorMetadata (image : DockerImage) : InspectorMetadata :=
  ⟨image, ⟨ScanStatus.StatusNotRequested, []⟩⟩

/-- Modelled from the spec: the method `SetError` is defined outside the given
sources; it records "that scanner's Error status with message", the message
being the text of the error. -/
def OpenSCAPMetadata.SetError (_m : OpenSCAPMetadata) (err : List Char) : OpenSCAPMetadata :=
  ⟨ScanStatus.StatusError, err⟩

/-! ## The credential resolver and the pull (image-receiver.go) -/

/-- The errors of `appendDockerCfgConfigs`. -/
inductive DockerCfgError
  | unableToOpen (err : List Char)
  | unableToParse (err : List Char)
  | noAuths
deriving DecidableEq, Repr

/-- The errors of the acquisition phase, one constructor per `fmt.Errorf`;
`pull` carries the last `authErr`, which is nil when no pull was attempted. -/
inductive AcquireError
  | connect (err : List Char)
  | passwordFile (err : List Char)
  | pull (authErr : Option (List Char))
  | randomName (err : List Char)
  | createContainer (err : List Char)
  | inspectContainer (err : List Char)
  | inspectImage (err : List Char)
  | outputDir (e : OutputDirError)
  | extract (err : List Char)
deriving DecidableEq, Repr

/-- The key `fmt.Sprintf("%s/%s", dockercfg, name)`. -/
def cfgKey (dockercfg name : List Char) : List Char := dockercfg ++ '/' :: name

/-- The function `appendDockerCfgConfigs(dockercfg, cfgs)`: the map `cfgs.Configs`
afterwards and the error returned. -/
def appendDockerCfgConfigs (file : DockerCfgFile) (dockercfg : List Char)
    (cfgs : AuthConfigurations) : AuthConfigurations × Option DockerCfgError :=
  match file with
  | .openFails err => (cfgs, some (.unableToOpen err))
  | .parseFails err => (cfgs, some (.unableToParse err))
  | .auths configs =>
    if configs.length = 0 then (cfgs, some .noAuths)
    else (configs.foldl (fun m na => mapSet m (cfgKey dockercfg na.1) na.2) cfgs, none)

/-- The name of the candidate without credentials. -/
def defaultAuthName : List Char := "Default Empty Authentication".toList

/-- The method `getAuthConfigs`. An error of `appendDockerCfgConfigs` is logged. -/
def getAuthConfigs (env : Env) (opts : ImageInspectorOptions) :
    Except AcquireError AuthConfigurations :=
  let imagePullAuths : AuthConfigurations :=
    opts.DockerCfg.foldl
      (fun m dcfgFile => (appendDockerCfgConfigs (env.OpenDockerCfg dcfgFile) dcfgFile m).1)
      [(defaultAuthName, ⟨[], [], [], []⟩)]
  if opts.Username ≠ [] then
    match env.ReadFile opts.PasswordFile with
    | .error err => .error (.passwordFile err)
    | .ok token => .ok [([], ⟨opts.Username, token, [], []⟩)]
  else .ok imagePullAuths

/-- What `pullImage` did: the number of calls of `client.PullImage` and the error
returned. -/
structure PullResult where
  attempts : Nat
  err : Option AcquireError
deriving DecidableEq, Repr

/-- The loop `for name, auth := range imagePullAuths.Configs` of `pullImage`, at
the n-th candidate with the current `authErr`. -/
def pullLoop (pull : Nat → AuthConfiguration → Option (List Char)) :
    AuthConfigurations → Nat → Option (List Char) → PullResult
  | [], n, authErr => ⟨n, some (.pull authErr)⟩
  | (_, auth) :: rest, n, _ =>
    match pull n auth with
    | none => ⟨n + 1, none⟩
    | some err => pullLoop pull rest (n + 1) (some err)

/-- The method `pullImage`. The two goroutines that report progress only log. -/
def pullImage (env : Env) (opts : ImageInspectorOptions) : PullResult :=
  match getAuthConfigs env opts with
  | .error e => ⟨0, some e⟩
  | .ok imagePullAuths => pullLoop env.PullImage (env.rangeOrder imagePullAuths) 0 none

/-! ## The image acquirer (image-receiver.go) -/

/-- What `createAndExtractImage` did and returned. -/
structure ExtractOutcome where
  /-- The file system afterwards. -/
  fs : FS
  /-- The field `i.Opts.DstPath` of the receiver afterwards. -/
  DstPath : List Char
  /-- The destination `handleTarStream` was called with, if it was called. -/
  extractedTo : Option (List Char)
  /-- The error of `processTarStream` that `handleTarStream` logged. -/
  logged : Option ExtractError
  /-- The container removed by the deferred `RemoveContainer`. -/
  removed : Option (List Char)
  /-- The returned image. -/
  image : Option DockerImage
  /-- The returned error. -/
  err : Option AcquireError
  /-- The call does not return: the two goroutines wait for each other. -/
  hangs : Bool

/-- The method `createAndExtractImage(client, containerName)`. The goroutine of
`DownloadFromContainer` writes to the pipe and then sends its error on the
unbuffered `errorChannel`; `handleTarStream` reads from the pipe, and after
it has returned the error is received. A write returns when its bytes have
been read, and the pipe is closed by the deferred calls only: when
`handleTarStream` waits for bytes that are not written, or returns before
all bytes written have been read, the call does not return, and the
deferred `RemoveContainer` does not run. -/
def createAndExtractImage (env : Env) (fs : FS) (opts : ImageInspectorOptions)
    (containerName : List Char) : ExtractOutcome :=
  match env.CreateContainer containerName with
  | .error err => ⟨fs, opts.DstPath, none, none, none, none, some (.createContainer err), false⟩
  | .ok containerID =>
    match env.InspectContainer containerID with
    | .error err =>
      ⟨fs, opts.DstPath, none, none, some containerID, none, some (.inspectContainer err), false⟩
    | .ok imageID =>
      match env.InspectImage imageID with
      | .error err =>
        ⟨fs, opts.DstPath, none, none, some containerID, none, some (.inspectImage err), false⟩
      | .ok imageMetadata =>
        match createOutputDir (env.tempSuffixes "image-inspector-".toList) fs opts.DstPath
            "image-inspector-".toList with
        | (fs1, .error e) =>
          ⟨fs1, [], none, none, some containerID, some imageMetadata, some (.outputDir e), false⟩
        | (fs1, .ok dst) =>
          let download := env.DownloadFromContainer containerID
          let handled := handleTarStream fs1 download.1 dst
          match handled.2.2 with
          | .blocked => ⟨handled.1, dst, some dst, none, none, none, none, true⟩
          | .returned false => ⟨handled.1, dst, some dst, handled.2.1, none, none, none, true⟩
          | .returned true =>
            match download.2 with
            | some err =>
              ⟨handled.1, dst, some dst, handled.2.1, some containerID, some imageMetadata,
                some (.extract err), false⟩
            | none =>
              ⟨handled.1, dst, some dst, handled.2.1, some containerID, some imageMetadata,
                none, false⟩

/-- The function `generateRandomName`. -/
def generateRandomName (env : Env) : Except AcquireError (List Char) :=
  match env.randInt with
  | .error err => .error (.randomName err)
  | .ok n => .ok ("image-inspector-".toList ++ n)

/-- What `ExtractImage` did and returned. -/
structure ExtractImageResult where
  /-- The file system afterwards. -/
  fs : FS
  /-- The options of the receiver afterwards. -/
  Opts : ImageInspectorOptions
  /-- The destination the image was extracted into, if extraction was reached. -/
  extractedTo : Option (List Char)
  /-- The error of `processTarStream` that was logged. -/
  logged : Option ExtractError
  /-- The returned metadata. -/
  meta : Option InspectorMetadata
  /-- The returned error. -/
  err : Option AcquireError
  /-- The call does not return. -/
  hangs : Bool

/-- The method `ExtractImage` of the receiver with options `opts`. -/
def ExtractImage (env : Env) (fs : FS) (opts : ImageInspectorOptions) : ExtractImageResult :=
  match env.NewClient opts.URI with
  | some err => ⟨fs, opts, none, none, none, some (.connect err), false⟩
  | none =>
    match (pullImage env opts).err with
    | some err => ⟨fs, opts, none, none, none, some err, false⟩
    | none =>
      match generateRandomName env with
      | .error err => ⟨fs, opts, none, none, none, some err, false⟩
      | .ok randomName =>
        let r := createAndExtractImage env fs opts randomName
        if r.hangs then
          ⟨r.fs, { opts with DstPath := r.DstPath }, r.extractedTo, r.logged, none, none, true⟩
        else
          match r.err, r.image with
          | none, some imageMetadata =>
            ⟨r.fs, { opts with DstPath := r.DstPath }, r.extractedTo, r.logged,
              some (NewInspectorMetadata imageMetadata), none, false⟩
          | some err, _ =>
            ⟨r.fs, { opts with DstPath := r.DstPath }, r.extractedTo, r.logged, none, some err,
              false⟩
          | none, none =>
            ⟨r.fs, { opts with DstPath := r.DstPath }, r.extractedTo, r.logged, none, none,
              false⟩

/-! ## The openscap inspector (image-inspector.go) -/

/-- The constant `OSCAP_CVE_DIR`. -/
def OSCAP_CVE_DIR : List Char := "/tmp".toList

/-- The struct `openscapImageInspector`. -/
structure openscapImageInspector where
  opts : ImageInspectorOptions
  meta : InspectorMetadata
  scanReport : List Char
  htmlScanReport : List Char
deriving DecidableEq, Repr

/-- The inspector `NewOpenscapImageInspector(opts, meta)` returns; the reports start
as nil slices. -/
def NewOpenscapImageInspector (opts : ImageInspectorOptions) (m : InspectorMetadata) :
    openscapImageInspector :=
  ⟨opts, m, [], []⟩

/-- The method `scanImage(s)`: the two reports and the error, here the text of
the `fmt.Errorf`. -/
def scanImage (env : Env) (i : openscapImageInspector) (s : Scanner) :
    List Char × List Char × Option (List Char) :=
  match s.Scan i.opts.DstPath i.meta.Image with
  | some err =>
    ([], [], some ("Unable to run ".toList ++ s.ScannerName ++ ": ".toList ++ err ++ "\n".toList))
  | none =>
    match env.ReadFile s.ResultsFileName with
    | .error err =>
      ([], [], some ("Unable to read ".toList ++ s.ScannerName ++ " result file: ".toList
        ++ err ++ "\n".toList))
    | .ok scanReport =>
      if i.opts.OpenScapHTML then
        match env.ReadFile s.HTMLResultsFileName with
        | .error err =>
          ([], [], some ("Unable to read ".toList ++ s.ScannerName
            ++ " HTML result file: ".toList ++ err ++ "\n".toList))
        | .ok htmlScanReport => (scanReport, htmlScanReport, none)
      else (scanReport, [], none)

/-- What `Inspect` did and returned. -/
structure InspectResult where
  /-- The file system after `createOutputDir`. -/
  fs : FS
  /-- The inspector afterwards. -/
  inspector : openscapImageInspector
  /-- The path handed to `s.Scan`, if the scan was started. -/
  scanned : Option (List Char)
  /-- The returned error. -/
  err : Option OutputDirError

/-- The method `Inspect` of the openscap inspector. -/
def Inspect (env : Env) (fs : FS) (i : openscapImageInspector) : InspectResult :=
  match createOutputDir (env.tempSuffixes "image-inspector-scan-results-".toList) fs
      i.opts.ScanResultsDir "image-inspector-scan-results-".toList with
  | (fs1, .error e) =>
    ⟨fs1, { i with opts := { i.opts with ScanResultsDir := [] } }, none, some e⟩
  | (fs1, .ok dir) =>
    let i1 : openscapImageInspector := { i with opts := { i.opts with ScanResultsDir := dir } }
    let scanner :=
      env.NewDefaultScanner OSCAP_CVE_DIR i1.opts.ScanResultsDir i1.opts.CVEUrlPath
        i1.opts.OpenScapHTML
    match scanImage env i1 scanner with
    | (scanReport, htmlScanReport, some err) =>
      ⟨fs1, { i1 with scanReport := scanReport, htmlScanReport := htmlScanReport,
                      meta := { i1.meta with OpenSCAP := i1.meta.OpenSCAP.SetError err } },
        some i1.opts.DstPath, none⟩
    | (scanReport, htmlScanReport, none) =>
      ⟨fs1, { i1 with scanReport := scanReport, htmlScanReport := htmlScanReport,
                      meta := { i1.meta with
                        OpenSCAP := { i1.meta.OpenSCAP with Status := ScanStatus.StatusSuccess } } },
        some i1.opts.DstPath, none⟩

/-! ## Custom scanners (customscan.go) -/

/-- The constant `ScannerImage`. -/
def ScannerImage : List Char := "imagescan".toList
/-- The constant `ScannerVolume`. -/
def ScannerVolume : List Char := "volumescan".toList
/-- The constant `ScannerContainer`. -/
def ScannerContainer : List Char := "containerscan".toList

/-- What `RunScanner` did: one of its three own errors, or the command it ran
with its environment and the error of `runCommand`. -/
inductive RunOutcome
  | unsupported
  | commandNotSpecified
  | notFound
  | ran (command env : List (List Char)) (err : Option (List Char))
deriving DecidableEq, Repr

/-- The end of the loop body of `RunScanner`: the test `len(scanCommand) == 0`
and the call of `runCommand`. -/
def runScanCommand (run : List (List Char) → List (List Char) → Option (List Char))
    (scanCommand env : List (List Char)) : RunOutcome :=
  if scanCommand.length = 0 then .commandNotSpecified
  else .ran scanCommand env (run scanCommand env)

/-- The body of the loop of `RunScanner` for a scanner with the requested name:
the `switch scanType` and what follows it. -/
def runScannerBody (run : List (List Char) → List (List Char) → Option (List Char))
    (opts : ImageInspectorOptions) (scanType : List Char) (scanner : CustomScan) : RunOutcome :=
  if scanType = ScannerImage then
    runScanCommand run scanner.ImageScan
      ["IMAGE_NAME=".toList ++ opts.Image, "IMAGE_PATH=".toList ++ opts.DstPath]
  else if scanType = ScannerVolume then
    runScanCommand run scanner.VolumeScan ["VOLUME_PATH=".toList ++ opts.Volume]
  else if scanType = ScannerContainer then
    runScanCommand run scanner.ContainerScan ["CONTAINER_NAME=".toList ++ opts.Container]
  else .unsupported

/-- The loop of `RunScanner` over `opts.CustomScans`. -/
def runScannerLoop (run : List (List Char) → List (List Char) → Option (List Char))
    (opts : ImageInspectorOptions) (scanName scanType : List Char) :
    List CustomScan → RunOutcome
  | [] => .notFound
  | scanner :: rest =>
    if scanner.Name ≠ scanName then runScannerLoop run opts scanName scanType rest
    else runScannerBody run opts scanType scanner

/-- The function `RunScanner(opts, scanName, scanType)`. -/
def RunScanner (env : Env) (opts : ImageInspectorOptions) (scanName scanType : List Char) :
    RunOutcome :=
  runScannerLoop env.runCommand opts scanName scanType opts.CustomScans

/-- The command a `RunOutcome` executed, with its environment. -/
def RunOutcome.executed : RunOutcome → Option (List (List Char) × List (List Char))
  | .ran command env _ => some (command, env)
  | _ => none

/-- The error a `RunOutcome` stands for is nil. -/
def RunOutcome.isNil : RunOutcome → Bool
  | .ran _ _ none => true
  | _ => false

/-- The command list of a custom scanner for a scan mode; a mode that is not
supported has none. -/
def scanCommandFor (scanner : CustomScan) (scanType : List Char) : List (List Char) :=
  if scanType = ScannerImage then scanner.ImageScan
  else if scanType = ScannerVolume then scanner.VolumeScan
  else if scanType = ScannerContainer then scanner.ContainerScan
  else []

/-- The scan mode is one of `imagescan`, `containerscan`, `volumescan`. -/
def supportedMode (scanType : List Char) : Prop :=
  scanType = ScannerImage ∨ scanType = ScannerContainer ∨ scanType = ScannerVolume

/-! ## The image branch of `main` (cmd/image-inspector.go) -/

/-- The calls of `log.Fatalf` in `main`. -/
inductive FatalError
  | unableToExtract (e : AcquireError)
  | errorInspecting (e : OutputDirError)
  | serviceFailed (err : List Char)
deriving DecidableEq, Repr

/-- What the image branch of `main` did. -/
structure MainOutcome where
  /-- The destination `ExtractImage` extracted the image into. -/
  extractedTo : Option (List Char)
  /-- The result of `Inspect`, when openscap was selected. -/
  openscap : Option InspectResult
  /-- The scanners `RunScanner` was called for, with what it did. -/
  custom : List (List Char × RunOutcome)
  /-- The options `Serve` was called with. -/
  served : Option ImageInspectorOptions
  /-- The `log.Fatalf` that ended the run. -/
  fatal : Option FatalError
  /-- The run does not end: `ExtractImage` does not return. -/
  hangs : Bool

/-- The loop `for _, scannerName := range iicmd.ScanOptions` of `main`. -/
def runCustomScanners (env : Env) (inspectorOptions : ImageInspectorOptions) :
    List (List Char) → List (List Char × RunOutcome)
  | [] => []
  | scannerName :: rest =>
    if scannerName = "openscap".toList ∨ !HasValue inspectorOptions.ScanType scannerName then
      runCustomScanners env inspectorOptions rest
    else
      (scannerName, RunScanner env inspectorOptions scannerName ScannerImage)
        :: runCustomScanners env inspectorOptions rest

/-- The block `if len(inspectorOptions.Image) > 0 { ... }` of `main`, with the
registry `iicmd.ScanOptions` as it is after `Validate`. The receiver works on
a copy of the options (`NewImageReceiver(*inspectorOptions)`), and so do the
inspector, `RunScanner` and `Serve`. -/
def mainImage (env : Env) (fs : FS) (ScanOptions : List (List Char))
    (inspectorOptions : ImageInspectorOptions) : MainOutcome :=
  let received := ExtractImage env fs inspectorOptions
  if received.hangs then ⟨received.extractedTo, none, [], none, none, true⟩
  else
    match received.err, received.meta with
    | some err, _ => ⟨received.extractedTo, none, [], none, some (.unableToExtract err), false⟩
    | none, none => ⟨received.extractedTo, none, [], none, none, false⟩
    | none, some m =>
      let inspected : Option InspectResult :=
        if HasValue inspectorOptions.ScanType "openscap".toList then
          some (Inspect env received.fs (NewOpenscapImageInspector inspectorOptions m))
        else none
      match inspected.bind (fun r => r.err) with
      | some e => ⟨received.extractedTo, inspected, [], none, some (.errorInspecting e), false⟩
      | none =>
        let custom := runCustomScanners env inspectorOptions ScanOptions
        if 0 < inspectorOptions.Serve.length then
          match env.Serve inspectorOptions with
          | some err =>
            ⟨received.extractedTo, inspected, custom, some inspectorOptions,
              some (.serviceFailed err), false⟩
          | none => ⟨received.extractedTo, inspected, custom, some inspectorOptions, none, false⟩
        else ⟨received.extractedTo, inspected, custom, none, none, false⟩

/-! ## Specification vocabulary for the credential resolver -/

/-- The names `<file>/<entry>` of the candidates derived from the docker config
files `files`: a file that cannot be opened or parsed, or has no entry,
contributes none. -/
def derivedKeys (env : Env) (files : List (List Char)) : List (List Char) :=
  files.flatMap fun f =>
    match env.OpenDockerCfg f with
    | .auths configs => configs.map (fun na => cfgKey f na.1)
    | _ => []

/-- The number of entries of the docker config files `files` that parse, summed
over the files. -/
def derivedCount (env : Env) (files : List (List Char)) : Nat :=
  (files.map fun f =>
    match env.OpenDockerCfg f with
    | .auths configs => configs.length
    | _ => 0).sum

/-- The candidates `m` are the fallback without credentials and one candidate per
name in `ks`, under distinct names. -/
def KeysInv (m : AuthConfigurations) (ks : List (List Char)) : Prop :=
  (m.map Prod.fst).Nodup
  ∧ (∀ k, k ∈ m.map Prod.fst ↔ k = defaultAuthName ∨ k ∈ ks)
  ∧ (defaultAuthName, (⟨[], [], [], []⟩ : AuthConfiguration)) ∈ m

/-! ## Specification vocabulary for the openscap inspector -/

/-- The scanner `Inspect` creates once the results directory is `dir`. -/
def inspectScanner (env : Env) (i : openscapImageInspector) (dir : List Char) : Scanner :=
  env.NewDefaultScanner OSCAP_CVE_DIR dir i.opts.CVEUrlPath i.opts.OpenScapHTML

/-- The call of `createOutputDir` that `Inspect` makes. -/
def inspectOutputDir (env : Env) (fs : FS) (i : openscapImageInspector) :
    FS × Except OutputDirError (List Char) :=
  createOutputDir (env.tempSuffixes "image-inspector-scan-results-".toList) fs
    i.opts.ScanResultsDir "image-inspector-scan-results-".toList

/-! ## Specification vocabulary for the file system -/

/-- The kind of an inode without the bytes of a regular file. -/
def Kind.shape : Kind → Kind
  | Kind.file _ => Kind.file []
  | k => k

/-- The inode is a symlink. -/
def Kind.isSymlink : Kind → Bool
  | Kind.symlink _ => true
  | _ => false

/-- The lookup that `walk` goes on with after a symlink when `links` symlinks may
still be followed. -/
def walkFollow (fs : FS) (followLast : Bool) :
    Nat → List (List Char) → List (List Char) → Except Errno (List (List Char) × Nat)
  | 0 => fun _ _ => .error Errno.ELOOP
  | links + 1 => walk fs followLast links

/-- The directory entries of the file system name allocated inodes. -/
def FS.wf (fs : FS) : Prop :=
  ∀ q i, fs.names q = some i → i < fs.next ∧ fs.inodes i ≠ none

/-- Every node of `fs` is a node of `fs1`, of the same kind up to the bytes of a
file. -/
def NodeKept (fs fs1 : FS) : Prop :=
  ∀ q ino, fs.node q = some ino →
    ∃ ino1, fs1.node q = some ino1 ∧ ino1.kind.shape = ino.kind.shape

/-- The element is a name: not empty, not `.` and not `..`. -/
def plainName (c : List Char) : Bool := !(c == []) && !(c == ['.']) && !(c == ['.', '.'])

/-- The entry is a directory entry. -/
def Entry.isDir (e : Entry) : Bool := e.hdr.Typeflag == TypeDir

/-- The entry is a regular-file entry. -/
def Entry.isReg (e : Entry) : Bool := e.hdr.Typeflag == TypeReg || e.hdr.Typeflag == TypeRegA

/-- The entry is a symlink entry. -/
def Entry.isSymlink (e : Entry) : Bool := e.hdr.Typeflag == TypeSymlink

/-- The entry is a hard-link entry. -/
def Entry.isLink (e : Entry) : Bool := e.hdr.Typeflag == TypeLink

/-- The entry is of one of the four types `processTarStream` materializes. -/
def Entry.supported (e : Entry) : Bool := e.isDir || e.isReg || e.isSymlink || e.isLink

/-- The file system `fs1` is `fs` with more names and inodes: names stay, an inode
that is allocated keeps its kind up to the bytes of a file, no new name is a
symlink, and the umask is the same. -/
def Grows (fs fs1 : FS) : Prop :=
  fs1.wf
  ∧ (∀ q i, fs.names q = some i → fs1.names q = some i)
  ∧ (∀ i ino, i < fs.next → fs.inodes i = some ino →
      ∃ ino1, fs1.inodes i = some ino1 ∧ ino1.kind.shape = ino.kind.shape)
  ∧ (∀ q, fs.names q = none → ∀ ino, fs1.node q = some ino → ino.kind.isSymlink = false)
  ∧ fs.next ≤ fs1.next
  ∧ fs1.umask = fs.umask
/-! ## Specification vocabulary for the tar reconstructor -/

/-- The kind of the inode a path names, not following a symlink. -/
def FS.kindAt (fs : FS) (p : List Char) : Option Kind := (fs.stat p).map (fun ino => ino.kind)

/-- The elements of the path to which the entry is mapped. -/
def entryPath (D : List Char) (e : Entry) : List (List Char) := elements (dstpath D e.hdr.Name)

/-- The elements of the destination root. -/
def rootPath (D : List Char) : List (List Char) := elements (dstpath D [])

/-- The elements of the path of the entry that come after those of the destination
root. -/
def below (D : List Char) (e : Entry) : List (List Char) :=
  (entryPath D e).drop (rootPath D).length

/-- The path ends in a name. -/
def endsInName (q : List (List Char)) : Bool :=
  match q.getLast? with
  | some c => plainName c
  | none => false

/-- Parents before children: the entry is a directory entry for the destination
root itself, or its path ends in a name and the path without that name, its
parent, is the destination root or the path of an earlier entry. -/
def parentBefore (D : List Char) (pre : List Entry) (e : Entry) : Bool :=
  (e.isDir && entryPath D e == rootPath D)
  || (endsInName (entryPath D e)
      && ((entryPath D e).dropLast == rootPath D
          || pre.any (fun p => entryPath D p == (entryPath D e).dropLast)))

/-- Hard-link targets before the links: the target of a hard-link entry is the
path of an earlier entry that is not a directory. -/
def targetBefore (D : List Char) (pre : List Entry) (e : Entry) : Bool :=
  !e.isLink
  || pre.any (fun p => !p.isDir && entryPath D p == elements (dstpath D e.hdr.Linkname))

/-- A well-formed stream of supported entries, as far as the entries after `pre`
go: payloads that can be read, parents before children, hard-link targets
before the links. -/
def wellFormedFrom (D : List Char) : List Entry → List Entry → Bool
  | _, [] => true
  | pre, e :: es =>
    e.supported && e.copyErr.isNone && parentBefore D pre e && targetBefore D pre e
      && wellFormedFrom D (pre ++ [e]) es

/-- The parent of the entry is a directory of the stream: the entry is a directory
entry for the destination root itself, or its parent is the destination root
or the path of an earlier directory entry. -/
def dirParentBefore (D : List Char) (pre : List Entry) (e : Entry) : Bool :=
  (e.isDir && entryPath D e == rootPath D)
  || (endsInName (entryPath D e)
      && ((entryPath D e).dropLast == rootPath D
          || pre.any (fun p => p.isDir && entryPath D p == (entryPath D e).dropLast)))

/-- Every entry after `pre` has a parent that is a directory of the stream. -/
def dirParentsFrom (D : List Char) : List Entry → List Entry → Bool
  | _, [] => true
  | pre, e :: es => dirParentBefore D pre e && dirParentsFrom D (pre ++ [e]) es

/-- The path of the entry is new: no earlier entry has it, except that a directory
entry may repeat the path of earlier directory entries, and only a
directory entry may name the destination root. -/
def freshPath (D : List Char) (pre : List Entry) (e : Entry) : Bool :=
  if e.isDir then pre.all (fun p => entryPath D p != entryPath D e || p.isDir)
  else
    entryPath D e != rootPath D
      && pre.all (fun p => entryPath D p != entryPath D e)

/-- No two entries after `pre` collide, nor does one of them with an entry of `pre`. -/
def noCollisionFrom (D : List Char) : List Entry → List Entry → Bool
  | _, [] => true
  | pre, e :: es => freshPath D pre e && noCollisionFrom D (pre ++ [e]) es

/-- The destination `D` is an empty directory with the real path `CD`: the path
leads to a directory and the file system has no name below it. -/
def emptyDirAt (fs : FS) (D : List Char) (CD : List (List Char)) : Prop :=
  fs.locate (dstpath D []) = .ok CD
  ∧ (∃ ino, fs.node CD = some ino ∧ ino.kind = Kind.dir)
  ∧ ∀ sfx, sfx ≠ [] → fs.names (CD ++ sfx) = none

/-- What the entry `e` has left in the file system: a directory, a regular file
with the payload, a symlink with the literal link name, or a second name for
the inode of the link target, which is not a directory; at the path of the
entry. -/
def nodeOf (fs : FS) (D : List Char) (e : Entry) : Prop :=
  if e.isDir then fs.kindAt (dstpath D e.hdr.Name) = some Kind.dir
  else if e.isReg then fs.kindAt (dstpath D e.hdr.Name) = some (Kind.file e.payload)
  else if e.isSymlink then fs.kindAt (dstpath D e.hdr.Name) = some (Kind.symlink e.hdr.Linkname)
  else
    ∃ q o i ino, fs.locate (dstpath D e.hdr.Name) = .ok q
      ∧ fs.locate (dstpath D e.hdr.Linkname) = .ok o
      ∧ fs.names q = some i ∧ fs.names o = some i
      ∧ fs.inodes i = some ino ∧ ino.kind ≠ Kind.dir

/-- The file system `fs1` extends `fs`, changing the entry of no real path but `q`:
names and the kinds of inodes stay, inode numbers are not reused. -/
def Ext (fs fs1 : FS) (q : List (List Char)) : Prop :=
  fs1.wf
  ∧ (∀ r i, fs.names r = some i → fs1.names r = some i)
  ∧ (∀ i, i < fs.next → (fs1.inodes i).map (fun ino => ino.kind)
      = (fs.inodes i).map (fun ino => ino.kind))
  ∧ fs.next ≤ fs1.next
  ∧ (∀ r, r ≠ q → fs1.names r = fs.names r)

/-- The entry `e` is in its place: its path leads to the real path below that of the
destination root, where the file system has what the entry leaves. -/
def placed (fs : FS) (D : List Char) (CD : List (List Char)) (e : Entry) : Prop :=
  fs.locate (dstpath D e.hdr.Name) = .ok (CD ++ below D e)
  ∧ entryPath D e = rootPath D ++ below D e
  ∧ nodeOf fs D e

/-- The state of the reconstruction after the entries `pre`, started on `fs0`. -/
def ExtractInv (D : List Char) (CD : List (List Char)) (fs0 : FS) (pre : List Entry)
    (fs : FS) : Prop :=
  fs.wf
  ∧ (∀ q i, fs0.names q = some i → fs.names q = some i)
  ∧ (∀ q, fs.names q ≠ none → fs0.names q ≠ none ∨ ∃ e ∈ pre, CD ++ below D e = q)
  ∧ (∀ i, i < fs0.next → (fs.inodes i).map (fun ino => ino.kind)
      = (fs0.inodes i).map (fun ino => ino.kind))
  ∧ fs0.next ≤ fs.next
  ∧ (∀ e ∈ pre, placed fs D CD e)
/-! ## Specification vocabulary for the containment of the extraction -/

/-- The name has no `..` element after the prefix `rootfs/` is stripped. -/
def noDotDot (name : List Char) : Bool :=
  !(splitSlash (TrimPrefix name DOCKER_TAR_PREFIX)).contains ['.', '.']

/-- The elements that a name adds to those of the destination root. -/
def nameElements (name : List Char) : List (List Char) :=
  (splitSlash (TrimPrefix name DOCKER_TAR_PREFIX)).filter (fun e => !(e == []) && !(e == ['.']))

/-- The destination `D` is a directory with the real path `CD`. -/
def rootAt (fs : FS) (D : List Char) (CD : List (List Char)) : Prop :=
  fs.locate (dstpath D []) = .ok CD ∧ ∃ ino, fs.node CD = some ino ∧ ino.kind = Kind.dir

/-- The directory at `CD` has no symlink in it, at any depth. -/
def noSymlinkBelow (fs : FS) (CD : List (List Char)) : Prop :=
  ∀ sfx ino, fs.node (CD ++ sfx) = some ino → ino.kind.isSymlink = false

/-- The file system `fs` is `fs0` changed inside the directory at `CD` only: the
names that differ are below `CD`, an inode of `fs0` that differs has a name
in `fs0` at or below `CD`, and the names at or below `CD` are names of
such inodes or of new ones. -/
def Contained (CD : List (List Char)) (fs0 fs : FS) : Prop :=
  Grows fs0 fs
  ∧ (∀ q, fs.names q ≠ fs0.names q → ∃ sfx, sfx ≠ [] ∧ q = CD ++ sfx)
  ∧ (∀ i, i < fs0.next → fs.inodes i ≠ fs0.inodes i → ∃ sfx, fs0.names (CD ++ sfx) = some i)
  ∧ (∀ sfx i, fs.names (CD ++ sfx) = some i →
      fs0.next ≤ i ∨ ∃ sfx0, fs0.names (CD ++ sfx0) = some i)

/-! ## The openscap routes (image-inspector.go) -/

/-- What a handler has made of its `http.ResponseWriter` when it returns: the
status code and the body. A handler that writes nothing answers 200 with an
empty body. -/
structure Response where
  code : Nat
  body : List Char
deriving DecidableEq, Repr

/-- `http.StatusOK`. -/
def StatusOK : Nat := 200
/-- `http.StatusNotFound`. -/
def StatusNotFound : Nat := 404
/-- `http.StatusInternalServerError`. -/
def StatusInternalServerError : Nat := 500

/-- Go `http.Error(w, error, code)`: the message and a newline, with the code. -/
def httpError (error : List Char) (code : Nat) : Response := ⟨code, error ++ ['\n']⟩

/-- The handler `NewOpenscapImageInspector` registers for `OPENSCAP_URL_PATH`, run
on the inspector `i` as it is when the request arrives. -/
def openscapHandler (i : openscapImageInspector) : Response :=
  match i.meta.OpenSCAP.Status with
  | ScanStatus.StatusSuccess => ⟨StatusOK, i.scanReport⟩
  | ScanStatus.StatusError =>
    httpError ("OpenSCAP Error: ".toList ++ i.meta.OpenSCAP.ErrorMessage)
      StatusInternalServerError
  | _ => ⟨StatusOK, []⟩

/-- The handler `NewOpenscapImageInspector(opts, meta)` registers for
`OPENSCAP_REPORT_URL_PATH`; `opts` are the options the constructor was called
with. -/
def openscapReportHandler (opts : ImageInspectorOptions) (i : openscapImageInspector) :
    Response :=
  if !opts.OpenScapHTML then
    httpError "-openscap-html-report option was not chosen".toList StatusNotFound
  else
    match i.meta.OpenSCAP.Status with
    | ScanStatus.StatusSuccess => ⟨StatusOK, i.htmlScanReport⟩
    | ScanStatus.StatusError =>
      httpError ("OpenSCAP Error: ".toList ++ i.meta.OpenSCAP.ErrorMessage)
        StatusInternalServerError
    | _ => ⟨StatusOK, []⟩

/-! ## Validation of the options (pkg/cmd/types.go) -/

/-- What `os.Stat` finds at a path: nothing (`os.IsNotExist`), a directory, a file
that is not a directory, or another error. -/
inductive StatResult
  | notExist
  | isDir
  | notDir
  | failed
deriving DecidableEq, Repr

/-- The errors of `Validate`, one constructor per `fmt.Errorf`. -/
inductive ValidateError
  | socketMissing
  | nothingToDo
  | dockercfgAndUsername
  | passwordMissing
  | webdavWithoutServe
  | chrootWithoutWebdav
  | resultsDirWithoutScanType
  | notADirectory (path : List Char)
  | htmlWithoutOpenscap
  | doesNotExist (path : List Char)
  | parseFailed (conf : List Char)
  | alreadySpecified (name : List Char)
  | notAvailable (scantype : List Char)
deriving DecidableEq, Repr

/-- The value `yaml.Unmarshal` makes of the YAML text that `Validate` has
hard-coded: the one custom scanner `occlamdscan`. -/
def hardCodedCustomScans : List CustomScan :=
  [⟨"occlamdscan".toList, ["occlamdscan".toList, "--image".toList],
    ["occlamdscan".toList, "--container".toList], ["occlamdscan".toList, "--volume".toList]⟩]

/-- The initial value of the registry `ScanOptions`. -/
def initialScanOptions : List (List Char) := ["openscap".toList]

/-- The loop of `Validate` over the files that have to exist. -/
def checkFilesExist (stat : List Char → StatResult) : List (List Char) → Option ValidateError
  | [] => none
  | fl :: rest =>
    if 0 < fl.length ∧ stat fl = StatResult.notExist then some (.doesNotExist fl)
    else checkFilesExist stat rest

/-- The loop `for _, custom := range i.CustomScans` of `Validate`: the set
`scanNames` and the registry `ScanOptions` afterwards, and the error. -/
def registerCustomScans :
    List (List Char) → List (List Char) → List CustomScan →
      List (List Char) × Option ValidateError
  | _, ScanOptions, [] => (ScanOptions, none)
  | scanNames, ScanOptions, custom :: rest =>
    if custom.Name ∈ scanNames then (ScanOptions, some (.alreadySpecified custom.Name))
    else registerCustomScans (custom.Name :: scanNames) (ScanOptions ++ [custom.Name]) rest

/-- The loop `for _, scantype := range i.ScanType.Values` of `Validate`. -/
def checkScanTypes (ScanOptions : List (List Char)) : List (List Char) → Option ValidateError
  | [] => none
  | scantype :: rest =>
    if ScanOptions.any (fun opt => scantype == opt) then checkScanTypes ScanOptions rest
    else some (.notAvailable scantype)

/-- What `Validate` returns and leaves: the error, the options (it sets
`CustomScans`) and the registry `ScanOptions`. -/
structure Validated where
  err : Option ValidateError
  opts : ImageInspectorOptions
  ScanOptions : List (List Char)
deriving DecidableEq, Repr

/-- The last part of `Validate`, from `if len(i.CustomScanConf) != 0` on. -/
def validateScans (ScanOptions : List (List Char)) (i : ImageInspectorOptions) : Validated :=
  if i.CustomScanConf.length ≠ 0 then
    let i1 := { i with CustomScans := hardCodedCustomScans }
    match registerCustomScans ScanOptions ScanOptions i1.CustomScans with
    | (ScanOptions1, some err) => ⟨some err, i1, ScanOptions1⟩
    | (ScanOptions1, none) => ⟨checkScanTypes ScanOptions1 i1.ScanType, i1, ScanOptions1⟩
  else ⟨checkScanTypes ScanOptions i.ScanType, i, ScanOptions⟩

/-- The method `Validate` of the options `i`, with the registry `ScanOptions` as it
is before the call and the results `stat` of `os.Stat`. -/
def Validate (stat : List Char → StatResult) (ScanOptions : List (List Char))
    (i : ImageInspectorOptions) : Validated :=
  if i.URI.length = 0 then ⟨some .socketMissing, i, ScanOptions⟩
  else if i.Image.length + i.Container.length + i.Volume.length + i.Serve.length = 0 then
    ⟨some .nothingToDo, i, ScanOptions⟩
  else if 0 < i.DockerCfg.length ∧ 0 < i.Username.length then
    ⟨some .dockercfgAndUsername, i, ScanOptions⟩
  else if 0 < i.Username.length ∧ i.PasswordFile.length = 0 then
    ⟨some .passwordMissing, i, ScanOptions⟩
  else if i.Serve.length = 0 ∧ i.Webdav = true then ⟨some .webdavWithoutServe, i, ScanOptions⟩
  else if i.Webdav = false ∧ i.Chroot = true then ⟨some .chrootWithoutWebdav, i, ScanOptions⟩
  else if 0 < i.ScanResultsDir.length ∧ i.ScanType.length = 0 then
    ⟨some .resultsDirWithoutScanType, i, ScanOptions⟩
  else if 0 < i.ScanResultsDir.length ∧ stat i.ScanResultsDir = StatResult.notDir then
    ⟨some (.notADirectory i.ScanResultsDir), i, ScanOptions⟩
  else if i.OpenScapHTML = true ∧ HasValue i.ScanType "openscap".toList = false then
    ⟨some .htmlWithoutOpenscap, i, ScanOptions⟩
  else
    match checkFilesExist stat (i.DockerCfg ++ [i.PasswordFile, i.CustomScanConf]) with
    | some err => ⟨some err, i, ScanOptions⟩
    | none => validateScans ScanOptions i

/-! ## Pull progress: `decodeDockerPullMessages` and `aggregateBytesAndReport` -/

/-- Go's `int` on a 64-bit platform: the two's-complement value of the integer
`x`, in the range from `-2^63` to `2^63 - 1`. -/
def wrapInt (x : Int) : Int := (x + 2 ^ 63) % 2 ^ 64 - 2 ^ 63

/-- The type `progressDetailType` declared in `decodeDockerPullMessages`. -/
structure progressDetailType where
  Current : Int
  Total : Int
deriving DecidableEq, Repr

/-- The type `pullMessage` declared in `decodeDockerPullMessages`. -/
structure pullMessage where
  Status : List Char
  Id : List Char
  ProgressDetail : progressDetailType
deriving DecidableEq, Repr

/-- The read `last, existed := layersBytesDownloaded[id]`: `none` when the key
does not exist. -/
def layerGet (layersBytesDownloaded : List (List Char × Int)) (id : List Char) : Option Int :=
  match layersBytesDownloaded with
  | [] => none
  | (k, v) :: rest => if k = id then some v else layerGet rest id

/-- The assignment `layersBytesDownloaded[id] = bytes`. -/
def layerSet (layersBytesDownloaded : List (List Char × Int)) (id : List Char) (bytes : Int) :
    List (List Char × Int) :=
  match layersBytesDownloaded with
  | [] => [(id, bytes)]
  | (k, v) :: rest => if k = id then (id, bytes) :: rest else (k, v) :: layerSet rest id bytes

/-- The loop of `decodeDockerPullMessages` over the messages that `dec.Decode`
returns before its first error, from the map `layersBytesDownloaded`: the
values sent to `bytesChan`, in the order they are sent. -/
def decodeLoop (layersBytesDownloaded : List (List Char × Int)) : List pullMessage → List Int
  | [] => []
  | v :: rest =>
    if v.Status = "Downloading".toList then
      let bytes := v.ProgressDetail.Current
      let last :=
        match layerGet layersBytesDownloaded v.Id with
        | some last => last
        | none => 0
      wrapInt (bytes - last) :: decodeLoop (layerSet layersBytesDownloaded v.Id bytes) rest
    else
      decodeLoop layersBytesDownloaded rest

/-- The map `layersBytesDownloaded` after the loop of `decodeDockerPullMessages`
has gone over the messages. -/
def layersAfter (layersBytesDownloaded : List (List Char × Int)) :
    List pullMessage → List (List Char × Int)
  | [] => layersBytesDownloaded
  | v :: rest =>
    if v.Status = "Downloading".toList then
      layersAfter (layerSet layersBytesDownloaded v.Id v.ProgressDetail.Current) rest
    else
      layersAfter layersBytesDownloaded rest

/-- `decodeDockerPullMessages`: the values sent to `bytesChan` before it is closed. -/
def decodeDockerPullMessages (messages : List pullMessage) : List Int :=
  decodeLoop [] messages

/-- One turn of the `select` of `aggregateBytesAndReport` before the channel is
closed: a value received from `bytesChan`, or a tick of the ticker. -/
inductive SelectCase
  | recv (bytes : Int)
  | tick
deriving DecidableEq, Repr

/-- The values received from `bytesChan` in a sequence of turns. -/
def received : List SelectCase → List Int
  | [] => []
  | SelectCase.recv bytes :: rest => bytes :: received rest
  | SelectCase.tick :: rest => received rest

/-- The loop of `aggregateBytesAndReport` from the value `bytesDownloaded`, over
the turns that come before the channel is closed: the value of
`bytesDownloaded` when the closed channel is seen. A tick only logs. -/
def aggregateLoop (bytesDownloaded : Int) : List SelectCase → Int
  | [] => bytesDownloaded
  | SelectCase.recv bytes :: rest => aggregateLoop (wrapInt (bytesDownloaded + bytes)) rest
  | SelectCase.tick :: rest => aggregateLoop bytesDownloaded rest

/-- `aggregateBytesAndReport`: the total it holds when the channel is closed. -/
def aggregateBytesAndReport (turns : List SelectCase) : Int :=
  aggregateLoop 0 turns

/-- The spec's words: a message whose status is `Downloading`. -/
def isDownloading (v : pullMessage) : Bool :=
  decide (v.Status = "Downloading".toList)

/-- The spec's words: the layer ids, those of the `Downloading` messages. -/
def layerIds (messages : List pullMessage) : List (List Char) :=
  ((messages.filter isDownloading).map (fun v => v.Id)).dedup

/-- The spec's words: the `Current` value of the last `Downloading` message of
the layer `id`, and 0 when the layer has none. -/
def lastCurrent (id : List Char) (messages : List pullMessage) : Int :=
  match (messages.filter (fun v => isDownloading v && decide (v.Id = id))).getLast? with
  | some v => v.ProgressDetail.Current
  | none => 0

/-- The spec's words: the sum over all layer ids of the `Current` value of that
layer's last `Downloading` message. -/
def lastCurrentTotal (messages : List pullMessage) : Int :=
  ((layerIds messages).map (fun id => lastCurrent id messages)).sum

/-- Progress messages of a pull of two layers. -/
def pullMessages : List pullMessage :=
  [⟨"Pulling fs layer".toList, "a".toList, ⟨0, 0⟩⟩,
   ⟨"Downloading".toList, "a".toList, ⟨10, 30⟩⟩,
   ⟨"Downloading".toList, "b".toList, ⟨5, 20⟩⟩,
   ⟨"Downloading".toList, "a".toList, ⟨30, 30⟩⟩,
   ⟨"Download complete".toList, "a".toList, ⟨0, 0⟩⟩,
   ⟨"Downloading".toList, "b".toList, ⟨20, 20⟩⟩]

/-- Progress messages of a pull of two layers whose last `Current` values add up
to more than the largest `int`. -/
def hugePullMessages : List pullMessage :=
  [⟨"Downloading".toList, "a".toList, ⟨9223372036854775807, 9223372036854775807⟩⟩,
   ⟨"Downloading".toList, "b".toList, ⟨1025, 1025⟩⟩]

/-! ## Specification vocabulary for a second run of the tar reconstructor -/

/-- The inode that `os.Chmod`, `os.OpenFile` and `os.Chtimes` reach from the path
of the entry, following the symlinks on the way. -/
def targetOf (fs : FS) (D : List Char) (e : Entry) : Option Nat :=
  match fs.resolve (dstpath D e.hdr.Name) with
  | .ok q => fs.names q
  | .error _ => none

/-- The path is one for which `os.Mkdir` answers that it exists. -/
def mkdirExists (fs : FS) (p : List Char) : Prop :=
  ∃ q, fs.locate p = .ok q ∧ (fs.names q ≠ none ∨ creatable q = false)

/-- What an entry sets on an inode that exists: a directory entry the mode, a
regular-file entry the bytes, and both the two timestamps. -/
def overwrite (e : Entry) (ino : Inode) : Inode :=
  if e.isDir then
    { ino with mode := entryMode e.hdr, atime := e.hdr.AccessTime, mtime := e.hdr.ModTime }
  else
    { ino with kind := Kind.file e.payload, atime := e.hdr.AccessTime, mtime := e.hdr.ModTime }

/-- The umask clears a bit of the mode that a directory entry asks for. -/
def umaskClears (umask : Nat) (e : Entry) : Prop :=
  entryMode e.hdr &&& (umask &&& 0o777) ≠ 0

/-- The inode `x` agrees with the inode `r` that number `i` has in `R`, in what none
of the entries `es` sets on `i`: the kind and bytes unless a regular-file
entry reaches `i`; the mode unless a directory entry of `es` reaches `i`, or
`x` has the mode of a directory entry of `all` that reaches `i` and of which
the umask clears a bit. -/
def Agree (D : List Char) (R : FS) (all es : List Entry) (i : Nat) (r x : Inode) : Prop :=
  (x.mode = r.mode
    ∨ (∃ e ∈ es, e.isDir = true ∧ targetOf R D e = some i)
    ∨ (∃ e ∈ all, e.isDir = true ∧ targetOf R D e = some i ∧ x.mode = entryMode e.hdr
        ∧ umaskClears R.umask e))
  ∧ (x.kind = r.kind ∨ ∃ e ∈ es, e.isReg = true ∧ targetOf R D e = some i)

/-- The allocated inodes of `fs` are in `R`, and agree with `R` in what the
entries `es` do not set. -/
def Frame (D : List Char) (R : FS) (all es : List Entry) (fs : FS) : Prop :=
  ∀ i ino, i < fs.next → fs.inodes i = some ino →
    ∃ r, R.inodes i = some r ∧ Agree D R all es i r ino

/-- The file system `T` has the names and inodes of `R`, and its inodes agree with
those of `R` in what the entries `es` do not set. -/
def Sim (D : List Char) (R : FS) (all es : List Entry) (T : FS) : Prop :=
  T.names = R.names ∧ T.next = R.next ∧ T.umask = R.umask
  ∧ (∀ i, R.inodes i = none → T.inodes i = none)
  ∧ (∀ i r, R.inodes i = some r →
      ∃ t, T.inodes i = some t ∧ t.kind.shape = r.kind.shape ∧ Agree D R all es i r t)

/-! ## Concrete inputs used by the examples -/

/-- The position of the real path `p` in the list `ds`. -/
def indexIn : List (List (List Char)) → List (List Char) → Nat
  | [], _ => 0
  | d :: ds, p => if d = p then 0 else indexIn ds p + 1

/-- A file system holding exactly the directories `ds`, given by their real paths
and numbered in order; the umask is 022. -/
def FS.ofDirs (ds : List (List Char)) : FS :=
  { names := fun q => if q ∈ ds.map elements then some (indexIn (ds.map elements) q) else none
    inodes := fun i => if i < ds.length then some ⟨Kind.dir, 0o755, 0, 0⟩ else none
    next := ds.length
    clock := 0
    umask := 0o022 }

/-- A host with `/`, `/var`, `/var/tmp` and the empty directory `/var/tmp/d`. -/
def hostFS : FS :=
  FS.ofDirs ["/".toList, "/var".toList, "/var/tmp".toList, "/var/tmp/d".toList]

/-- An entry with the given type, name, link name and payload and mode 0444. -/
def mkEntry (typeflag : Char) (name linkname payload : List Char) : Entry :=
  ⟨⟨name, linkname, typeflag, 0o444, 7, 9⟩, payload, none⟩

/-- An environment in which every call succeeds: the image is pulled at the
first attempt, the container exports the stream `stream`, and one custom
scanner command succeeds. -/
def okEnv (stream : TarStream) : Env :=
  { NewClient := fun _ => none
    ReadFile := fun _ => .ok "report".toList
    OpenDockerCfg := fun _ => .openFails "no such file".toList
    rangeOrder := fun m => m
    PullImage := fun _ _ => none
    randInt := .ok "00000000000004d2".toList
    CreateContainer := fun _ => .ok "c1".toList
    InspectContainer := fun _ => .ok "sha256:1".toList
    InspectImage := fun id => .ok ⟨id⟩
    DownloadFromContainer := fun _ => (⟨stream.entries, .ended stream.endErr false⟩, none)
    tempSuffixes := fun _ => ["123".toList]
    NewDefaultScanner := fun _ resultsDir _ _ =>
      ⟨"openscap".toList, fun _ _ => none, resultsDir ++ "/results-arf.xml".toList,
        resultsDir ++ "/results.html".toList⟩
    runCommand := fun _ _ => none
    Serve := fun _ => none }

/-- The default options of `NewDefaultImageInspectorOptions`, with the image
`img` to inspect. -/
def imageOptions : ImageInspectorOptions :=
  { ConfigFilePath := [], URI := "unix:///var/run/docker.sock".toList, Image := "img".toList,
    Container := [], Volume := [], CustomScanConf := [], DstPath := [], Serve := [],
    Webdav := false, Chroot := false, DockerCfg := [], Username := [], PasswordFile := [],
    ScanType := [], ScanResultsDir := [], OpenScapHTML := false,
    CVEUrlPath := "https://www.redhat.com/security/data/metrics/ds/".toList,
    CustomScans := [] }

/-- An environment in which every docker config file parses and has the one entry `reg`. -/
def regCfgEnv : Env :=
  { okEnv ⟨[], none⟩ with
    OpenDockerCfg := fun _ => .auths [("reg".toList, ⟨"u".toList, "p".toList, [], []⟩)] }

/-- An environment in which the first two pulls fail and the third succeeds. -/
def thirdPullEnv : Env :=
  { regCfgEnv with
    PullImage := fun n _ => if n < 2 then some ("denied".toList ++ [Char.ofNat (48 + n)]) else none }

/-- An environment in which every pull fails, the n-th with the error `denied<n>`. -/
def noPullEnv : Env :=
  { regCfgEnv with PullImage := fun n _ => some ("denied".toList ++ [Char.ofNat (48 + n)]) }

/-- A fresh inspector for the image `img` extracted into `/var/tmp/d`, with HTML
reporting requested. -/
def htmlInspector : openscapImageInspector :=
  NewOpenscapImageInspector
    { imageOptions with
      DstPath := "/var/tmp/d".toList, ScanType := ["openscap".toList], OpenScapHTML := true,
      ScanResultsDir := "/var/tmp/r".toList }
    (NewInspectorMetadata ⟨"sha256:1".toList⟩)

/-- An environment in which the HTML report cannot be read back. -/
def noHtmlEnv : Env :=
  { okEnv ⟨[], none⟩ with
    ReadFile := fun f =>
      if f = "/var/tmp/r/results.html".toList then .error "no such file".toList
      else .ok "report".toList }

/-- A stream that ends in a read error right away: `tr.Next()` fails on a header
block that is not valid. -/
def badStream : TarStream := ⟨[], some "archive/tar: invalid tar header".toList⟩

/-- Two symlink entries with different names, `rootfs/a` and `a`, that are mapped
to the same path. -/
def collidingLinks : List Entry :=
  [mkEntry TypeSymlink "rootfs/a".toList "x".toList [],
   mkEntry TypeSymlink "a".toList "x".toList []]

/-- A stream with the root directory, a directory, a file in it, a symlink, a hard
link to the file, and the directory once more. -/
def sampleTree : List Entry :=
  [mkEntry TypeDir "rootfs/".toList [] [],
   mkEntry TypeDir "rootfs/etc".toList [] [],
   mkEntry TypeReg "rootfs/etc/passwd".toList [] "root".toList,
   mkEntry TypeSymlink "rootfs/sh".toList "/bin/busybox".toList [],
   mkEntry TypeLink "rootfs/etc/pw".toList "rootfs/etc/passwd".toList [],
   mkEntry TypeDir "rootfs/etc/".toList [] []]

/-- A regular file `rootfs/pipe` with times 7 and 9, followed by a FIFO entry of
the same name with times 1 and 2. -/
def pipeStream : List Entry :=
  [⟨⟨"rootfs/pipe".toList, [], TypeReg, 0o644, 7, 9⟩, "data".toList, none⟩,
   ⟨⟨"rootfs/pipe".toList, [], TypeFifo, 0o644, 1, 2⟩, [], none⟩]

/-- The inspector `htmlInspector` after a scan that succeeded with the two reports
`arf` and `html`. -/
def scannedInspector : openscapImageInspector :=
  { htmlInspector with
    scanReport := "arf".toList, htmlScanReport := "html".toList
    meta := { htmlInspector.meta with OpenSCAP := ⟨ScanStatus.StatusSuccess, []⟩ } }

/-- Options that select the scanners `openscap` and `occlamdscan`, with a custom
scan configuration file. -/
def customOptions : ImageInspectorOptions :=
  { imageOptions with
    CustomScanConf := "custom.yaml".toList
    ScanType := ["occlamdscan".toList, "openscap".toList] }

/-- Validated options of a run that inspects `img`, extracted into `/var/tmp/d`,
with the scanners `openscap` and `occlamdscan`, then serves on port 8080;
the results directory `/no/such/dir` has no parent. -/
def noResultsDirOptions : ImageInspectorOptions :=
  { imageOptions with
    DstPath := "/var/tmp/d".toList
    Serve := ":8080".toList
    CustomScanConf := "custom.yaml".toList
    ScanType := ["openscap".toList, "occlamdscan".toList]
    ScanResultsDir := "/no/such/dir".toList
    CustomScans := hardCodedCustomScans }

/-- An environment in which the openscap scanner fails and the command of the
custom scanner fails. -/
def failingScannersEnv : Env :=
  { okEnv ⟨[], none⟩ with
    NewDefaultScanner := fun _ resultsDir _ _ =>
      ⟨"openscap".toList, fun _ _ => some "oscap failed".toList,
        resultsDir ++ "/results-arf.xml".toList, resultsDir ++ "/results.html".toList⟩
    runCommand := fun _ _ => some "exit status 1".toList }

/-- A stream with one directory that everybody may write. -/
def publicDir : List Entry :=
  [⟨⟨"rootfs/pub".toList, [], TypeDir, 0o777, 1, 2⟩, [], none⟩]

/-- A stream of directories and regular files in which a directory and a file
come twice, with other modes, times and bytes. -/
def dirsAndFiles : List Entry :=
  [⟨⟨"rootfs/etc".toList, [], TypeDir, 0o755, 1, 2⟩, [], none⟩,
   ⟨⟨"rootfs/etc/passwd".toList, [], TypeReg, 0o644, 3, 4⟩, "root".toList, none⟩,
   ⟨⟨"rootfs/etc".toList, [], TypeDir, 0o700, 5, 6⟩, [], none⟩,
   ⟨⟨"rootfs/etc/passwd".toList, [], TypeRegA, 0o600, 7, 8⟩, "toor".toList, none⟩]

/-- An environment in which `DownloadFromContainer` fails before it has written a
byte. -/
def noBytesEnv : Env :=
  { okEnv ⟨[], none⟩ with
    DownloadFromContainer := fun _ => (⟨[], .stops⟩, some "API error (500)".toList) }

/-- An environment in which the container exports a regular file whose directory
is missing, and then the end of the archive. -/
def orphanEnv : Env :=
  { okEnv ⟨[], none⟩ with
    DownloadFromContainer := fun _ =>
      (⟨[⟨⟨"rootfs/a/b".toList, [], TypeReg, 0o644, 7, 9⟩, "x".toList, none⟩],
        .ended none false⟩, none) }

/-- A stream with one symlink entry whose target is empty. -/
def emptyTarget : List Entry :=
  [mkEntry TypeSymlink "rootfs/l".toList [] []]

/-- A stream with the directory `usr`, the symlink `bin` to it, and the regular file
`bin/sh`. -/
def usrMerge : List Entry :=
  [mkEntry TypeDir "rootfs/usr".toList [] [],
   mkEntry TypeSymlink "rootfs/bin".toList "usr".toList [],
   mkEntry TypeReg "rootfs/bin/sh".toList [] "#!".toList]

/-- A host with `/`, `/var`, `/var/etc`, `/var/tmp` and the empty directory
`/var/tmp/d`. -/
def hostWithEtc : FS :=
  FS.ofDirs ["/".toList, "/var".toList, "/var/etc".toList, "/var/tmp".toList,
    "/var/tmp/d".toList]

/-- A stream with the symlink `x` to `/var/etc/passwd` and then the regular file
`x`. -/
def symlinkThenFile : List Entry :=
  [mkEntry TypeSymlink "rootfs/x".toList "/var/etc/passwd".toList [],
   mkEntry TypeReg "rootfs/x".toList [] "root::0:0".toList]

/-- The host `hostWithEtc` where the destination `/var/tmp/d` has the symlink `x` to
`/var/etc` in it. -/
def hostWithLink : FS :=
  hostWithEtc.create (elements "/var/tmp/d/x".toList)
    ⟨Kind.symlink "/var/etc".toList, 0o777, 0, 0⟩

/-- A stream with the one regular file `x/passwd`. -/
def fileBelowLink : List Entry :=
  [mkEntry TypeReg "rootfs/x/passwd".toList [] "root::0:0".toList]

/-! ## Theorems: `path.Clean` and `path.Join` -/

theorem splitSlash_slash (cs : List Char) : splitSlash ('/' :: cs) = [] :: splitSlash cs := by
  simp [splitSlash]

theorem splitSlash_eq (l : List Char) :
    splitSlash l = firstElem l ::
      (match l.dropWhile (fun x => x != '/') with
        | [] => []
        | _ :: r => splitSlash r) := by
  induction l with
  | nil => simp [splitSlash, firstElem]
  | cons c cs ih =>
    by_cases hc : c = '/'
    · subst hc
      simp [splitSlash, firstElem]
    · have h1 : splitSlash (c :: cs) = (c :: firstElem cs) ::
          (match cs.dropWhile (fun x => x != '/') with
            | [] => []
            | _ :: r => splitSlash r) := by
        rw [splitSlash, if_neg hc, ih]
      rw [h1]
      simp [firstElem, List.takeWhile_cons, List.dropWhile_cons, hc]

theorem splitSlash_ne_nil (l : List Char) : splitSlash l ≠ [] := by
  rw [splitSlash_eq]; simp

theorem splitSlash_append (a b : List Char) :
    splitSlash (a ++ '/' :: b) = splitSlash a ++ splitSlash b := by
  induction a with
  | nil => simp [splitSlash]
  | cons c a ih =>
    by_cases hc : c = '/'
    · subst hc
      simp [splitSlash, ih]
    · obtain ⟨e, es, hes⟩ := List.exists_cons_of_ne_nil (splitSlash_ne_nil a)
      have h1 : splitSlash (c :: (a ++ '/' :: b)) =
          (match splitSlash (a ++ '/' :: b) with
            | [] => [[c]]
            | e :: es => (c :: e) :: es) := by
        rw [splitSlash, if_neg hc]
      have h2 : splitSlash (c :: a) = (c :: e) :: es := by
        rw [splitSlash, if_neg hc, hes]
      rw [List.cons_append, h1, ih, h2, hes]
      rfl

theorem not_slash_mem_splitSlash (l e : List Char) (he : e ∈ splitSlash l) : '/' ∉ e := by
  induction l generalizing e with
  | nil => simp [splitSlash] at he; simp [he]
  | cons c cs ih =>
    by_cases hc : c = '/'
    · subst hc
      rw [splitSlash_slash] at he
      rcases List.mem_cons.1 he with h | h
      · simp [h]
      · exact ih e h
    · obtain ⟨e1, es, hes⟩ := List.exists_cons_of_ne_nil (splitSlash_ne_nil cs)
      simp only [splitSlash, if_neg hc, hes] at he
      rcases List.mem_cons.1 he with h | h
      · have h1 := ih e1 (by simp [hes])
        subst h
        simp only [List.mem_cons, not_or]
        exact ⟨fun h2 => hc h2.symm, h1⟩
      · exact ih e (by simp [hes, h])

theorem firstElem_eq_self (e : List Char) (h : '/' ∉ e) : firstElem e = e := by
  unfold firstElem
  rw [List.takeWhile_eq_self_iff]
  intro x hx
  have : x ≠ '/' := fun hx2 => h (hx2 ▸ hx)
  simpa using this

theorem firstElem_append_slash (a b : List Char) :
    firstElem (a ++ '/' :: b) = firstElem a := by
  induction a with
  | nil => simp [firstElem]
  | cons c a ih =>
    by_cases hc : c = '/'
    · simp [firstElem, hc]
    · simp only [firstElem] at ih
      simp [firstElem, List.takeWhile_cons, hc, ih]

/-- The loop of `path.Clean` agrees with the fold of `elemStep` over the elements. -/
theorem cleanLoop_eq_fold (rooted : Bool) (fuel : Nat) (path : List Char) (s : CleanState)
    (h : path.length ≤ fuel) :
    cleanLoop rooted fuel path s = (splitSlash path).foldl (elemStep rooted) s := by
  induction fuel generalizing path s with
  | zero =>
    have : path = [] := List.length_eq_zero.1 (Nat.le_zero.1 h)
    subst this
    simp [cleanLoop, splitSlash, elemStep]
  | succ fuel ih =>
    cases path with
    | nil => simp [cleanLoop, splitSlash, elemStep]
    | cons c rest =>
      have hr : rest.length ≤ fuel := by simpa using h
      rw [cleanLoop]
      by_cases hc : c = '/'
      · rw [if_pos hc, ih rest s hr]; subst hc
        simp [splitSlash_slash, elemStep]
      · rw [if_neg hc]
        have hsplit := splitSlash_eq (c :: rest)
        have hfe : firstElem (c :: rest) = c :: firstElem rest := by
          simp [firstElem, List.takeWhile_cons, hc]
        have hdw : (c :: rest).dropWhile (fun x => x != '/')
            = rest.dropWhile (fun x => x != '/') := by
          simp [List.dropWhile_cons, hc]
        rw [hfe, hdw] at hsplit
        have hsr := splitSlash_eq rest
        -- the fold over the elements after the first one, from the suffix after it
        have htail : ∀ t : CleanState,
            cleanLoop rooted fuel (rest.dropWhile (fun x => x != '/')) t
              = (match rest.dropWhile (fun x => x != '/') with
                  | [] => []
                  | _ :: r => splitSlash r).foldl (elemStep rooted) t := by
          intro t
          have hlen : (rest.dropWhile (fun x => x != '/')).length ≤ fuel :=
            le_trans (List.Sublist.length_le (List.dropWhile_sublist _)) hr
          rw [ih _ t hlen]
          cases hd : rest.dropWhile (fun x => x != '/') with
          | nil => simp [splitSlash, elemStep]
          | cons x r =>
            have hx : x = '/' := by
              have := List.head_dropWhile_not (fun x => x != '/') rest
                (by rw [hd]; simp)
              simpa [hd] using this
            subst hx
            simp [splitSlash_slash, elemStep]
        by_cases h1 : c = '.' ∧ (rest = [] ∨ rest.head? = some '/')
        · rw [if_pos h1, ih rest s hr]
          obtain ⟨hc1, hrest⟩ := h1
          subst hc1
          have hf : firstElem rest = [] := by
            rcases hrest with h2 | h2
            · simp [h2, firstElem]
            · cases rest with
              | nil => simp at h2
              | cons x r => simp at h2; simp [firstElem, h2]
          rw [hsplit, hsr, hf]
          simp [elemStep]
        · rw [if_neg h1]
          by_cases h2 : c = '.' ∧ rest.head? = some '.'
              ∧ (rest.tail = [] ∨ rest.tail.head? = some '/')
          · rw [if_pos h2]
            obtain ⟨hc1, hh, ht⟩ := h2
            subst hc1
            cases rest with
            | nil => simp at hh
            | cons x r =>
              simp at hh; subst hh
              have hr2 : r.length ≤ fuel := by
                simp at hr; omega
              simp only [List.tail_cons] at ht ⊢
              rw [ih r _ hr2]
              have hf : firstElem r = [] := by
                rcases ht with h3 | h3
                · simp [h3, firstElem]
                · cases r with
                  | nil => simp at h3
                  | cons y r2 => simp at h3; simp [firstElem, h3]
              have hfr : firstElem ('.' :: r) = ['.'] := by
                simp [firstElem, List.takeWhile_cons] at hf ⊢
                exact hf
              rw [hsplit, hfr, splitSlash_eq r, hf]
              have hdw2 : ('.' :: r).dropWhile (fun x => x != '/')
                  = r.dropWhile (fun x => x != '/') := by
                simp [List.dropWhile_cons]
              rw [hdw2]
              simp [elemStep]
          · rw [if_neg h2, hdw, htail, hsplit]
            have hreal : elemStep rooted s (c :: firstElem rest)
                = realElem rooted s ((c :: rest).takeWhile (fun x => x != '/')) := by
              have hfe2 : (c :: rest).takeWhile (fun x => x != '/') = c :: firstElem rest := hfe
              rw [hfe2]
              have hne1 : c :: firstElem rest ≠ ['.'] := by
                intro h3
                simp at h3
                apply h1
                refine ⟨h3.1, ?_⟩
                cases rest with
                | nil => simp
                | cons x r =>
                  right
                  have h4 := h3.2
                  simp [firstElem, List.takeWhile_cons] at h4
                  simp [h4]
              have hne2 : c :: firstElem rest ≠ ['.', '.'] := by
                intro h3
                simp at h3
                apply h2
                refine ⟨h3.1, ?_⟩
                cases rest with
                | nil => simp [firstElem] at h3
                | cons x r =>
                  have h4 := h3.2
                  by_cases hx : x = '/'
                  · simp [firstElem, List.takeWhile_cons, hx] at h4
                  · simp [firstElem, List.takeWhile_cons, hx] at h4
                    refine ⟨by simp [h4.1], ?_⟩
                    cases r with
                    | nil => simp
                    | cons y r2 =>
                      right
                      have h5 := h4.2
                      simp [List.takeWhile_cons] at h5
                      simp [h5]
              simp [elemStep, hne1, hne2]
            simp [List.foldl_cons, hreal]

/-- Fuel beyond the length of the path does not change the result of the loop. -/
theorem cleanLoop_fuel (rooted : Bool) (fuel : Nat) (path : List Char) (s : CleanState)
    (h : path.length ≤ fuel) :
    cleanLoop rooted fuel path s = cleanLoop rooted path.length path s := by
  rw [cleanLoop_eq_fold rooted fuel path s h, cleanLoop_eq_fold rooted _ path s le_rfl]

theorem Clean_eq_cleanState (path : List Char) (h : path ≠ []) :
    Clean path = if (cleanState path).out = [] then ['.'] else (cleanState path).out := by
  have hlen : (cleanInit path).2.1.length ≤ path.length := by
    unfold cleanInit
    split <;> simp
  simp only [Clean, if_neg h, cleanState, cleanLoop_eq_fold _ _ _ _ hlen]

theorem Join_pair (D n : List Char) (hD : D ≠ []) : Join [D, n] = Clean (D ++ '/' :: n) := by
  have hsum : ¬ (List.map List.length [D, n]).sum = 0 := by
    have : 0 < D.length := List.length_pos.2 hD
    simp only [List.map_cons, List.map_nil, List.sum_cons, List.sum_nil]
    omega
  simp [Join, hsum, joinBuf, hD]

theorem cleanState_append (D n : List Char) (hD : D ≠ []) :
    cleanState (D ++ '/' :: n)
      = (splitSlash n).foldl (elemStep (cleanInit D).1) (cleanState D) := by
  obtain ⟨c, cs, rfl⟩ := List.exists_cons_of_ne_nil hD
  by_cases hc : c = '/'
  · subst hc
    simp [cleanState, cleanInit, splitSlash_append]
  · simp only [cleanState, cleanInit, List.cons_append, List.head?_cons, Option.some.injEq,
      hc, if_false]
    rw [← List.cons_append, splitSlash_append, List.foldl_append]

theorem le_backtrack (out : List Char) (dotdot w : Nat) (h : dotdot ≤ w) :
    dotdot ≤ backtrack out dotdot w := by
  induction w with
  | zero => simpa [backtrack] using h
  | succ w ih =>
    rw [backtrack]
    split
    · next hc => exact ih (by omega)
    · exact h

theorem RootedInv_elemStep (s : CleanState) (e : List Char) (h : RootedInv s) :
    RootedInv (elemStep true s e) := by
  obtain ⟨hd, hh⟩ := h
  unfold elemStep
  split
  · exact ⟨hd, hh⟩
  · split
    · unfold dotdotElem
      split
      · next hlt =>
        refine ⟨hd, ?_⟩
        have hb := le_backtrack s.out s.dotdot (s.out.length - 1) (by omega)
        cases hout : s.out with
        | nil => simp [hout] at hh
        | cons x xs =>
          rw [hout] at hh hb
          obtain ⟨k, hk⟩ : ∃ k, backtrack (x :: xs) s.dotdot ((x :: xs).length - 1) = k + 1 :=
            ⟨backtrack (x :: xs) s.dotdot ((x :: xs).length - 1) - 1, by omega⟩
          simp only [hk, List.take_succ_cons, List.head?_cons]
          simpa using hh
      · simp only [Bool.not_true, Bool.false_eq_true, if_false]
        exact ⟨hd, hh⟩
    · unfold realElem
      refine ⟨hd, ?_⟩
      cases hout : s.out with
      | nil => simp [hout] at hh
      | cons x xs =>
        rw [hout] at hh
        simp only [List.head?_cons] at hh
        split <;> simp [hh]

theorem RootedInv_foldl (es : List (List Char)) (s : CleanState) (h : RootedInv s) :
    RootedInv (es.foldl (elemStep true) s) := by
  induction es generalizing s with
  | nil => exact h
  | cons e es ih => exact ih _ (RootedInv_elemStep s e h)

theorem RootedInv_cleanState (cs : List Char) : RootedInv (cleanState ('/' :: cs)) := by
  simp only [cleanState, cleanInit, List.head?_cons, if_true]
  exact RootedInv_foldl _ _ ⟨rfl, rfl⟩

theorem out_prefix_foldl (rooted : Bool) (es : List (List Char)) (s : CleanState)
    (h : ∀ e ∈ es, e ≠ ['.', '.']) :
    s.out <+: (es.foldl (elemStep rooted) s).out := by
  induction es generalizing s with
  | nil => exact List.prefix_refl _
  | cons e es ih =>
    have ih2 := ih (elemStep rooted s e) (fun x hx => h x (List.mem_cons_of_mem _ hx))
    have he : e ≠ ['.', '.'] := h e (List.mem_cons_self _ _)
    refine List.IsPrefix.trans ?_ ih2
    unfold elemStep
    split
    · exact List.prefix_refl _
    · unfold realElem
      split
      · simp only [List.append_assoc]; exact List.prefix_append _ _
      · exact List.prefix_append _ _

theorem out_slash_foldl (rooted : Bool) (es : List (List Char)) (s : CleanState)
    (h : ∀ e ∈ es, e ≠ ['.', '.']) (hs : slashNeeded rooted s.out = true) :
    (es.foldl (elemStep rooted) s).out = s.out
      ∨ (s.out ++ ['/']) <+: (es.foldl (elemStep rooted) s).out := by
  induction es generalizing s with
  | nil => exact Or.inl rfl
  | cons e es ih =>
    have hes : ∀ x ∈ es, x ≠ ['.', '.'] := fun x hx => h x (List.mem_cons_of_mem _ hx)
    have he : e ≠ ['.', '.'] := h e (List.mem_cons_self _ _)
    by_cases ht : e = [] ∨ e = ['.']
    · have : elemStep rooted s e = s := by simp [elemStep, ht]
      rw [List.foldl_cons, this]
      exact ih s hes hs
    · right
      have hstep : (elemStep rooted s e).out = s.out ++ ['/'] ++ e := by
        unfold slashNeeded at hs
        simp only [elemStep, if_neg ht, if_neg he, realElem, hs, if_true]
      have hp := out_prefix_foldl rooted es (elemStep rooted s e) hes
      rw [hstep] at hp
      exact List.IsPrefix.trans (List.prefix_append _ _) hp

theorem out_first_foldl (es : List (List Char)) (s : CleanState)
    (h : ∀ e ∈ es, e ≠ ['.', '.'] ∧ '/' ∉ e) (hs : s.out = []) :
    (es.foldl (elemStep false) s).out = []
      ∨ (firstElem (es.foldl (elemStep false) s).out ≠ []
          ∧ firstElem (es.foldl (elemStep false) s).out ≠ ['.', '.']) := by
  induction es generalizing s with
  | nil => exact Or.inl hs
  | cons e es ih =>
    have hes : ∀ x ∈ es, x ≠ ['.', '.'] ∧ '/' ∉ x :=
      fun x hx => h x (List.mem_cons_of_mem _ hx)
    obtain ⟨he, hsl⟩ := h e (List.mem_cons_self _ _)
    by_cases ht : e = [] ∨ e = ['.']
    · have : elemStep false s e = s := by simp [elemStep, ht]
      rw [List.foldl_cons, this]
      exact ih s hes hs
    · right
      have hstep : (elemStep false s e).out = e := by
        simp [elemStep, ht, he, realElem, hs]
      have hne : e ≠ [] := fun h0 => ht (Or.inl h0)
      have hneed : slashNeeded false (elemStep false s e).out = true := by
        rw [hstep]
        simp [slashNeeded, hne]
      rw [List.foldl_cons]
      rcases out_slash_foldl false es (elemStep false s e) (fun x hx => (hes x hx).1) hneed
        with h1 | ⟨t, h1⟩
      · rw [h1, hstep, firstElem_eq_self e hsl]
        exact ⟨hne, he⟩
      · rw [← h1, hstep]
        have : e ++ ['/'] ++ t = e ++ '/' :: t := by simp
        rw [this, firstElem_append_slash, firstElem_eq_self e hsl]
        exact ⟨hne, he⟩

/-- The core of the containment property: joined to a non-empty destination, a
name without a `..` element stays inside the destination. -/
theorem liesInside_Join (D n : List Char) (hD : D ≠ [])
    (h : ['.', '.'] ∉ splitSlash n) : liesInside D (Join [D, n]) = true := by
  have hne : ∀ e ∈ splitSlash n, e ≠ ['.', '.'] := fun e he h2 => h (h2 ▸ he)
  have hns : ∀ e ∈ splitSlash n, e ≠ ['.', '.'] ∧ '/' ∉ e :=
    fun e he => ⟨hne e he, not_slash_mem_splitSlash n e he⟩
  rw [Join_pair D n hD, Clean_eq_cleanState _ (by simp), cleanState_append D n hD]
  unfold liesInside
  rw [Clean_eq_cleanState D hD]
  obtain ⟨c, cs, rfl⟩ := List.exists_cons_of_ne_nil hD
  by_cases hc : c = '/'
  · subst hc
    have hinv := RootedInv_cleanState cs
    have hrt : (cleanInit ('/' :: cs)).1 = true := by simp [cleanInit]
    rw [hrt]
    generalize cleanState ('/' :: cs) = s0 at hinv ⊢
    have hp := out_prefix_foldl true (splitSlash n) s0 hne
    obtain ⟨x, hx⟩ : ∃ xs, s0.out = '/' :: xs := by
      cases h0 : s0.out with
      | nil => simp [RootedInv, h0] at hinv
      | cons y ys =>
        have := hinv.2
        rw [h0] at this
        simp at this
        exact ⟨ys, by rw [this]⟩
    obtain ⟨t, ht⟩ := hp
    have hout : (List.foldl (elemStep true) s0 (splitSlash n)).out = '/' :: (x ++ t) := by
      rw [← ht, hx]; rfl
    by_cases hneed : slashNeeded true s0.out = true
    · rcases out_slash_foldl true (splitSlash n) s0 hne hneed with h1 | h1
      · simp [h1, hx]
      · have h2 := List.isPrefixOf_iff_prefix.2 h1
        rw [hx] at h2
        simp [hout, hx] at h2 ⊢
        simp [h2]
    · have hx0 : x = [] := by
        simp [slashNeeded, hx] at hneed
        exact hneed
      simp [hout, hx, hx0]
  · have hrt : (cleanInit (c :: cs)).1 = false := by simp [cleanInit, hc]
    rw [hrt]
    generalize cleanState (c :: cs) = s0
    by_cases h0 : s0.out = []
    · rcases out_first_foldl (splitSlash n) s0 hns h0 with h1 | ⟨h1, h2⟩
      · simp [h1, h0]
      · have h3 : (List.foldl (elemStep false) s0 (splitSlash n)).out ≠ [] := by
          intro h4
          rw [h4] at h1
          simp [firstElem] at h1
        simp [h0, h3, h1, h2]
    · have hneed : slashNeeded false s0.out = true := by simp [slashNeeded, h0]
      rcases out_slash_foldl false (splitSlash n) s0 hne hneed with h1 | h1
      · simp [h1, h0]
      · have h2 := List.isPrefixOf_iff_prefix.2 h1
        have h3 : (List.foldl (elemStep false) s0 (splitSlash n)).out ≠ [] := by
          intro h4
          rw [h4] at h1
          simp at h1
        simp [h0, h3, h2]
/-! ## Theorems: the elements of a cleaned path -/

theorem splitSlash_no_slash (e : List Char) (h : '/' ∉ e) : splitSlash e = [e] := by
  induction e with
  | nil => rfl
  | cons c cs ih =>
    have hc : c ≠ '/' := fun hc => h (by rw [hc]; exact List.mem_cons_self _ _)
    have hcs : '/' ∉ cs := fun h1 => h (List.mem_cons_of_mem _ h1)
    rw [splitSlash, if_neg hc, ih hcs]

theorem head_ne_slash (e : List Char) (h : '/' ∉ e) : e.head? ≠ some '/' := by
  cases e with
  | nil => simp
  | cons c cs =>
    intro h1
    simp only [List.head?_cons, Option.some.injEq] at h1
    exact h (by rw [h1]; exact List.mem_cons_self _ _)

theorem elements_name (e : List Char) (h : '/' ∉ e) (h1 : e ≠ []) (h2 : e ≠ ['.']) :
    elements e = [e] := by
  unfold elements
  rw [if_neg (head_ne_slash e h), splitSlash_no_slash e h]
  simp [h1, h2]

theorem elements_append_slash (a e : List Char) (ha : a ≠ []) (h : '/' ∉ e) (h1 : e ≠ [])
    (h2 : e ≠ ['.']) : elements (a ++ '/' :: e) = elements a ++ [e] := by
  unfold elements
  have hh : (a ++ '/' :: e).head? = a.head? := by
    cases a with
    | nil => exact absurd rfl ha
    | cons c cs => rfl
  rw [hh, splitSlash_append, splitSlash_no_slash e h, List.filter_append]
  simp [h1, h2]

theorem elements_slash_name (e : List Char) (h : '/' ∉ e) (h1 : e ≠ []) (h2 : e ≠ ['.']) :
    elements ('/' :: e) = [[], e] := by
  unfold elements
  rw [splitSlash_slash, splitSlash_no_slash e h]
  simp [h1, h2]

/-- The buffer of `path.Clean` for a path that is not rooted: it does not start
with a slash. -/
theorem notRooted_elemStep (s : CleanState) (e : List Char) (he : '/' ∉ e)
    (h : s.out.head? ≠ some '/') : (elemStep false s e).out.head? ≠ some '/' := by
  unfold elemStep
  split
  · exact h
  · split
    · unfold dotdotElem
      split
      · simp only
        cases hout : s.out with
        | nil => simp
        | cons x xs =>
          rw [hout] at h
          cases backtrack (x :: xs) s.dotdot ((x :: xs).length - 1) with
          | zero => simp
          | succ k => simpa using h
      · simp only [Bool.not_false, if_true]
        cases hout : s.out with
        | nil => simp
        | cons x xs =>
          rw [hout] at h
          simpa using h
    · unfold realElem
      simp only
      cases hout : s.out with
      | nil =>
        simp only [List.length_nil, bne_self_eq_false, Bool.and_false, Bool.or_false,
          Bool.false_and, Bool.false_eq_true, if_false, List.nil_append]
        exact head_ne_slash e he
      | cons x xs =>
        rw [hout] at h
        split <;> simpa using h

theorem notRooted_foldl (es : List (List Char)) (s : CleanState)
    (hes : ∀ e ∈ es, '/' ∉ e) (h : s.out.head? ≠ some '/') :
    (es.foldl (elemStep false) s).out.head? ≠ some '/' := by
  induction es generalizing s with
  | nil => exact h
  | cons e es ih =>
    exact ih _ (fun x hx => hes x (List.mem_cons_of_mem _ hx))
      (notRooted_elemStep s e (hes e (List.mem_cons_self _ _)) h)

/-- The invariant of the buffer of `path.Clean`, for a rooted path and for one that
is not. -/
theorem cleanState_inv (D : List Char) :
    if (cleanInit D).1 then RootedInv (cleanState D)
    else (cleanState D).out.head? ≠ some '/' := by
  cases D with
  | nil => simp [cleanInit, cleanState, splitSlash, elemStep]
  | cons c cs =>
    by_cases hc : c = '/'
    · subst hc
      have : (cleanInit ('/' :: cs)).1 = true := by simp [cleanInit]
      rw [this, if_pos rfl]
      exact RootedInv_cleanState cs
    · have h1 : (cleanInit (c :: cs)).1 = false := by simp [cleanInit, hc]
      rw [h1]
      simp only [Bool.false_eq_true, if_false]
      simp only [cleanState, h1]
      have h2 : cleanInit (c :: cs) = (false, c :: cs, ⟨[], 0⟩) := by simp [cleanInit, hc]
      rw [h2]
      exact notRooted_foldl _ _ (fun e he => not_slash_mem_splitSlash _ e he) (by simp)

/-- The default case of `path.Clean` adds the element to the elements of the buffer. -/
theorem realElem_elements (rooted : Bool) (s : CleanState) (e : List Char)
    (hinv : if rooted then RootedInv s else s.out.head? ≠ some '/')
    (h : '/' ∉ e) (h1 : e ≠ []) (h2 : e ≠ ['.']) :
    elements (realElem rooted s e).out = elements s.out ++ [e] := by
  unfold realElem
  simp only
  cases rooted with
  | true =>
    simp only [if_true] at hinv
    obtain ⟨_, hh⟩ := hinv
    cases hout : s.out with
    | nil => rw [hout] at hh; simp at hh
    | cons x xs =>
      rw [hout] at hh
      simp only [List.head?_cons, Option.some.injEq] at hh
      subst hh
      cases xs with
      | nil =>
        simp only [List.length_singleton, bne_self_eq_false, Bool.and_false, Bool.not_true,
          Bool.false_and, Bool.or_self, Bool.false_eq_true, if_false, List.singleton_append]
        rw [elements_slash_name e h h1 h2]
        rfl
      | cons y ys =>
        have : (('/' :: y :: ys).length != 1) = true := by simp
        simp only [this, Bool.and_true, Bool.not_true, Bool.false_and, Bool.or_false, if_true]
        rw [List.append_assoc]
        exact elements_append_slash _ e (by simp) h h1 h2
  | false =>
    simp only [Bool.false_eq_true, if_false] at hinv
    cases hout : s.out with
    | nil =>
      simp only [List.length_nil, bne_self_eq_false, Bool.and_false, Bool.or_false,
        Bool.false_and, Bool.false_eq_true, if_false, List.nil_append]
      rw [elements_name e h h1 h2]
      rfl
    | cons x xs =>
      have : ((x :: xs).length != 0) = true := by simp
      simp only [this, Bool.false_and, Bool.not_false, Bool.and_self, Bool.or_true, if_true]
      rw [List.append_assoc]
      exact elements_append_slash _ e (by simp) h h1 h2

theorem inv_realElem (rooted : Bool) (s : CleanState) (e : List Char)
    (hinv : if rooted then RootedInv s else s.out.head? ≠ some '/')
    (h : '/' ∉ e) (h1 : ¬ (e = [] ∨ e = ['.'])) (h2 : e ≠ ['.', '.']) :
    if rooted then RootedInv (realElem rooted s e)
    else (realElem rooted s e).out.head? ≠ some '/' := by
  cases rooted with
  | true =>
    simp only [if_true] at hinv ⊢
    have := RootedInv_elemStep s e hinv
    simpa [elemStep, h1, h2] using this
  | false =>
    simp only [Bool.false_eq_true, if_false] at hinv ⊢
    have := notRooted_elemStep s e h hinv
    simpa [elemStep, h1, h2] using this

/-- The elements of what `path.Clean` has in its buffer after elements without `..`. -/
theorem elements_foldl (rooted : Bool) (es : List (List Char)) :
    ∀ (s : CleanState), (if rooted then RootedInv s else s.out.head? ≠ some '/') →
      (∀ e ∈ es, e ≠ ['.', '.'] ∧ '/' ∉ e) →
      elements (es.foldl (elemStep rooted) s).out
        = elements s.out ++ es.filter (fun e => !(e == []) && !(e == ['.'])) := by
  induction es with
  | nil => intro s _ _; simp
  | cons e es ih =>
    intro s hinv hes
    obtain ⟨he, hsl⟩ := hes e (List.mem_cons_self _ _)
    have hes2 : ∀ x ∈ es, x ≠ ['.', '.'] ∧ '/' ∉ x :=
      fun x hx => hes x (List.mem_cons_of_mem _ hx)
    rw [List.foldl_cons]
    by_cases ht : e = [] ∨ e = ['.']
    · have hstep : elemStep rooted s e = s := by simp [elemStep, ht]
      rw [hstep, ih s hinv hes2]
      rcases ht with ht | ht <;> subst ht <;> simp
    · have hstep : elemStep rooted s e = realElem rooted s e := by simp [elemStep, ht, he]
      have hne : e ≠ [] := fun h0 => ht (Or.inl h0)
      have hnd : e ≠ ['.'] := fun h0 => ht (Or.inr h0)
      rw [hstep, ih _ (inv_realElem rooted s e hinv hsl ht he) hes2,
        realElem_elements rooted s e hinv hsl hne hnd]
      simp [hne, hnd]

theorem elements_Clean (p : List Char) (h : p ≠ []) :
    elements (Clean p) = elements (cleanState p).out := by
  rw [Clean_eq_cleanState p h]
  split
  · next h0 => rw [h0]; rfl
  · rfl

theorem elements_root (D : List Char) (hD : D ≠ []) :
    elements (dstpath D []) = elements (cleanState D).out := by
  have h1 : TrimPrefix [] DOCKER_TAR_PREFIX = [] := by decide
  unfold dstpath
  rw [h1, Join_pair D _ hD, elements_Clean _ (by simp), cleanState_append D _ hD]
  simp [splitSlash, elemStep]

/-- The elements of the path of a name without `..` are those of the destination
root and then those of the name, without the empty ones and the `.` ones. -/
theorem elements_dstpath (D name : List Char) (hD : D ≠ [])
    (h : ['.', '.'] ∉ splitSlash (TrimPrefix name DOCKER_TAR_PREFIX)) :
    elements (dstpath D name)
      = elements (dstpath D [])
        ++ (splitSlash (TrimPrefix name DOCKER_TAR_PREFIX)).filter
            (fun e => !(e == []) && !(e == ['.'])) := by
  have hns : ∀ e ∈ splitSlash (TrimPrefix name DOCKER_TAR_PREFIX), e ≠ ['.', '.'] ∧ '/' ∉ e :=
    fun e he => ⟨fun h2 => h (h2 ▸ he), not_slash_mem_splitSlash _ e he⟩
  rw [elements_root D hD]
  unfold dstpath
  rw [Join_pair D _ hD, elements_Clean _ (by simp), cleanState_append D _ hD]
  exact elements_foldl _ _ _ (cleanState_inv D) hns

/-! ## Theorems: the file system operations -/

theorem shape_eq_dir (k : Kind) (h : k.shape = Kind.dir.shape) : k = Kind.dir := by
  cases k <;> first | rfl | cases h

theorem shape_eq_file (k : Kind) (c : List Char) (h : k.shape = (Kind.file c).shape) :
    ∃ c1, k = Kind.file c1 := by
  cases k with
  | file c1 => exact ⟨c1, rfl⟩
  | dir => cases h
  | symlink t => cases h

theorem shape_eq_symlink (k : Kind) (t : List Char) (h : k.shape = (Kind.symlink t).shape) :
    k = Kind.symlink t := by
  cases k with
  | symlink t1 => exact h
  | dir => cases h
  | file c => cases h

theorem isSymlink_shape (k1 k2 : Kind) (h : k1.shape = k2.shape) :
    k1.isSymlink = k2.isSymlink := by
  cases k1 <;> cases k2 <;> first | rfl | cases h

theorem walk_eq (fs : FS) (fl : Bool) (n : Nat) :
    walk fs fl n = walkWith fs n (walkFollow fs fl n) fl := by
  cases n <;> rfl

theorem walkWith_nil (fs : FS) (links : Nat)
    (F : List (List Char) → List (List Char) → Except Errno (List (List Char) × Nat))
    (fl : Bool) (cur : List (List Char)) :
    walkWith fs links F fl cur [] = .ok (cur, links) := by
  rw [walkWith]

theorem walkWith_cons (fs : FS) (links : Nat)
    (F : List (List Char) → List (List Char) → Except Errno (List (List Char) × Nat))
    (fl : Bool) (cur : List (List Char)) (c : List Char) (rest : List (List Char)) :
    walkWith fs links F fl cur (c :: rest)
      = if c = [] then walkWith fs links F fl [[]] rest
        else if c = ['.', '.'] then walkWith fs links F fl (up cur) rest
        else
          match fs.node (cur ++ [c]) with
          | none => if rest = [] then .ok (cur ++ [c], links) else .error Errno.ENOENT
          | some ino =>
            match ino.kind with
            | Kind.dir => walkWith fs links F fl (cur ++ [c]) rest
            | Kind.file _ =>
              if rest = [] then .ok (cur ++ [c], links) else .error Errno.ENOTDIR
            | Kind.symlink t =>
              if rest = [] ∧ fl = false then .ok (cur ++ [c], links)
              else if t = [] then .error Errno.ENOENT
              else F cur (elements t ++ rest) := by
  rw [walkWith]

/-- A lookup that succeeds gives the same in a file system that keeps the nodes,
provided that what is new at the place reached, if the last element was
missing, is not a symlink. -/
theorem walkWith_stable (fs fs1 : FS) (h : NodeKept fs fs1) (links : Nat)
    (F F1 : List (List Char) → List (List Char) → Except Errno (List (List Char) × Nat))
    (fl : Bool) (r : List (List Char) × Nat)
    (hnew : fs.node r.1 = none → ∀ ino1, fs1.node r.1 = some ino1 → ino1.kind.isSymlink = false)
    (hF : ∀ c ys, F c ys = .ok r → F1 c ys = .ok r) :
    ∀ (xs cur : List (List Char)),
      walkWith fs links F fl cur xs = .ok r → walkWith fs1 links F1 fl cur xs = .ok r := by
  intro xs
  induction xs with
  | nil => intro cur hw; rw [walkWith_nil] at hw ⊢; exact hw
  | cons c rest ih =>
    intro cur hw
    rw [walkWith_cons] at hw ⊢
    by_cases hc : c = []
    · rw [if_pos hc] at hw ⊢; exact ih _ hw
    · rw [if_neg hc] at hw ⊢
      by_cases hd : c = ['.', '.']
      · rw [if_pos hd] at hw ⊢; exact ih _ hw
      · rw [if_neg hd] at hw ⊢
        cases hn : fs.node (cur ++ [c]) with
        | none =>
          rw [hn] at hw
          simp only at hw
          by_cases hr : rest = []
          · rw [if_pos hr] at hw
            have hr1 : r = (cur ++ [c], links) := by cases hw; rfl
            subst hr
            cases hn1 : fs1.node (cur ++ [c]) with
            | none => simp only [if_true]; exact hw
            | some ino1 =>
              have hk := hnew (by rw [hr1]; exact hn) ino1 (by rw [hr1]; exact hn1)
              simp only
              cases hk1 : ino1.kind with
              | dir => simp only; rw [walkWith_nil]; exact hw
              | file c1 => simp only [if_true]; exact hw
              | symlink t => rw [hk1] at hk; cases hk
          · rw [if_neg hr] at hw; cases hw
        | some ino =>
          obtain ⟨ino1, hn1, hs⟩ := h _ ino hn
          rw [hn] at hw
          rw [hn1]
          simp only at hw ⊢
          cases hk : ino.kind with
          | dir =>
            rw [hk] at hw hs
            rw [shape_eq_dir _ hs]
            exact ih _ hw
          | file c1 =>
            rw [hk] at hw hs
            obtain ⟨c2, hc2⟩ := shape_eq_file _ _ hs
            rw [hc2]
            exact hw
          | symlink t =>
            rw [hk] at hw hs
            rw [shape_eq_symlink _ _ hs]
            simp only at hw ⊢
            by_cases h1 : rest = [] ∧ fl = false
            · rw [if_pos h1] at hw ⊢; exact hw
            · rw [if_neg h1] at hw ⊢
              by_cases h2 : t = []
              · rw [if_pos h2] at hw; cases hw
              · rw [if_neg h2] at hw ⊢
                exact hF _ _ hw

theorem walk_stable (fs fs1 : FS) (h : NodeKept fs fs1) (fl : Bool)
    (r : List (List Char) × Nat)
    (hnew : fs.node r.1 = none → ∀ ino1, fs1.node r.1 = some ino1 → ino1.kind.isSymlink = false) :
    ∀ (n : Nat) (cur xs : List (List Char)),
      walk fs fl n cur xs = .ok r → walk fs1 fl n cur xs = .ok r := by
  intro n
  induction n with
  | zero =>
    intro cur xs hw
    rw [walk_eq] at hw ⊢
    exact walkWith_stable fs fs1 h 0 _ _ fl r hnew (fun _ _ hf => by cases hf) xs cur hw
  | succ n ih =>
    intro cur xs hw
    rw [walk_eq] at hw ⊢
    exact walkWith_stable fs fs1 h (n + 1) _ _ fl r hnew (fun c ys hf => ih c ys hf) xs cur hw

/-- A lookup of `xs ++ ys` is the lookup of `ys` from the directory that `xs` leads to. -/
theorem walkWith_append (fs : FS) (fl : Bool) (ys : List (List Char)) (hys : ys ≠ [])
    (n : Nat) (c : List (List Char)) (k : Nat)
    (hdir : ∃ ino, fs.node c = some ino ∧ ino.kind = Kind.dir)
    (hF : ∀ cur zs, walkFollow fs true n cur zs = .ok (c, k) →
      walkFollow fs fl n cur (zs ++ ys) = walk fs fl k c ys) :
    ∀ (xs cur : List (List Char)),
      walkWith fs n (walkFollow fs true n) true cur xs = .ok (c, k) →
      walkWith fs n (walkFollow fs fl n) fl cur (xs ++ ys) = walk fs fl k c ys := by
  intro xs
  induction xs with
  | nil =>
    intro cur hw
    rw [walkWith_nil] at hw
    cases hw
    rw [List.nil_append, walk_eq]
  | cons c0 rest ih =>
    intro cur hw
    rw [walkWith_cons] at hw
    rw [List.cons_append, walkWith_cons]
    by_cases hc : c0 = []
    · rw [if_pos hc] at hw ⊢; exact ih _ hw
    · rw [if_neg hc] at hw ⊢
      by_cases hd : c0 = ['.', '.']
      · rw [if_pos hd] at hw ⊢; exact ih _ hw
      · rw [if_neg hd] at hw ⊢
        obtain ⟨dino, hdn, hdk⟩ := hdir
        have hry : rest ++ ys ≠ [] := by simp [hys]
        cases hn : fs.node (cur ++ [c0]) with
        | none =>
          rw [hn] at hw
          simp only at hw
          by_cases hr : rest = []
          · rw [if_pos hr] at hw
            cases hw
            rw [hn] at hdn
            cases hdn
          · rw [if_neg hr] at hw; cases hw
        | some ino =>
          rw [hn] at hw
          simp only at hw ⊢
          cases hk : ino.kind with
          | dir =>
            rw [hk] at hw
            exact ih _ hw
          | file c1 =>
            rw [hk] at hw
            simp only at hw
            by_cases hr : rest = []
            · rw [if_pos hr] at hw
              cases hw
              rw [hn] at hdn
              cases hdn
              rw [hk] at hdk
              cases hdk
            · rw [if_neg hr] at hw; cases hw
          | symlink t =>
            rw [hk] at hw
            simp only at hw ⊢
            rw [if_neg (by simp)] at hw
            rw [if_neg (fun h => hry h.1)]
            by_cases h2 : t = []
            · rw [if_pos h2] at hw; cases hw
            · rw [if_neg h2] at hw ⊢
              rw [← List.append_assoc]
              exact hF _ _ hw

theorem walk_append (fs : FS) (fl : Bool) (ys : List (List Char)) (hys : ys ≠ [])
    (c : List (List Char)) (k : Nat)
    (hdir : ∃ ino, fs.node c = some ino ∧ ino.kind = Kind.dir) :
    ∀ (n : Nat) (cur xs : List (List Char)),
      walk fs true n cur xs = .ok (c, k) →
      walk fs fl n cur (xs ++ ys) = walk fs fl k c ys := by
  intro n
  induction n with
  | zero =>
    intro cur xs hw
    rw [walk_eq] at hw
    rw [walk_eq fs fl 0]
    exact walkWith_append fs fl ys hys 0 c k hdir (fun _ _ hf => by cases hf) xs cur hw
  | succ n ih =>
    intro cur xs hw
    rw [walk_eq] at hw
    rw [walk_eq fs fl (n + 1)]
    exact walkWith_append fs fl ys hys (n + 1) c k hdir (fun cur zs hf => ih cur zs hf) xs cur hw

/-- A lookup that does not follow a symlink at the last element gives the same
when it does, if it does not end at a symlink. -/
theorem walkWith_follow (fs : FS) (n : Nat) (r : List (List Char) × Nat)
    (hns : ∀ ino, fs.node r.1 = some ino → ino.kind.isSymlink = false)
    (hF : ∀ cur zs, walkFollow fs false n cur zs = .ok r → walkFollow fs true n cur zs = .ok r) :
    ∀ (xs cur : List (List Char)),
      walkWith fs n (walkFollow fs false n) false cur xs = .ok r →
      walkWith fs n (walkFollow fs true n) true cur xs = .ok r := by
  intro xs
  induction xs with
  | nil => intro cur hw; rw [walkWith_nil] at hw ⊢; exact hw
  | cons c0 rest ih =>
    intro cur hw
    rw [walkWith_cons] at hw ⊢
    by_cases hc : c0 = []
    · rw [if_pos hc] at hw ⊢; exact ih _ hw
    · rw [if_neg hc] at hw ⊢
      by_cases hd : c0 = ['.', '.']
      · rw [if_pos hd] at hw ⊢; exact ih _ hw
      · rw [if_neg hd] at hw ⊢
        cases hn : fs.node (cur ++ [c0]) with
        | none => rw [hn] at hw; exact hw
        | some ino =>
          rw [hn] at hw
          simp only at hw ⊢
          cases hk : ino.kind with
          | dir => rw [hk] at hw; exact ih _ hw
          | file c1 => rw [hk] at hw; exact hw
          | symlink t =>
            rw [hk] at hw
            simp only at hw ⊢
            rw [if_neg (by simp)]
            by_cases h1 : rest = [] ∧ True
            · rw [if_pos h1] at hw
              cases hw
              have := hns ino hn
              rw [hk] at this
              cases this
            · rw [if_neg h1] at hw
              by_cases h2 : t = []
              · rw [if_pos h2] at hw; cases hw
              · rw [if_neg h2] at hw ⊢
                exact hF _ _ hw

theorem walk_follow (fs : FS) (r : List (List Char) × Nat)
    (hns : ∀ ino, fs.node r.1 = some ino → ino.kind.isSymlink = false) :
    ∀ (n : Nat) (cur xs : List (List Char)),
      walk fs false n cur xs = .ok r → walk fs true n cur xs = .ok r := by
  intro n
  induction n with
  | zero =>
    intro cur xs hw
    rw [walk_eq] at hw ⊢
    exact walkWith_follow fs 0 r hns (fun _ _ hf => by cases hf) xs cur hw
  | succ n ih =>
    intro cur xs hw
    rw [walk_eq] at hw ⊢
    exact walkWith_follow fs (n + 1) r hns (fun cur zs hf => ih cur zs hf) xs cur hw

theorem locate_eq_ok (fs : FS) (p : List Char) (q : List (List Char)) :
    fs.locate p = .ok q
      ↔ p ≠ [] ∧ ∃ k, walk fs false MAXSYMLINKS [] (elements p) = .ok (q, k) := by
  unfold FS.locate
  by_cases hp : p = []
  · rw [if_pos hp]
    constructor
    · intro h; cases h
    · intro h; exact absurd hp h.1
  · rw [if_neg hp]
    cases hw : walk fs false MAXSYMLINKS [] (elements p) with
    | error e =>
      constructor
      · intro h; cases h
      · rintro ⟨_, k, hk⟩; cases hk
    | ok r =>
      constructor
      · intro h
        simp only [Except.ok.injEq] at h
        exact ⟨hp, r.2, by rw [← h]⟩
      · rintro ⟨_, k, hk⟩
        simp only [Except.ok.injEq] at hk
        rw [hk]

theorem resolve_eq_ok (fs : FS) (p : List Char) (q : List (List Char)) :
    fs.resolve p = .ok q
      ↔ p ≠ [] ∧ ∃ k, walk fs true MAXSYMLINKS [] (elements p) = .ok (q, k) := by
  unfold FS.resolve
  by_cases hp : p = []
  · rw [if_pos hp]
    constructor
    · intro h; cases h
    · intro h; exact absurd hp h.1
  · rw [if_neg hp]
    cases hw : walk fs true MAXSYMLINKS [] (elements p) with
    | error e =>
      constructor
      · intro h; cases h
      · rintro ⟨_, k, hk⟩; cases hk
    | ok r =>
      constructor
      · intro h
        simp only [Except.ok.injEq] at h
        exact ⟨hp, r.2, by rw [← h]⟩
      · rintro ⟨_, k, hk⟩
        simp only [Except.ok.injEq] at hk
        rw [hk]

theorem locate_stable (fs fs1 : FS) (h : NodeKept fs fs1) (p : List Char)
    (q : List (List Char)) (hl : fs.locate p = .ok q)
    (hnew : fs.node q = none → ∀ ino1, fs1.node q = some ino1 → ino1.kind.isSymlink = false) :
    fs1.locate p = .ok q := by
  obtain ⟨hp, k, hk⟩ := (locate_eq_ok fs p q).1 hl
  exact (locate_eq_ok fs1 p q).2 ⟨hp, k, walk_stable fs fs1 h false (q, k) hnew _ _ _ hk⟩

theorem resolve_stable (fs fs1 : FS) (h : NodeKept fs fs1) (p : List Char)
    (q : List (List Char)) (hl : fs.resolve p = .ok q)
    (hnew : fs.node q = none → ∀ ino1, fs1.node q = some ino1 → ino1.kind.isSymlink = false) :
    fs1.resolve p = .ok q := by
  obtain ⟨hp, k, hk⟩ := (resolve_eq_ok fs p q).1 hl
  exact (resolve_eq_ok fs1 p q).2 ⟨hp, k, walk_stable fs fs1 h true (q, k) hnew _ _ _ hk⟩

theorem resolve_of_locate (fs : FS) (p : List Char) (q : List (List Char))
    (hl : fs.locate p = .ok q) (hns : ∀ ino, fs.node q = some ino → ino.kind.isSymlink = false) :
    fs.resolve p = .ok q := by
  obtain ⟨hp, k, hk⟩ := (locate_eq_ok fs p q).1 hl
  exact (resolve_eq_ok fs p q).2 ⟨hp, k, walk_follow fs (q, k) hns _ _ _ hk⟩

theorem setInode_names (X : FS) (i : Nat) (y : Inode) : (X.setInode i y).names = X.names := rfl

theorem setInode_self (X : FS) (i : Nat) (y : Inode) : (X.setInode i y).inodes i = some y := by
  simp [FS.setInode]

theorem setInode_other (X : FS) (i j : Nat) (y : Inode) (h : j ≠ i) :
    (X.setInode i y).inodes j = X.inodes j := by
  simp [FS.setInode, h]

theorem setInode_setInode (fs : FS) (i : Nat) (a b : Inode) :
    (fs.setInode i a).setInode i b = fs.setInode i b := by
  simp only [FS.setInode]
  congr 1
  funext j
  by_cases hj : j = i
  · simp [hj]
  · simp [hj]

theorem node_setInode (fs : FS) (i : Nat) (y : Inode) (q : List (List Char)) :
    (fs.setInode i y).node q = if fs.names q = some i then some y else fs.node q := by
  unfold FS.node
  rw [setInode_names]
  cases hn : fs.names q with
  | none => simp
  | some j =>
    by_cases hj : j = i
    · subst hj; simp [setInode_self]
    · simp only [setInode_other fs i j y hj]
      rw [if_neg (by intro h; exact hj (Option.some.inj h))]

theorem NodeKept_setInode (fs : FS) (i : Nat) (x y : Inode) (hi : fs.inodes i = some x)
    (hk : y.kind.shape = x.kind.shape) : NodeKept fs (fs.setInode i y) := by
  intro q ino hq
  rw [node_setInode]
  by_cases hn : fs.names q = some i
  · rw [if_pos hn]
    have : ino = x := by
      simp only [FS.node, hn, hi] at hq
      exact (Option.some.inj hq).symm
    subst this
    exact ⟨y, rfl, hk⟩
  · rw [if_neg hn]
    exact ⟨ino, hq, rfl⟩

/-- Setting an inode to one of the same kind makes no node a symlink that was none. -/
theorem node_setInode_none (fs : FS) (i : Nat) (y : Inode) (q : List (List Char)) (x : Inode)
    (hi : fs.inodes i = some x) (h : fs.node q = none) : (fs.setInode i y).node q = none := by
  rw [node_setInode]
  by_cases hn : fs.names q = some i
  · simp only [FS.node, hn, hi] at h
    cases h
  · rw [if_neg hn]; exact h

/-- Touching a directory changes at most the modification time of an inode. -/
theorem touch_inodes (fs : FS) (q : List (List Char)) (j : Nat) :
    (fs.touch q).inodes j = fs.inodes j
    ∨ ∃ x, fs.inodes j = some x ∧ (fs.touch q).inodes j = some { x with mtime := fs.clock } := by
  cases hn : fs.names q with
  | none => left; simp only [FS.touch, hn]
  | some i =>
    cases hi : fs.inodes i with
    | none => left; simp only [FS.touch, hn, hi]
    | some x =>
      simp only [FS.touch, hn, hi]
      by_cases hj : j = i
      · subst hj
        exact Or.inr ⟨x, hi, setInode_self _ _ _⟩
      · exact Or.inl (setInode_other _ _ _ _ hj)

theorem create_names_self (fs : FS) (q : List (List Char)) (ino : Inode) :
    (fs.create q ino).names q = some fs.next := by
  simp [FS.create]

theorem create_names_other (fs : FS) (q r : List (List Char)) (ino : Inode) (h : r ≠ q) :
    (fs.create q ino).names r = fs.names r := by
  simp [FS.create, h]

theorem create_inodes_self (fs : FS) (q : List (List Char)) (ino : Inode) :
    (fs.create q ino).inodes fs.next = some ino := by
  simp [FS.create]

theorem create_inodes_other (fs : FS) (q : List (List Char)) (ino : Inode) (j : Nat)
    (h : j ≠ fs.next) : (fs.create q ino).inodes j = (fs.touch q.dropLast).inodes j := by
  simp [FS.create, h]

theorem node_create_self (fs : FS) (q : List (List Char)) (ino : Inode) :
    (fs.create q ino).node q = some ino := by
  simp [FS.node, FS.create]

theorem create_setInode (X : FS) (q : List (List Char)) (a b : Inode) :
    (X.create q a).setInode X.next b = X.create q b := by
  simp only [FS.setInode, FS.create]
  congr 1
  funext j
  by_cases hj : j = X.next
  · simp [hj]
  · simp [hj]

theorem wf_setInode (fs : FS) (i : Nat) (y : Inode) (hwf : fs.wf) : (fs.setInode i y).wf := by
  intro q j hq
  refine ⟨(hwf q j hq).1, ?_⟩
  by_cases hj : j = i
  · subst hj; rw [setInode_self]; simp
  · rw [setInode_other _ _ _ _ hj]; exact (hwf q j hq).2

theorem touch_inodes_ne_none (fs : FS) (q : List (List Char)) (j : Nat)
    (h : fs.inodes j ≠ none) : (fs.touch q).inodes j ≠ none := by
  rcases touch_inodes fs q j with h1 | ⟨x, _, h2⟩
  · rw [h1]; exact h
  · rw [h2]; simp

theorem wf_create (fs : FS) (q : List (List Char)) (ino : Inode) (hwf : fs.wf) :
    (fs.create q ino).wf := by
  intro r j hr
  by_cases hrq : r = q
  · subst hrq
    rw [create_names_self] at hr
    cases hr
    exact ⟨Nat.lt_succ_self _, by rw [create_inodes_self]; simp⟩
  · rw [create_names_other _ _ _ _ hrq] at hr
    obtain ⟨h1, h2⟩ := hwf r j hr
    refine ⟨Nat.lt_succ_of_lt h1, ?_⟩
    rw [create_inodes_other _ _ _ _ (Nat.ne_of_lt h1)]
    exact touch_inodes_ne_none fs _ j h2

theorem wf_addName (fs : FS) (q : List (List Char)) (i : Nat) (hwf : fs.wf)
    (hi : i < fs.next ∧ fs.inodes i ≠ none) : (fs.addName q i).wf := by
  intro r j hr
  simp only [FS.addName] at hr ⊢
  by_cases hrq : r = q
  · rw [if_pos hrq] at hr
    cases hr
    exact ⟨hi.1, touch_inodes_ne_none fs _ _ hi.2⟩
  · rw [if_neg hrq] at hr
    exact ⟨(hwf r j hr).1, touch_inodes_ne_none fs _ _ (hwf r j hr).2⟩

theorem node_create_other (fs : FS) (q r : List (List Char)) (ino x : Inode) (hwf : fs.wf)
    (h : r ≠ q) (hx : fs.node r = some x) :
    ∃ x1, (fs.create q ino).node r = some x1 ∧ x1.kind = x.kind ∧ x1.mode = x.mode := by
  unfold FS.node at hx ⊢
  rw [create_names_other _ _ _ _ h]
  cases hn : fs.names r with
  | none => rw [hn] at hx; cases hx
  | some j =>
    rw [hn] at hx
    simp only at hx ⊢
    rw [create_inodes_other _ _ _ _ (Nat.ne_of_lt (hwf r j hn).1)]
    rcases touch_inodes fs q.dropLast j with h1 | ⟨y, h1, h2⟩
    · rw [h1]; exact ⟨x, hx, rfl, rfl⟩
    · rw [h2]
      rw [hx] at h1
      cases h1
      exact ⟨_, rfl, rfl, rfl⟩

theorem NodeKept_create (fs : FS) (q : List (List Char)) (ino : Inode) (hwf : fs.wf)
    (hnew : fs.names q = none) : NodeKept fs (fs.create q ino) := by
  intro r x hx
  have hrq : r ≠ q := by
    intro h
    subst h
    simp [FS.node, hnew] at hx
  obtain ⟨x1, h1, h2, _⟩ := node_create_other fs q r ino x hwf hrq hx
  exact ⟨x1, h1, by rw [h2]⟩

theorem node_create_none (fs : FS) (q r : List (List Char)) (ino : Inode) (hwf : fs.wf)
    (h : r ≠ q) (hx : fs.node r = none) : (fs.create q ino).node r = none := by
  unfold FS.node at hx ⊢
  rw [create_names_other _ _ _ _ h]
  cases hn : fs.names r with
  | none => rfl
  | some j =>
    rw [hn] at hx
    simp only at hx
    exact absurd hx (hwf r j hn).2

theorem node_eq_some (fs : FS) (q : List (List Char)) (ino : Inode) :
    fs.node q = some ino ↔ ∃ i, fs.names q = some i ∧ fs.inodes i = some ino := by
  unfold FS.node
  cases hn : fs.names q with
  | none => simp
  | some i => simp

theorem stat_eq_some (fs : FS) (p : List Char) (ino : Inode) :
    fs.stat p = some ino ↔ ∃ q, fs.locate p = .ok q ∧ fs.node q = some ino := by
  unfold FS.stat
  cases hl : fs.locate p with
  | error e => simp
  | ok q => simp

theorem Mkdir_new (fs : FS) (p : List Char) (mode : Nat) (q : List (List Char))
    (hl : fs.locate p = .ok q) (hn : fs.names q = none) (hc : creatable q = true) :
    Mkdir fs p mode
      = .ok (fs.create q ⟨Kind.dir, applyUmask fs.umask mode, fs.clock, fs.clock⟩) := by
  simp only [Mkdir, hl, hn, hc, if_true]

theorem Mkdir_exists (fs : FS) (p : List Char) (mode : Nat) (q : List (List Char)) (i : Nat)
    (hl : fs.locate p = .ok q) (hn : fs.names q = some i) :
    Mkdir fs p mode = .error Errno.EEXIST := by
  simp only [Mkdir, hl, hn]

theorem Chmod_at (fs : FS) (p : List Char) (mode : Nat) (q : List (List Char)) (i : Nat)
    (x : Inode) (hr : fs.resolve p = .ok q) (hn : fs.names q = some i)
    (hi : fs.inodes i = some x) :
    Chmod fs p mode = .ok (fs.setInode i { x with mode := mode }) := by
  simp only [Chmod, hr, hn, hi]

theorem Chtimes_at (fs : FS) (p : List Char) (a m : Nat) (q : List (List Char)) (i : Nat)
    (x : Inode) (hr : fs.resolve p = .ok q) (hn : fs.names q = some i)
    (hi : fs.inodes i = some x) :
    Chtimes fs p a m = .ok (fs.setInode i { x with atime := a, mtime := m }) := by
  simp only [Chtimes, hr, hn, hi]

theorem OpenFile_new (fs : FS) (p : List Char) (mode : Nat) (q : List (List Char))
    (hr : fs.resolve p = .ok q) (hn : fs.names q = none) (hc : creatable q = true) :
    OpenFile fs p mode
      = .ok (fs.create q ⟨Kind.file [], applyUmask fs.umask mode, fs.clock, fs.clock⟩,
          fs.next) := by
  simp only [OpenFile, hr, hn, hc, if_true]

theorem OpenFile_old (fs : FS) (p : List Char) (mode : Nat) (q : List (List Char)) (i : Nat)
    (x : Inode) (c : List Char) (hr : fs.resolve p = .ok q) (hn : fs.names q = some i)
    (hi : fs.inodes i = some x) (hk : x.kind = Kind.file c) :
    OpenFile fs p mode
      = .ok (fs.setInode i { x with kind := Kind.file [], mtime := fs.clock }, i) := by
  simp only [OpenFile, hr, hn, hi, hk]

theorem Write_create_eq (fs : FS) (q : List (List Char)) (mode a m : Nat) (bytes : List Char) :
    Write (fs.create q ⟨Kind.file [], mode, a, m⟩) fs.next bytes
      = fs.create q ⟨Kind.file bytes, mode, a, m⟩ := by
  simp only [Write, create_inodes_self, List.nil_append, create_setInode]

theorem Symlink_new (fs : FS) (oldname p : List Char) (q : List (List Char))
    (ho : oldname ≠ []) (hl : fs.locate p = .ok q) (hn : fs.names q = none)
    (hc : creatable q = true) :
    Symlink fs oldname p
      = .ok (fs.create q ⟨Kind.symlink oldname, 0o777, fs.clock, fs.clock⟩) := by
  simp only [Symlink, if_neg ho, hl, hn, hc, if_true]

theorem Link_new (fs : FS) (oldname p : List Char) (o q : List (List Char)) (i : Nat)
    (ino : Inode) (h0 : fs.locate oldname = .ok o) (h1 : fs.names o = some i)
    (hi : fs.inodes i = some ino) (hk : ino.kind ≠ Kind.dir)
    (hl : fs.locate p = .ok q) (hn : fs.names q = none) (hc : creatable q = true) :
    Link fs oldname p = .ok (fs.addName q i) := by
  simp only [Link, h0, h1, hi, if_neg hk, hl, hn, hc, if_true]

theorem lor_land_self (m c : Nat) : (m ||| c) &&& c = c := by
  apply Nat.eq_of_testBit_eq
  intro i
  simp only [Nat.testBit_land, Nat.testBit_lor]
  cases m.testBit i <;> cases c.testBit i <;> rfl

theorem land_lor_self (m c : Nat) : m &&& (m ||| c) = m := by
  apply Nat.eq_of_testBit_eq
  intro i
  simp only [Nat.testBit_land, Nat.testBit_lor]
  cases m.testBit i <;> cases c.testBit i <;> rfl

theorem indexIn_lt (ds : List (List (List Char))) (p : List (List Char)) (h : p ∈ ds) :
    indexIn ds p < ds.length := by
  induction ds with
  | nil => simp at h
  | cons d ds ih =>
    unfold indexIn
    by_cases hd : d = p
    · simp [hd]
    · rw [if_neg hd]
      have hm : p ∈ ds := by
        rcases List.mem_cons.1 h with h1 | h1
        · exact absurd h1.symm hd
        · exact h1
      have := ih hm
      simp only [List.length_cons]
      omega

theorem ofDirs_wf (ds : List (List Char)) : (FS.ofDirs ds).wf := by
  intro p i hp
  simp only [FS.ofDirs] at hp ⊢
  by_cases hm : p ∈ ds.map elements
  · rw [if_pos hm] at hp
    cases hp
    have := indexIn_lt _ p hm
    rw [List.length_map] at this
    exact ⟨this, by simp [this]⟩
  · rw [if_neg hm] at hp
    cases hp

theorem hostFS_wf : hostFS.wf := ofDirs_wf _

theorem walkWith_ne_EEXIST (fs : FS) (links : Nat)
    (F : List (List Char) → List (List Char) → Except Errno (List (List Char) × Nat))
    (fl : Bool) (hF : ∀ c ys, F c ys ≠ .error Errno.EEXIST) :
    ∀ (xs cur : List (List Char)), walkWith fs links F fl cur xs ≠ .error Errno.EEXIST := by
  intro xs
  induction xs with
  | nil => intro cur hw; rw [walkWith_nil] at hw; cases hw
  | cons c rest ih =>
    intro cur hw
    rw [walkWith_cons] at hw
    by_cases hc : c = []
    · rw [if_pos hc] at hw; exact ih _ hw
    · rw [if_neg hc] at hw
      by_cases hd : c = ['.', '.']
      · rw [if_pos hd] at hw; exact ih _ hw
      · rw [if_neg hd] at hw
        cases hn : fs.node (cur ++ [c]) with
        | none =>
          rw [hn] at hw
          simp only at hw
          by_cases hr : rest = []
          · rw [if_pos hr] at hw; cases hw
          · rw [if_neg hr] at hw; cases hw
        | some ino =>
          rw [hn] at hw
          simp only at hw
          cases hk : ino.kind with
          | dir => rw [hk] at hw; exact ih _ hw
          | file c1 =>
            rw [hk] at hw
            simp only at hw
            by_cases hr : rest = []
            · rw [if_pos hr] at hw; cases hw
            · rw [if_neg hr] at hw; cases hw
          | symlink t =>
            rw [hk] at hw
            simp only at hw
            by_cases h1 : rest = [] ∧ fl = false
            · rw [if_pos h1] at hw; cases hw
            · rw [if_neg h1] at hw
              by_cases h2 : t = []
              · rw [if_pos h2] at hw; cases hw
              · rw [if_neg h2] at hw
                exact hF _ _ hw

theorem walk_ne_EEXIST (fs : FS) (fl : Bool) :
    ∀ (n : Nat) (cur xs : List (List Char)), walk fs fl n cur xs ≠ .error Errno.EEXIST := by
  intro n
  induction n with
  | zero =>
    intro cur xs
    rw [walk_eq]
    exact walkWith_ne_EEXIST fs 0 _ fl (fun _ _ hf => by cases hf) xs cur
  | succ n ih =>
    intro cur xs
    rw [walk_eq]
    exact walkWith_ne_EEXIST fs (n + 1) _ fl (fun c ys => ih c ys) xs cur

theorem locate_ne_EEXIST (fs : FS) (p : List Char) : fs.locate p ≠ .error Errno.EEXIST := by
  unfold FS.locate
  by_cases hp : p = []
  · rw [if_pos hp]; intro h; cases h
  · rw [if_neg hp]
    cases hw : walk fs false MAXSYMLINKS [] (elements p) with
    | ok r => intro h; cases h
    | error e =>
      intro h
      simp only [Except.error.injEq] at h
      rw [h] at hw
      exact walk_ne_EEXIST fs false _ _ _ hw

/-- When `os.Mkdir` answers that the path exists, the path leads to an entry or to a
place where none can be made. -/
theorem Mkdir_EEXIST (fs : FS) (p : List Char) (mode : Nat)
    (h : Mkdir fs p mode = .error Errno.EEXIST) :
    ∃ q, fs.locate p = .ok q ∧ (fs.names q ≠ none ∨ creatable q = false) := by
  unfold Mkdir at h
  cases hl : fs.locate p with
  | error e =>
    rw [hl] at h
    simp only [Except.error.injEq] at h
    rw [h] at hl
    exact absurd hl (locate_ne_EEXIST fs p)
  | ok q =>
    refine ⟨q, rfl, ?_⟩
    cases hn : fs.names q with
    | some i => left; simp
    | none =>
      right
      rw [hl] at h
      simp only [hn] at h
      cases hc : creatable q with
      | false => rfl
      | true => rw [hc] at h; simp at h

/-- The lookup reads the kinds of the nodes only. -/
theorem walkWith_congr (fs fs1 : FS)
    (h : ∀ q, (fs1.node q).map Inode.kind = (fs.node q).map Inode.kind) (links : Nat)
    (F F1 : List (List Char) → List (List Char) → Except Errno (List (List Char) × Nat))
    (fl : Bool) (hF : ∀ c ys, F1 c ys = F c ys) :
    ∀ (xs cur : List (List Char)),
      walkWith fs1 links F1 fl cur xs = walkWith fs links F fl cur xs := by
  intro xs
  induction xs with
  | nil => intro cur; rw [walkWith_nil, walkWith_nil]
  | cons c rest ih =>
    intro cur
    rw [walkWith_cons, walkWith_cons]
    by_cases hc : c = []
    · rw [if_pos hc, if_pos hc]; exact ih _
    · rw [if_neg hc, if_neg hc]
      by_cases hd : c = ['.', '.']
      · rw [if_pos hd, if_pos hd]; exact ih _
      · rw [if_neg hd, if_neg hd]
        have hq := h (cur ++ [c])
        cases hn : fs.node (cur ++ [c]) with
        | none =>
          rw [hn] at hq
          cases hn1 : fs1.node (cur ++ [c]) with
          | none => rfl
          | some ino1 => rw [hn1] at hq; cases hq
        | some ino =>
          rw [hn] at hq
          cases hn1 : fs1.node (cur ++ [c]) with
          | none => rw [hn1] at hq; cases hq
          | some ino1 =>
            rw [hn1] at hq
            simp only [Option.map_some', Option.some.injEq] at hq
            simp only [hq]
            cases hk : ino.kind with
            | dir => exact ih _
            | file c1 => rfl
            | symlink t => simp only [hF]

theorem walk_congr (fs fs1 : FS)
    (h : ∀ q, (fs1.node q).map Inode.kind = (fs.node q).map Inode.kind) (fl : Bool) :
    ∀ (n : Nat) (cur xs : List (List Char)), walk fs1 fl n cur xs = walk fs fl n cur xs := by
  intro n
  induction n with
  | zero =>
    intro cur xs
    rw [walk_eq, walk_eq]
    exact walkWith_congr fs fs1 h 0 _ _ fl (fun _ _ => rfl) xs cur
  | succ n ih =>
    intro cur xs
    rw [walk_eq, walk_eq]
    exact walkWith_congr fs fs1 h (n + 1) _ _ fl (fun c ys => ih c ys) xs cur

theorem locate_congr (fs fs1 : FS)
    (h : ∀ q, (fs1.node q).map Inode.kind = (fs.node q).map Inode.kind) (p : List Char) :
    fs1.locate p = fs.locate p := by
  unfold FS.locate
  rw [walk_congr fs fs1 h]

theorem node_map_congr (fs fs1 : FS) (α : Type) (f : Inode → α) (hn : fs1.names = fs.names)
    (h : ∀ i, (fs1.inodes i).map f = (fs.inodes i).map f) (q : List (List Char)) :
    (fs1.node q).map f = (fs.node q).map f := by
  unfold FS.node
  rw [hn]
  cases fs.names q with
  | none => rfl
  | some i => exact h i

/-- Two file systems with the same names and the same kinds of inodes show the
same to `lstat`, in every field in which their inodes are the same. -/
theorem stat_map_congr (fs fs1 : FS) (α : Type) (f : Inode → α) (hn : fs1.names = fs.names)
    (hk : ∀ i, (fs1.inodes i).map Inode.kind = (fs.inodes i).map Inode.kind)
    (h : ∀ i, (fs1.inodes i).map f = (fs.inodes i).map f) (p : List Char) :
    (fs1.stat p).map f = (fs.stat p).map f := by
  unfold FS.stat
  rw [locate_congr fs fs1 (node_map_congr fs fs1 Kind Inode.kind hn hk) p]
  cases fs.locate p with
  | error e => rfl
  | ok q => exact node_map_congr fs fs1 α f hn h q

theorem isDir_iff (e : Entry) : e.isDir = true ↔ e.hdr.Typeflag = TypeDir := by
  simp [Entry.isDir]

theorem isDir_not_isReg (e : Entry) (h : e.isDir = true) : e.isReg = false := by
  have h1 : e.hdr.Typeflag = TypeDir := (isDir_iff e).1 h
  simp only [Entry.isReg, h1]
  decide

theorem node_none_of_names (fs : FS) (q : List (List Char)) (h : fs.names q = none) :
    fs.node q = none := by
  simp only [FS.node, h]

theorem names_none_of_node (fs : FS) (hwf : fs.wf) (q : List (List Char))
    (h : fs.node q = none) : fs.names q = none := by
  cases hn : fs.names q with
  | none => rfl
  | some i =>
    simp only [FS.node, hn] at h
    exact absurd h (hwf q i hn).2
/-! ## Theorems: file systems that grow -/

theorem Grows_refl (fs : FS) (h : fs.wf) : Grows fs fs := by
  refine ⟨h, fun _ _ h => h, fun i ino _ hi => ⟨ino, hi, rfl⟩, ?_, le_rfl, rfl⟩
  intro p hp ino hs
  rw [node_none_of_names fs p hp] at hs
  cases hs

theorem Grows_trans (a b c : FS) (h1 : Grows a b) (h2 : Grows b c) : Grows a c := by
  obtain ⟨a1, a2, a3, a4, a5, a6⟩ := h1
  obtain ⟨b1, b2, b3, b4, b5, b6⟩ := h2
  refine ⟨b1, fun p i h => b2 p i (a2 p i h), ?_, ?_, le_trans a5 b5, by rw [b6, a6]⟩
  · intro i ino hlt hi
    obtain ⟨ino1, h1, h2⟩ := a3 i ino hlt hi
    obtain ⟨ino2, h3, h4⟩ := b3 i ino1 (lt_of_lt_of_le hlt a5) h1
    exact ⟨ino2, h3, by rw [h4, h2]⟩
  · intro p hp ino hs
    cases hb : b.names p with
    | none => exact b4 p hb ino hs
    | some j =>
      have hbj := (a1 p j hb).2
      obtain ⟨ino1, hi1⟩ := Option.ne_none_iff_exists'.1 hbj
      have hs1 : b.node p = some ino1 := by simp [FS.node, hb, hi1]
      have hk1 := a4 p hp ino1 hs1
      obtain ⟨ino2, h3, h4⟩ := b3 j ino1 (a1 p j hb).1 hi1
      have hs2 : c.node p = some ino2 := by simp [FS.node, b2 p j hb, h3]
      rw [hs] at hs2
      cases hs2
      rw [isSymlink_shape _ _ h4]
      exact hk1

theorem Grows_NodeKept (fs fs1 : FS) (hwf : fs.wf) (h : Grows fs fs1) : NodeKept fs fs1 := by
  intro q ino hq
  obtain ⟨i, hn, hi⟩ := (node_eq_some fs q ino).1 hq
  obtain ⟨ino1, h1, h2⟩ := h.2.2.1 i ino (hwf q i hn).1 hi
  exact ⟨ino1, (node_eq_some fs1 q ino1).2 ⟨i, h.2.1 q i hn, h1⟩, h2⟩

theorem Grows_new (fs fs1 : FS) (hwf : fs.wf) (h : Grows fs fs1) (q : List (List Char))
    (hq : fs.node q = none) : ∀ ino1, fs1.node q = some ino1 → ino1.kind.isSymlink = false :=
  h.2.2.2.1 q (names_none_of_node fs hwf q hq)

theorem resolve_Grows (fs fs1 : FS) (hwf : fs.wf) (h : Grows fs fs1) (p : List Char)
    (q : List (List Char)) (hr : fs.resolve p = .ok q) : fs1.resolve p = .ok q :=
  resolve_stable fs fs1 (Grows_NodeKept fs fs1 hwf h) p q hr (Grows_new fs fs1 hwf h q)

theorem locate_Grows (fs fs1 : FS) (hwf : fs.wf) (h : Grows fs fs1) (p : List Char)
    (q : List (List Char)) (hr : fs.locate p = .ok q) : fs1.locate p = .ok q :=
  locate_stable fs fs1 (Grows_NodeKept fs fs1 hwf h) p q hr (Grows_new fs fs1 hwf h q)

theorem Grows_create (fs : FS) (q : List (List Char)) (ino : Inode) (hwf : fs.wf)
    (hnew : fs.names q = none) (hk : ino.kind.isSymlink = false) :
    Grows fs (fs.create q ino) := by
  refine ⟨wf_create fs q ino hwf, ?_, ?_, ?_, Nat.le_succ _, rfl⟩
  · intro r i hr
    have hrq : r ≠ q := by intro h; rw [h, hnew] at hr; cases hr
    rw [create_names_other _ _ _ _ hrq]
    exact hr
  · intro i x hlt hi
    rw [create_inodes_other _ _ _ _ (Nat.ne_of_lt hlt)]
    rcases touch_inodes fs q.dropLast i with h1 | ⟨y, h1, h2⟩
    · rw [h1]; exact ⟨x, hi, rfl⟩
    · rw [h2]
      rw [hi] at h1
      cases h1
      exact ⟨_, rfl, rfl⟩
  · intro r hr x hs
    by_cases hrq : r = q
    · subst hrq
      rw [node_create_self] at hs
      cases hs
      exact hk
    · rw [node_create_none fs q r ino hwf hrq (node_none_of_names fs r hr)] at hs
      cases hs

theorem Grows_setInode (fs : FS) (i : Nat) (ino ino1 : Inode) (hwf : fs.wf)
    (hi : fs.inodes i = some ino) (hk : ino1.kind.shape = ino.kind.shape) :
    Grows fs (fs.setInode i ino1) := by
  refine ⟨wf_setInode fs i ino1 hwf, fun _ _ h => h, ?_, ?_, le_rfl, rfl⟩
  · intro j x _ hj
    by_cases hji : j = i
    · subst hji
      rw [hi] at hj
      cases hj
      exact ⟨ino1, setInode_self _ _ _, hk⟩
    · exact ⟨x, by rw [setInode_other _ _ _ _ hji]; exact hj, rfl⟩
  · intro q hq x hs
    rw [node_setInode_none fs i ino1 q ino hi (node_none_of_names fs q hq)] at hs
    cases hs

theorem touch_inodes_changed (fs : FS) (r : List (List Char)) (j : Nat)
    (h : (fs.touch r).inodes j ≠ fs.inodes j) : fs.names r = some j := by
  cases hn : fs.names r with
  | none => simp only [FS.touch, hn] at h; exact absurd rfl h
  | some i =>
    cases hi : fs.inodes i with
    | none => simp only [FS.touch, hn, hi] at h; exact absurd rfl h
    | some x =>
      simp only [FS.touch, hn, hi] at h
      by_cases hj : j = i
      · rw [hj]
      · rw [setInode_other _ _ _ _ hj] at h
        exact absurd rfl h

theorem Grows_addName (fs : FS) (q : List (List Char)) (i : Nat) (x : Inode) (hwf : fs.wf)
    (hnew : fs.names q = none) (hi : i < fs.next) (hx : fs.inodes i = some x)
    (hk : x.kind.isSymlink = false) : Grows fs (fs.addName q i) := by
  refine ⟨wf_addName fs q i hwf ⟨hi, by rw [hx]; simp⟩, ?_, ?_, ?_, le_rfl, rfl⟩
  · intro r j hr
    have hrq : r ≠ q := fun h => by rw [h, hnew] at hr; cases hr
    simp only [FS.addName]
    rw [if_neg hrq]
    exact hr
  · intro j y _ hj
    simp only [FS.addName]
    rcases touch_inodes fs q.dropLast j with h1 | ⟨z, h1, h2⟩
    · rw [h1]; exact ⟨y, hj, rfl⟩
    · rw [h2]
      rw [hj] at h1
      cases h1
      exact ⟨_, rfl, rfl⟩
  · intro r hr y hy
    by_cases hrq : r = q
    · subst hrq
      have hy1 : (fs.touch r.dropLast).inodes i = some y := by
        simpa [FS.node, FS.addName] using hy
      rcases touch_inodes fs r.dropLast i with h1 | ⟨z, h1, h2⟩
      · rw [h1, hx] at hy1
        cases hy1
        exact hk
      · rw [h2] at hy1
        rw [hx] at h1
        cases h1
        cases hy1
        exact hk
    · have : (fs.addName q i).names r = none := by
        simp only [FS.addName]
        rw [if_neg hrq]
        exact hr
      rw [node_none_of_names _ r this] at hy
      cases hy
/-! ## C1: containment of the extraction -/

/-- A lookup of names that meets no symlink ends where the names say. -/
theorem walkWith_plain (fs : FS) (links : Nat)
    (F : List (List Char) → List (List Char) → Except Errno (List (List Char) × Nat))
    (fl : Bool) (r : List (List Char) × Nat) :
    ∀ (sfx cur : List (List Char)),
      (∀ c ∈ sfx, plainName c = true) →
      (∀ pre, pre <+: sfx → pre ≠ [] →
        ∀ ino, fs.node (cur ++ pre) = some ino → ino.kind.isSymlink = false) →
      walkWith fs links F fl cur sfx = .ok r → r.1 = cur ++ sfx := by
  intro sfx
  induction sfx with
  | nil =>
    intro cur _ _ hw
    rw [walkWith_nil] at hw
    cases hw
    simp
  | cons c rest ih =>
    intro cur hp hs hw
    have hpc := hp c (List.mem_cons_self _ _)
    simp only [plainName, Bool.and_eq_true, Bool.not_eq_true', beq_eq_false_iff_ne, ne_eq] at hpc
    rw [walkWith_cons, if_neg hpc.1.1, if_neg hpc.2] at hw
    have hlast : ∀ x, (Except.ok x : Except Errno (List (List Char) × Nat)) = .ok r →
        rest = [] → x.1 = cur ++ [c] → r.1 = cur ++ c :: rest := by
      intro x hx hr h1
      cases hx
      rw [hr, h1]
    cases hn : fs.node (cur ++ [c]) with
    | none =>
      rw [hn] at hw
      simp only at hw
      by_cases hr : rest = []
      · rw [if_pos hr] at hw; exact hlast _ hw hr rfl
      · rw [if_neg hr] at hw; cases hw
    | some ino =>
      rw [hn] at hw
      simp only at hw
      cases hk : ino.kind with
      | dir =>
        rw [hk] at hw
        simp only at hw
        have := ih (cur ++ [c]) (fun x hx => hp x (List.mem_cons_of_mem _ hx))
          (fun pre hpre hne ino1 h1 => by
            apply hs (c :: pre) (by simpa using hpre) (by simp) ino1
            rw [← h1]
            simp)
          hw
        rw [this]
        simp
      | file c1 =>
        rw [hk] at hw
        simp only at hw
        by_cases hr : rest = []
        · rw [if_pos hr] at hw; exact hlast _ hw hr rfl
        · rw [if_neg hr] at hw; cases hw
      | symlink t =>
        have := hs [c] (by simp) (by simp) ino hn
        rw [hk] at this
        cases this

theorem walk_plain (fs : FS) (fl : Bool) (n : Nat) (r : List (List Char) × Nat)
    (sfx cur : List (List Char)) (hp : ∀ c ∈ sfx, plainName c = true)
    (hs : ∀ pre, pre <+: sfx → pre ≠ [] →
      ∀ ino, fs.node (cur ++ pre) = some ino → ino.kind.isSymlink = false)
    (hw : walk fs fl n cur sfx = .ok r) : r.1 = cur ++ sfx := by
  rw [walk_eq] at hw
  exact walkWith_plain fs n _ fl r sfx cur hp hs hw

theorem nameElements_plain (name : List Char) (h : noDotDot name = true) :
    ∀ c ∈ nameElements name, plainName c = true := by
  intro c hc
  unfold nameElements at hc
  unfold noDotDot at h
  simp only [List.mem_filter, Bool.and_eq_true, Bool.not_eq_true', beq_eq_false_iff_ne,
    ne_eq] at hc
  simp only [Bool.not_eq_true', List.contains_eq_any_beq, List.any_eq_false, beq_iff_eq] at h
  have h3 : c ≠ ['.', '.'] := fun h4 => h c hc.1 h4.symm
  simp [plainName, hc.2.1, hc.2.2, h3]

theorem root_ne_nil (fs : FS) (D : List Char) (CD : List (List Char))
    (h : fs.locate (dstpath D []) = .ok CD) : D ≠ [] := by
  intro hD
  subst hD
  have h1 : dstpath [] [] = [] := by decide
  rw [h1] at h
  simp [FS.locate] at h

theorem elements_of_noDotDot (fs : FS) (D : List Char) (CD : List (List Char))
    (name : List Char) (hroot : fs.locate (dstpath D []) = .ok CD)
    (h : noDotDot name = true) :
    elements (dstpath D name) = elements (dstpath D []) ++ nameElements name := by
  apply elements_dstpath D name (root_ne_nil fs D CD hroot)
  unfold noDotDot at h
  simp only [Bool.not_eq_true', List.contains_eq_any_beq, List.any_eq_false, beq_iff_eq] at h
  intro hm
  exact h _ hm rfl

/-- The path of a name without `..` leads to a place at or below the destination
root, when no symlink is below the root. -/
theorem located_below (fs : FS) (D : List Char) (CD : List (List Char)) (name : List Char)
    (hroot : rootAt fs D CD) (hns : noSymlinkBelow fs CD) (h : noDotDot name = true)
    (fl : Bool) (q : List (List Char)) (k1 : Nat)
    (hw : walk fs fl MAXSYMLINKS [] (elements (dstpath D name)) = .ok (q, k1)) :
    q = CD ++ nameElements name := by
  obtain ⟨hl, hdir⟩ := hroot
  obtain ⟨_, k, hk⟩ := (locate_eq_ok fs _ _).1 hl
  have hk1 : walk fs true MAXSYMLINKS [] (elements (dstpath D [])) = .ok (CD, k) := by
    apply walk_follow fs (CD, k) _ _ _ _ hk
    intro ino hn
    exact hns [] ino (by simpa using hn)
  rw [elements_of_noDotDot fs D CD name hl h] at hw
  by_cases hne : nameElements name = []
  · rw [hne, List.append_nil] at hw ⊢
    cases fl with
    | false => rw [hk] at hw; cases hw; rfl
    | true => rw [hk1] at hw; cases hw; rfl
  · rw [walk_append fs fl _ hne CD k hdir _ _ _ hk1] at hw
    exact walk_plain fs fl k (q, k1) _ CD (nameElements_plain name h)
      (fun pre _ _ ino hn => hns pre ino hn) hw

theorem locate_below (fs : FS) (D : List Char) (CD : List (List Char)) (name : List Char)
    (hroot : rootAt fs D CD) (hns : noSymlinkBelow fs CD) (h : noDotDot name = true)
    (q : List (List Char)) (hl : fs.locate (dstpath D name) = .ok q) :
    q = CD ++ nameElements name := by
  obtain ⟨_, k, hk⟩ := (locate_eq_ok fs _ _).1 hl
  exact located_below fs D CD name hroot hns h false q k hk

theorem resolve_below (fs : FS) (D : List Char) (CD : List (List Char)) (name : List Char)
    (hroot : rootAt fs D CD) (hns : noSymlinkBelow fs CD) (h : noDotDot name = true)
    (q : List (List Char)) (hl : fs.resolve (dstpath D name) = .ok q) :
    q = CD ++ nameElements name := by
  obtain ⟨_, k, hk⟩ := (resolve_eq_ok fs _ _).1 hl
  exact located_below fs D CD name hroot hns h true q k hk

theorem rootAt_Grows (fs0 fs : FS) (D : List Char) (CD : List (List Char)) (hwf : fs0.wf)
    (hg : Grows fs0 fs) (h : rootAt fs0 D CD) : rootAt fs D CD := by
  obtain ⟨hl, ino, hn, hk⟩ := h
  obtain ⟨ino1, h1, h2⟩ := Grows_NodeKept fs0 fs hwf hg CD ino hn
  refine ⟨locate_Grows fs0 fs hwf hg _ CD hl, ino1, h1, ?_⟩
  rw [hk] at h2
  exact shape_eq_dir _ h2

theorem noSymlinkBelow_Grows (fs0 fs : FS) (CD : List (List Char)) (hwf : fs0.wf)
    (hg : Grows fs0 fs) (h : noSymlinkBelow fs0 CD) : noSymlinkBelow fs CD := by
  intro sfx ino hn
  cases h0 : fs0.node (CD ++ sfx) with
  | none => exact Grows_new fs0 fs hwf hg _ h0 ino hn
  | some ino0 =>
    obtain ⟨ino1, h1, h2⟩ := Grows_NodeKept fs0 fs hwf hg _ ino0 h0
    rw [hn] at h1
    cases h1
    rw [isSymlink_shape _ _ h2]
    exact h _ ino0 h0

theorem Contained_refl (CD : List (List Char)) (fs : FS) (hwf : fs.wf) : Contained CD fs fs :=
  ⟨Grows_refl fs hwf, fun _ h => absurd rfl h, fun _ _ h => absurd rfl h,
    fun sfx _ h => Or.inr ⟨sfx, h⟩⟩

/-- Replacing an inode that has a name at or below the root keeps the change
inside. -/
theorem Contained_setInode (CD : List (List Char)) (fs0 fs : FS) (sfx : List (List Char))
    (i : Nat) (x x1 : Inode) (hc : Contained CD fs0 fs)
    (hn : fs.names (CD ++ sfx) = some i) (hi : fs.inodes i = some x)
    (hk : x1.kind.shape = x.kind.shape) : Contained CD fs0 (fs.setInode i x1) := by
  obtain ⟨c1, c2, c3, c4⟩ := hc
  refine ⟨Grows_trans fs0 fs _ c1 (Grows_setInode fs i x x1 c1.1 hi hk), c2, ?_, c4⟩
  intro j hj hne
  by_cases hji : j = i
  · subst hji
    rcases c4 sfx j hn with h | h
    · omega
    · exact h
  · rw [setInode_other _ _ _ _ hji] at hne
    exact c3 j hj hne

/-- Making an entry below the root keeps the change inside. -/
theorem Contained_create (CD : List (List Char)) (fs0 fs : FS) (sfx : List (List Char))
    (ino : Inode) (hc : Contained CD fs0 fs) (hne : sfx ≠ [])
    (hn : fs.names (CD ++ sfx) = none) (hk : ino.kind.isSymlink = false) :
    Contained CD fs0 (fs.create (CD ++ sfx) ino) := by
  obtain ⟨c1, c2, c3, c4⟩ := hc
  refine ⟨Grows_trans fs0 fs _ c1 (Grows_create fs _ ino c1.1 hn hk), ?_, ?_, ?_⟩
  · intro q hq
    by_cases hqd : q = CD ++ sfx
    · exact ⟨sfx, hne, hqd⟩
    · rw [create_names_other _ _ _ _ hqd] at hq
      exact c2 q hq
  · intro j hj hne1
    have hj1 : j ≠ fs.next := Nat.ne_of_lt (lt_of_lt_of_le hj c1.2.2.2.2.1)
    rw [create_inodes_other _ _ _ _ hj1] at hne1
    by_cases h1 : (fs.touch (CD ++ sfx).dropLast).inodes j = fs.inodes j
    · rw [h1] at hne1
      exact c3 j hj hne1
    · have h2 := touch_inodes_changed fs _ j h1
      rw [List.dropLast_append_of_ne_nil _ hne] at h2
      rcases c4 _ j h2 with h | h
      · omega
      · exact h
  · intro s i hs
    by_cases hsd : CD ++ s = CD ++ sfx
    · rw [hsd, create_names_self] at hs
      cases hs
      exact Or.inl c1.2.2.2.2.1
    · rw [create_names_other _ _ _ _ hsd] at hs
      exact c4 s i hs

/-- A second name below the root for an inode that has a name at or below the
root keeps the change inside. -/
theorem Contained_addName (CD : List (List Char)) (fs0 fs : FS) (sfx t : List (List Char))
    (i : Nat) (x : Inode) (hc : Contained CD fs0 fs) (hne : sfx ≠ [])
    (hn : fs.names (CD ++ sfx) = none) (ht : fs.names (CD ++ t) = some i)
    (hx : fs.inodes i = some x) (hk : x.kind.isSymlink = false) :
    Contained CD fs0 (fs.addName (CD ++ sfx) i) := by
  obtain ⟨c1, c2, c3, c4⟩ := hc
  refine ⟨Grows_trans fs0 fs _ c1
    (Grows_addName fs _ i x c1.1 hn (c1.1 _ i ht).1 hx hk), ?_, ?_, ?_⟩
  · intro q hq
    by_cases hqd : q = CD ++ sfx
    · exact ⟨sfx, hne, hqd⟩
    · simp only [FS.addName] at hq
      rw [if_neg hqd] at hq
      exact c2 q hq
  · intro j hj hne1
    simp only [FS.addName] at hne1
    by_cases h1 : (fs.touch (CD ++ sfx).dropLast).inodes j = fs.inodes j
    · rw [h1] at hne1
      exact c3 j hj hne1
    · have h2 := touch_inodes_changed fs _ j h1
      rw [List.dropLast_append_of_ne_nil _ hne] at h2
      rcases c4 _ j h2 with h | h
      · omega
      · exact h
  · intro s j hs
    by_cases hsd : CD ++ s = CD ++ sfx
    · simp only [FS.addName] at hs
      rw [if_pos hsd] at hs
      cases hs
      exact c4 t _ ht
    · simp only [FS.addName] at hs
      rw [if_neg hsd] at hs
      exact c4 s j hs

theorem below_new (fs : FS) (CD N : List (List Char))
    (hroot : ∃ ino, fs.node CD = some ino ∧ ino.kind = Kind.dir)
    (hn : fs.names (CD ++ N) = none) : N ≠ [] := by
  intro h
  rw [h, List.append_nil] at hn
  obtain ⟨ino, h1, _⟩ := hroot
  rw [node_none_of_names fs CD hn] at h1
  cases h1

theorem Mkdir_contained (D : List Char) (CD : List (List Char)) (fs0 fs fs1 : FS)
    (name : List Char) (mode : Nat) (hwf0 : fs0.wf) (hroot0 : rootAt fs0 D CD)
    (hns0 : noSymlinkBelow fs0 CD) (hc : Contained CD fs0 fs) (hname : noDotDot name = true)
    (h : Mkdir fs (dstpath D name) mode = .ok fs1) : Contained CD fs0 fs1 := by
  have hroot := rootAt_Grows fs0 fs D CD hwf0 hc.1 hroot0
  have hns := noSymlinkBelow_Grows fs0 fs CD hwf0 hc.1 hns0
  unfold Mkdir at h
  cases hl : fs.locate (dstpath D name) with
  | error err => rw [hl] at h; cases h
  | ok q =>
    rw [hl] at h
    simp only at h
    have hq := locate_below fs D CD name hroot hns hname q hl
    subst hq
    cases hn : fs.names (CD ++ nameElements name) with
    | some i => rw [hn] at h; cases h
    | none =>
      rw [hn] at h
      simp only at h
      cases hcr : creatable (CD ++ nameElements name) with
      | false => rw [hcr] at h; simp at h
      | true =>
        rw [hcr] at h
        simp only [if_true, Except.ok.injEq] at h
        rw [← h]
        exact Contained_create CD fs0 fs _ _ hc (below_new fs CD _ hroot.2 hn) hn rfl

theorem Chmod_contained (D : List Char) (CD : List (List Char)) (fs0 fs fs1 : FS)
    (name : List Char) (mode : Nat) (hwf0 : fs0.wf) (hroot0 : rootAt fs0 D CD)
    (hns0 : noSymlinkBelow fs0 CD) (hc : Contained CD fs0 fs) (hname : noDotDot name = true)
    (h : Chmod fs (dstpath D name) mode = .ok fs1) : Contained CD fs0 fs1 := by
  have hroot := rootAt_Grows fs0 fs D CD hwf0 hc.1 hroot0
  have hns := noSymlinkBelow_Grows fs0 fs CD hwf0 hc.1 hns0
  unfold Chmod at h
  cases hl : fs.resolve (dstpath D name) with
  | error err => rw [hl] at h; cases h
  | ok q =>
    rw [hl] at h
    simp only at h
    have hq := resolve_below fs D CD name hroot hns hname q hl
    subst hq
    cases hn : fs.names (CD ++ nameElements name) with
    | none => rw [hn] at h; cases h
    | some i =>
      rw [hn] at h
      simp only at h
      cases hi : fs.inodes i with
      | none => rw [hi] at h; cases h
      | some x =>
        rw [hi] at h
        simp only [Except.ok.injEq] at h
        rw [← h]
        exact Contained_setInode CD fs0 fs _ i x _ hc hn hi rfl

theorem chtimes_contained (D : List Char) (CD : List (List Char)) (fs0 fs : FS) (e : Entry)
    (hwf0 : fs0.wf) (hroot0 : rootAt fs0 D CD) (hns0 : noSymlinkBelow fs0 CD)
    (hc : Contained CD fs0 fs) (hname : noDotDot e.hdr.Name = true) :
    Contained CD fs0 (chtimesBestEffort fs D e) := by
  have hroot := rootAt_Grows fs0 fs D CD hwf0 hc.1 hroot0
  have hns := noSymlinkBelow_Grows fs0 fs CD hwf0 hc.1 hns0
  unfold chtimesBestEffort Chtimes
  cases hl : fs.resolve (dstpath D e.hdr.Name) with
  | error err => exact hc
  | ok q =>
    simp only
    have hq := resolve_below fs D CD _ hroot hns hname q hl
    subst hq
    cases hn : fs.names (CD ++ nameElements e.hdr.Name) with
    | none => exact hc
    | some i =>
      simp only
      cases hi : fs.inodes i with
      | none => exact hc
      | some x => exact Contained_setInode CD fs0 fs _ i x _ hc hn hi rfl

theorem OpenFile_contained (D : List Char) (CD : List (List Char)) (fs0 fs fs1 : FS)
    (name : List Char) (mode file : Nat) (hwf0 : fs0.wf) (hroot0 : rootAt fs0 D CD)
    (hns0 : noSymlinkBelow fs0 CD) (hc : Contained CD fs0 fs) (hname : noDotDot name = true)
    (h : OpenFile fs (dstpath D name) mode = .ok (fs1, file)) :
    Contained CD fs0 fs1 ∧ ∃ sfx, fs1.names (CD ++ sfx) = some file := by
  have hroot := rootAt_Grows fs0 fs D CD hwf0 hc.1 hroot0
  have hns := noSymlinkBelow_Grows fs0 fs CD hwf0 hc.1 hns0
  unfold OpenFile at h
  cases hl : fs.resolve (dstpath D name) with
  | error err => rw [hl] at h; cases h
  | ok q =>
    rw [hl] at h
    simp only at h
    have hq := resolve_below fs D CD name hroot hns hname q hl
    subst hq
    cases hn : fs.names (CD ++ nameElements name) with
    | some i =>
      rw [hn] at h
      simp only at h
      cases hi : fs.inodes i with
      | none => rw [hi] at h; cases h
      | some x =>
        rw [hi] at h
        simp only at h
        cases hk : x.kind with
        | dir => rw [hk] at h; cases h
        | symlink t => rw [hk] at h; cases h
        | file c =>
          rw [hk] at h
          simp only [Except.ok.injEq, Prod.mk.injEq] at h
          obtain ⟨h1, h2⟩ := h
          rw [← h1, ← h2]
          exact ⟨Contained_setInode CD fs0 fs _ i x _ hc hn hi (by rw [hk]; rfl),
            nameElements name, hn⟩
    | none =>
      rw [hn] at h
      simp only at h
      cases hcr : creatable (CD ++ nameElements name) with
      | false => rw [hcr] at h; simp at h
      | true =>
        rw [hcr] at h
        simp only [if_true, Except.ok.injEq, Prod.mk.injEq] at h
        obtain ⟨h1, h2⟩ := h
        rw [← h1, ← h2]
        exact ⟨Contained_create CD fs0 fs _ _ hc (below_new fs CD _ hroot.2 hn) hn rfl,
          nameElements name, create_names_self _ _ _⟩

theorem Write_contained (CD : List (List Char)) (fs0 fs1 : FS) (sfx : List (List Char))
    (file : Nat) (bytes : List Char) (hc : Contained CD fs0 fs1)
    (hn : fs1.names (CD ++ sfx) = some file) : Contained CD fs0 (Write fs1 file bytes) := by
  unfold Write
  cases hi : fs1.inodes file with
  | none => exact hc
  | some x =>
    simp only
    cases hk : x.kind with
    | dir => exact hc
    | symlink t => exact hc
    | file c => exact Contained_setInode CD fs0 fs1 sfx file x _ hc hn hi (by rw [hk]; rfl)

theorem Link_contained (D : List Char) (CD : List (List Char)) (fs0 fs fs1 : FS)
    (name linkname : List Char) (hwf0 : fs0.wf) (hroot0 : rootAt fs0 D CD)
    (hns0 : noSymlinkBelow fs0 CD) (hc : Contained CD fs0 fs) (hname : noDotDot name = true)
    (hlink : noDotDot linkname = true)
    (h : Link fs (dstpath D linkname) (dstpath D name) = .ok fs1) : Contained CD fs0 fs1 := by
  have hroot := rootAt_Grows fs0 fs D CD hwf0 hc.1 hroot0
  have hns := noSymlinkBelow_Grows fs0 fs CD hwf0 hc.1 hns0
  unfold Link at h
  cases hlo : fs.locate (dstpath D linkname) with
  | error err => rw [hlo] at h; cases h
  | ok o =>
    rw [hlo] at h
    simp only at h
    have ho := locate_below fs D CD linkname hroot hns hlink o hlo
    subst ho
    cases hno : fs.names (CD ++ nameElements linkname) with
    | none => rw [hno] at h; cases h
    | some i =>
      rw [hno] at h
      simp only at h
      cases hi : fs.inodes i with
      | none => rw [hi] at h; cases h
      | some x =>
        rw [hi] at h
        simp only at h
        by_cases hkd : x.kind = Kind.dir
        · rw [if_pos hkd] at h; cases h
        · rw [if_neg hkd] at h
          cases hl : fs.locate (dstpath D name) with
          | error err => rw [hl] at h; cases h
          | ok q =>
            rw [hl] at h
            simp only at h
            have hq := locate_below fs D CD name hroot hns hname q hl
            subst hq
            cases hn : fs.names (CD ++ nameElements name) with
            | some j => rw [hn] at h; cases h
            | none =>
              rw [hn] at h
              simp only at h
              cases hcr : creatable (CD ++ nameElements name) with
              | false => rw [hcr] at h; simp at h
              | true =>
                rw [hcr] at h
                simp only [if_true, Except.ok.injEq] at h
                rw [← h]
                exact Contained_addName CD fs0 fs _ (nameElements linkname) i x hc
                  (below_new fs CD _ hroot.2 hn) hn hno hi
                  (hns _ x ((node_eq_some fs _ x).2 ⟨i, hno, hi⟩))

/-- One entry that is not a symlink and has no `..` in its names changes the file
system inside the destination root only, whether it is extracted or not. -/
theorem extractEntry_contained (D : List Char) (CD : List (List Char)) (fs0 fs : FS)
    (e : Entry) (hwf0 : fs0.wf) (hroot0 : rootAt fs0 D CD) (hns0 : noSymlinkBelow fs0 CD)
    (hc : Contained CD fs0 fs) (hname : noDotDot e.hdr.Name = true)
    (hsym : e.isSymlink = false) (hlink : e.isLink = true → noDotDot e.hdr.Linkname = true) :
    Contained CD fs0 (extractEntry fs D e).1 := by
  unfold extractEntry
  simp only
  by_cases h1 : e.hdr.Typeflag = TypeDir
  · rw [if_pos h1]
    cases hm : Mkdir fs (dstpath D e.hdr.Name) (entryMode e.hdr) with
    | ok fs1 => exact Mkdir_contained D CD fs0 fs fs1 _ _ hwf0 hroot0 hns0 hc hname hm
    | error err =>
      simp only
      cases IsExist err with
      | false => exact hc
      | true =>
        simp only [Bool.not_true, Bool.false_eq_true, if_false]
        cases hch : Chmod fs (dstpath D e.hdr.Name) (entryMode e.hdr) with
        | error err2 => exact hc
        | ok fs1 => exact Chmod_contained D CD fs0 fs fs1 _ _ hwf0 hroot0 hns0 hc hname hch
  · rw [if_neg h1]
    by_cases h2 : e.hdr.Typeflag = TypeReg ∨ e.hdr.Typeflag = TypeRegA
    · rw [if_pos h2]
      cases ho : OpenFile fs (dstpath D e.hdr.Name) (entryMode e.hdr) with
      | error err => exact hc
      | ok r =>
        obtain ⟨fs1, file⟩ := r
        obtain ⟨hc1, sfx, hn⟩ :=
          OpenFile_contained D CD fs0 fs fs1 _ _ file hwf0 hroot0 hns0 hc hname ho
        simp only
        cases e.copyErr with
        | none => exact Write_contained CD fs0 fs1 sfx file _ hc1 hn
        | some err => exact Write_contained CD fs0 fs1 sfx file _ hc1 hn
    · rw [if_neg h2]
      by_cases h3 : e.hdr.Typeflag = TypeSymlink
      · have : e.isSymlink = true := by simp [Entry.isSymlink, h3]
        rw [this] at hsym
        cases hsym
      · rw [if_neg h3]
        by_cases h4 : e.hdr.Typeflag = TypeLink
        · rw [if_pos h4]
          have hl : e.isLink = true := by simp [Entry.isLink, h4]
          cases hlk : Link fs (dstpath D e.hdr.Linkname) (dstpath D e.hdr.Name) with
          | error err => exact hc
          | ok fs1 =>
            exact Link_contained D CD fs0 fs fs1 _ _ hwf0 hroot0 hns0 hc hname (hlink hl) hlk
        · rw [if_neg h4]
          exact hc

/-- A stream without symlink entries and without `..` in the names of its entries
and in the link names of its hard links changes the file system inside the
destination root only, whether `processTarStream` returns nil or not. -/
theorem processTarStream_contained (D : List Char) (CD : List (List Char)) (fs0 : FS)
    (endErr : Option (List Char)) (hwf0 : fs0.wf) (hroot0 : rootAt fs0 D CD)
    (hns0 : noSymlinkBelow fs0 CD) (es : List Entry) :
    ∀ fs, Contained CD fs0 fs →
      (∀ e ∈ es, noDotDot e.hdr.Name = true ∧ e.isSymlink = false
        ∧ (e.isLink = true → noDotDot e.hdr.Linkname = true)) →
      Contained CD fs0 (processTarStream D fs es endErr).1 := by
  induction es with
  | nil =>
    intro fs hc _
    cases endErr with
    | none => exact hc
    | some err => exact hc
  | cons e es ih =>
    intro fs hc hes
    obtain ⟨h1, h2, h3⟩ := hes e (List.mem_cons_self _ _)
    have hstep := extractEntry_contained D CD fs0 fs e hwf0 hroot0 hns0 hc h1 h2 h3
    rw [processTarStream]
    cases hx : extractEntry fs D e with
    | mk fs1 err =>
      rw [hx] at hstep
      cases err with
      | some er => exact hstep
      | none =>
        simp only
        exact ih _ (chtimes_contained D CD fs0 fs1 e hwf0 hroot0 hns0 hstep h1)
          (fun x hx => hes x (List.mem_cons_of_mem _ hx))

theorem ofDirs_noSymlink (ds : List (List Char)) (q : List (List Char)) (ino : Inode)
    (h : (FS.ofDirs ds).node q = some ino) : ino.kind.isSymlink = false := by
  obtain ⟨i, _, hi⟩ := (node_eq_some _ q ino).1 h
  simp only [FS.ofDirs] at hi
  split at hi
  · cases hi; rfl
  · cases hi

theorem hostFS_rootAt : rootAt hostFS "/var/tmp/d".toList (elements "/var/tmp/d".toList) :=
  ⟨rfl, ⟨Kind.dir, 0o755, 0, 0⟩, by decide, rfl⟩

theorem liesInside_of_noDotDot (D name : List Char) (hD : D ≠ [])
    (h : noDotDot name = true) : liesInside D (dstpath D name) = true := by
  apply liesInside_Join D _ hD
  unfold noDotDot at h
  simp only [Bool.not_eq_true', List.contains_eq_any_beq, List.any_eq_false, beq_iff_eq] at h
  intro hm
  exact h _ hm rfl

/-- C1, counterexample: three streams extracted into `/var/tmp/d`. The entry name
`rootfs/../../etc/passwd` is mapped to `/var/etc/passwd`, which does not lie
inside the destination, and `processTarStream` creates the regular file
there. The names `rootfs/x` of a symlink to `/var/etc/passwd` and of a
regular file after it have no `..` and are mapped into the destination, but
`os.OpenFile` follows the symlink and creates `/var/etc/passwd`. The name
`rootfs/x/passwd` of a regular file has no `..` and is mapped into the
destination, but there `x` is a symlink to `/var/etc` that was in the
destination before, and the file is created at `/var/etc/passwd`. -/
theorem dstpath_escapes_destination :
    (dstpath "/var/tmp/d".toList "rootfs/../../etc/passwd".toList = "/var/etc/passwd".toList
      ∧ liesInside "/var/tmp/d".toList
          (dstpath "/var/tmp/d".toList "rootfs/../../etc/passwd".toList) = false
      ∧ (processTarStream "/var/tmp/d".toList hostWithEtc
          [mkEntry TypeReg "rootfs/../../etc/passwd".toList [] "root::0:0".toList] none).2 = none
      ∧ hostWithEtc.stat "/var/etc/passwd".toList = none
      ∧ ((processTarStream "/var/tmp/d".toList hostWithEtc
          [mkEntry TypeReg "rootfs/../../etc/passwd".toList [] "root::0:0".toList] none).1.stat
            "/var/etc/passwd".toList).map (fun ino => ino.kind)
          = some (Kind.file "root::0:0".toList))
    ∧ ((∀ e ∈ symlinkThenFile, noDotDot e.hdr.Name = true
          ∧ liesInside "/var/tmp/d".toList (dstpath "/var/tmp/d".toList e.hdr.Name) = true)
      ∧ (processTarStream "/var/tmp/d".toList hostWithEtc symlinkThenFile none).2 = none
      ∧ ((processTarStream "/var/tmp/d".toList hostWithEtc symlinkThenFile none).1.stat
            "/var/etc/passwd".toList).map (fun ino => ino.kind)
          = some (Kind.file "root::0:0".toList))
    ∧ ((∀ e ∈ fileBelowLink, noDotDot e.hdr.Name = true ∧ e.isSymlink = false
          ∧ liesInside "/var/tmp/d".toList (dstpath "/var/tmp/d".toList e.hdr.Name) = true)
      ∧ hostWithLink.stat "/var/etc/passwd".toList = none
      ∧ (processTarStream "/var/tmp/d".toList hostWithLink fileBelowLink none).2 = none
      ∧ ((processTarStream "/var/tmp/d".toList hostWithLink fileBelowLink none).1.stat
            "/var/etc/passwd".toList).map (fun ino => ino.kind)
          = some (Kind.file "root::0:0".toList)) := by
  decide

/-- C1, amended: let the destination root `D` be a directory with no symlink in it,
at any depth, and let no entry of the stream be a symlink entry or have a
`..` element in its name after `rootfs/` is stripped, nor a hard-link entry
one in its link name. Then the path `path.Join(D, TrimPrefix(name,
"rootfs/"))` of every entry lies inside `D`, and so does the path of every
hard-link target; and whatever `processTarStream` returns, it has created
or removed no name but below `D`, and changed no inode that existed but
those with a name in `D` or `D` itself. -/
theorem processTarStream_inside (D : List Char) (CD : List (List Char)) (fs : FS)
    (es : List Entry) (endErr : Option (List Char)) (hwf : fs.wf) (hroot : rootAt fs D CD)
    (hns : noSymlinkBelow fs CD)
    (hes : ∀ e ∈ es, noDotDot e.hdr.Name = true ∧ e.isSymlink = false
      ∧ (e.isLink = true → noDotDot e.hdr.Linkname = true)) :
    (∀ e ∈ es, liesInside D (dstpath D e.hdr.Name) = true
      ∧ (e.isLink = true → liesInside D (dstpath D e.hdr.Linkname) = true))
    ∧ (∀ q, (processTarStream D fs es endErr).1.names q ≠ fs.names q →
        ∃ sfx, sfx ≠ [] ∧ q = CD ++ sfx)
    ∧ (∀ i, i < fs.next → (processTarStream D fs es endErr).1.inodes i ≠ fs.inodes i →
        ∃ sfx, fs.names (CD ++ sfx) = some i)
    ∧ (∀ e ∈ es, ∀ q, (processTarStream D fs es endErr).1.locate (dstpath D e.hdr.Name) = .ok q →
        ∃ sfx, q = CD ++ sfx) := by
  have hD : D ≠ [] := root_ne_nil fs D CD hroot.1
  have hc := processTarStream_contained D CD fs endErr hwf hroot hns es fs
    (Contained_refl CD fs hwf) hes
  refine ⟨?_, hc.2.1, hc.2.2.1, ?_⟩
  · intro e he
    obtain ⟨h1, _, h3⟩ := hes e he
    exact ⟨liesInside_of_noDotDot D _ hD h1, fun hl => liesInside_of_noDotDot D _ hD (h3 hl)⟩
  · intro e he q hl
    exact ⟨_, locate_below _ D CD e.hdr.Name (rootAt_Grows fs _ D CD hwf hc.1 hroot)
      (noSymlinkBelow_Grows fs _ CD hwf hc.1 hns) (hes e he).1 q hl⟩

/-- C1, amended, at the stream `dirsAndFiles` extracted into the empty directory
`/var/tmp/d`: the names that differ afterwards are below `/var/tmp/d`, and
of `/`, `/var` and `/var/tmp` nothing has changed. -/
theorem processTarStream_inside_witness :
    (∀ q, (processTarStream "/var/tmp/d".toList hostFS dirsAndFiles none).1.names q
        ≠ hostFS.names q → ∃ sfx, sfx ≠ [] ∧ q = elements "/var/tmp/d".toList ++ sfx)
    ∧ (∀ i, i < hostFS.next →
        (processTarStream "/var/tmp/d".toList hostFS dirsAndFiles none).1.inodes i
          ≠ hostFS.inodes i →
        ∃ sfx, hostFS.names (elements "/var/tmp/d".toList ++ sfx) = some i)
    ∧ (processTarStream "/var/tmp/d".toList hostFS dirsAndFiles none).1.stat
        "/var/tmp".toList = hostFS.stat "/var/tmp".toList
    ∧ (processTarStream "/var/tmp/d".toList hostFS dirsAndFiles none).1.stat
        "/var/tmp/d/etc/passwd".toList = some ⟨Kind.file "toor".toList, 0o644, 7, 8⟩ :=
  ⟨(processTarStream_inside "/var/tmp/d".toList _ hostFS dirsAndFiles none hostFS_wf
      hostFS_rootAt (fun _ ino h => ofDirs_noSymlink _ _ ino h) (by decide)).2.1,
   (processTarStream_inside "/var/tmp/d".toList _ hostFS dirsAndFiles none hostFS_wf
      hostFS_rootAt (fun _ ino h => ofDirs_noSymlink _ _ ino h) (by decide)).2.2.1,
   by decide, by decide⟩
/-! ## C2: what the reconstruction leaves in the destination -/

theorem Clean_ne_nil (p : List Char) : Clean p ≠ [] := by
  unfold Clean
  split
  · simp
  · simp only
    split
    · simp
    · assumption

theorem dstpath_eq_nil (D name : List Char) (h : dstpath D name = []) : dstpath D [] = [] := by
  unfold dstpath Join at h
  split at h
  · next hsum =>
    have hD : D = [] := by
      simp only [List.map_cons, List.map_nil, List.sum_cons, List.sum_nil] at hsum
      exact List.length_eq_zero.1 (by omega)
    subst hD
    decide
  · exact absurd h (Clean_ne_nil _)

theorem locate_of_elements (fs : FS) (p p1 : List Char) (hp : p ≠ []) (hp1 : p1 ≠ [])
    (h : elements p = elements p1) : fs.locate p = fs.locate p1 := by
  unfold FS.locate
  rw [if_neg hp, if_neg hp1, h]

theorem locate_ne_nil (fs : FS) (p : List Char) (q : List (List Char))
    (h : fs.locate p = .ok q) : p ≠ [] := by
  intro hp
  rw [hp] at h
  simp [FS.locate] at h

theorem kindAt_eq_some (fs : FS) (p : List Char) (k : Kind) :
    fs.kindAt p = some k
      ↔ ∃ q ino, fs.locate p = .ok q ∧ fs.node q = some ino ∧ ino.kind = k := by
  unfold FS.kindAt
  constructor
  · intro h
    cases hs : fs.stat p with
    | none => rw [hs] at h; cases h
    | some ino =>
      rw [hs] at h
      simp only [Option.map_some', Option.some.injEq] at h
      obtain ⟨q, hl, hn⟩ := (stat_eq_some fs p ino).1 hs
      exact ⟨q, ino, hl, hn, h⟩
  · rintro ⟨q, ino, hl, hn, hk⟩
    rw [(stat_eq_some fs p ino).2 ⟨q, hl, hn⟩]
    simp only [Option.map_some', hk]

theorem Ext_refl (fs : FS) (d : List (List Char)) (h : fs.wf) : Ext fs fs d :=
  ⟨h, fun _ _ h => h, fun _ _ => rfl, le_rfl, fun _ _ => rfl⟩

theorem Ext_trans (fs fs1 fs2 : FS) (d : List (List Char)) (h1 : Ext fs fs1 d)
    (h2 : Ext fs1 fs2 d) : Ext fs fs2 d := by
  obtain ⟨_, a2, a3, a4, a5⟩ := h1
  obtain ⟨b1, b2, b3, b4, b5⟩ := h2
  refine ⟨b1, fun p i h => b2 p i (a2 p i h), ?_, le_trans a4 b4, ?_⟩
  · intro i hi
    rw [b3 i (lt_of_lt_of_le hi a4), a3 i hi]
  · intro p hp
    rw [b5 p hp, a5 p hp]

theorem touch_inodes_kind (fs : FS) (q : List (List Char)) (j : Nat) :
    ((fs.touch q).inodes j).map (fun ino => ino.kind)
      = (fs.inodes j).map (fun ino => ino.kind) := by
  rcases touch_inodes fs q j with h | ⟨x, h1, h2⟩
  · rw [h]
  · rw [h1, h2]; rfl

theorem Ext_create (fs : FS) (q : List (List Char)) (ino : Inode) (hwf : fs.wf)
    (hnew : fs.names q = none) : Ext fs (fs.create q ino) q := by
  refine ⟨wf_create fs q ino hwf, ?_, ?_, Nat.le_succ _, ?_⟩
  · intro r i hr
    have hrq : r ≠ q := fun h => by rw [h, hnew] at hr; cases hr
    rw [create_names_other _ _ _ _ hrq]
    exact hr
  · intro i hi
    rw [create_inodes_other _ _ _ _ (Nat.ne_of_lt hi)]
    exact touch_inodes_kind fs _ i
  · intro r hr
    exact create_names_other _ _ _ _ hr

theorem Ext_setInode (fs : FS) (i : Nat) (ino ino1 : Inode) (d : List (List Char))
    (hwf : fs.wf) (hi : fs.inodes i = some ino) (hk : ino1.kind = ino.kind) :
    Ext fs (fs.setInode i ino1) d := by
  refine ⟨wf_setInode fs i ino1 hwf, fun _ _ h => h, ?_, le_rfl, fun _ _ => rfl⟩
  intro j _
  by_cases hj : j = i
  · subst hj
    rw [setInode_self, hi]
    simp only [Option.map_some', hk]
  · rw [setInode_other _ _ _ _ hj]

theorem Ext_addName (fs : FS) (q : List (List Char)) (i : Nat) (hwf : fs.wf)
    (hnew : fs.names q = none) (hi : i < fs.next ∧ fs.inodes i ≠ none) :
    Ext fs (fs.addName q i) q := by
  refine ⟨wf_addName fs q i hwf hi, ?_, ?_, le_rfl, ?_⟩
  · intro r j hr
    have hrq : r ≠ q := fun h => by rw [h, hnew] at hr; cases hr
    simp only [FS.addName]
    rw [if_neg hrq]
    exact hr
  · intro j _
    simp only [FS.addName]
    exact touch_inodes_kind fs _ j
  · intro r hr
    simp only [FS.addName]
    rw [if_neg hr]

theorem Ext_chtimes (fs : FS) (D : List Char) (d : List (List Char)) (e : Entry)
    (hwf : fs.wf) : Ext fs (chtimesBestEffort fs D e) d := by
  unfold chtimesBestEffort Chtimes
  split
  · next fs1 heq =>
    split at heq
    · cases heq
    · split at heq
      · cases heq
      · split at heq
        · cases heq
        · next ino hino =>
          cases heq
          exact Ext_setInode fs _ ino _ d hwf hino rfl
  · exact Ext_refl fs d hwf

/-- An extension keeps every node, with its kind. -/
theorem Ext_node (fs fs1 : FS) (d r : List (List Char)) (ino : Inode) (hwf : fs.wf)
    (hext : Ext fs fs1 d) (h : fs.node r = some ino) :
    ∃ ino1, fs1.node r = some ino1 ∧ ino1.kind = ino.kind := by
  obtain ⟨i, hn, hi⟩ := (node_eq_some fs r ino).1 h
  have h3 := hext.2.2.1 i (hwf r i hn).1
  rw [hi] at h3
  cases h1 : fs1.inodes i with
  | none => rw [h1] at h3; cases h3
  | some ino1 =>
    rw [h1] at h3
    simp only [Option.map_some', Option.some.injEq] at h3
    exact ⟨ino1, (node_eq_some fs1 r ino1).2 ⟨i, hext.2.1 r i hn, h1⟩, h3⟩

theorem Ext_NodeKept (fs fs1 : FS) (d : List (List Char)) (hwf : fs.wf)
    (hext : Ext fs fs1 d) : NodeKept fs fs1 := by
  intro r ino h
  obtain ⟨ino1, h1, h2⟩ := Ext_node fs fs1 d r ino hwf hext h
  exact ⟨ino1, h1, by rw [h2]⟩

/-- A path that leads to a node leads to it in an extension. -/
theorem locate_Ext (fs fs1 : FS) (d : List (List Char)) (p : List Char)
    (r : List (List Char)) (hwf : fs.wf) (hext : Ext fs fs1 d)
    (hl : fs.locate p = .ok r) (hn : fs.node r ≠ none) : fs1.locate p = .ok r :=
  locate_stable fs fs1 (Ext_NodeKept fs fs1 d hwf hext) p r hl (fun h => absurd h hn)

theorem kindAt_mono (fs fs1 : FS) (d : List (List Char)) (p : List Char) (k : Kind)
    (hwf : fs.wf) (hext : Ext fs fs1 d) (h : fs.kindAt p = some k) : fs1.kindAt p = some k := by
  obtain ⟨q, ino, hl, hn, hk⟩ := (kindAt_eq_some fs p k).1 h
  obtain ⟨ino1, h1, h2⟩ := Ext_node fs fs1 d q ino hwf hext hn
  exact (kindAt_eq_some fs1 p k).2
    ⟨q, ino1, locate_Ext fs fs1 d p q hwf hext hl (by rw [hn]; simp), h1, by rw [h2, hk]⟩

theorem nodeOf_mono (fs fs1 : FS) (D : List Char) (d : List (List Char)) (e : Entry)
    (hwf : fs.wf) (hext : Ext fs fs1 d) (h : nodeOf fs D e) : nodeOf fs1 D e := by
  unfold nodeOf at h ⊢
  split
  · next h1 => rw [if_pos h1] at h; exact kindAt_mono fs fs1 d _ _ hwf hext h
  · next h1 =>
    rw [if_neg h1] at h
    split
    · next h2 => rw [if_pos h2] at h; exact kindAt_mono fs fs1 d _ _ hwf hext h
    · next h2 =>
      rw [if_neg h2] at h
      split
      · next h3 => rw [if_pos h3] at h; exact kindAt_mono fs fs1 d _ _ hwf hext h
      · next h3 =>
        rw [if_neg h3] at h
        obtain ⟨q, o, i, ino, g1, g2, g3, g4, g5, g6⟩ := h
        have hq : fs.node q = some ino := (node_eq_some fs q ino).2 ⟨i, g3, g5⟩
        have ho : fs.node o = some ino := (node_eq_some fs o ino).2 ⟨i, g4, g5⟩
        have h3i := hext.2.2.1 i (hwf q i g3).1
        rw [g5] at h3i
        cases h1i : fs1.inodes i with
        | none => rw [h1i] at h3i; cases h3i
        | some ino1 =>
          rw [h1i] at h3i
          simp only [Option.map_some', Option.some.injEq] at h3i
          refine ⟨q, o, i, ino1, locate_Ext fs fs1 d _ q hwf hext g1 (by rw [hq]; simp),
            locate_Ext fs fs1 d _ o hwf hext g2 (by rw [ho]; simp),
            hext.2.1 q i g3, hext.2.1 o i g4, h1i, by rw [h3i]; exact g6⟩

/-- What an entry has left is a node at the place its path leads to. -/
theorem nodeOf_node (fs : FS) (D : List Char) (e : Entry) (q : List (List Char))
    (hl : fs.locate (dstpath D e.hdr.Name) = .ok q) (h : nodeOf fs D e) :
    ∃ ino, fs.node q = some ino
      ∧ (e.isDir = true → ino.kind = Kind.dir) ∧ (e.isDir = false → ino.kind ≠ Kind.dir) := by
  have hk : ∀ k, fs.kindAt (dstpath D e.hdr.Name) = some k →
      ∃ ino, fs.node q = some ino ∧ ino.kind = k := by
    intro k hk
    obtain ⟨q1, ino, hl1, hn, hk1⟩ := (kindAt_eq_some fs _ k).1 hk
    rw [hl] at hl1
    cases hl1
    exact ⟨ino, hn, hk1⟩
  unfold nodeOf at h
  by_cases h1 : e.isDir = true
  · rw [if_pos h1] at h
    obtain ⟨ino, hn, hk1⟩ := hk _ h
    exact ⟨ino, hn, fun _ => hk1, fun h2 => by rw [h1] at h2; cases h2⟩
  · rw [if_neg h1] at h
    by_cases h2 : e.isReg = true
    · rw [if_pos h2] at h
      obtain ⟨ino, hn, hk1⟩ := hk _ h
      exact ⟨ino, hn, fun h3 => absurd h3 h1, fun _ => by rw [hk1]; simp⟩
    · rw [if_neg h2] at h
      by_cases h3 : e.isSymlink = true
      · rw [if_pos h3] at h
        obtain ⟨ino, hn, hk1⟩ := hk _ h
        exact ⟨ino, hn, fun h3 => absurd h3 h1, fun _ => by rw [hk1]; simp⟩
      · rw [if_neg h3] at h
        obtain ⟨q1, o, i, ino, g1, g2, g3, g4, g5, g6⟩ := h
        rw [hl] at g1
        cases g1
        exact ⟨ino, (node_eq_some fs q ino).2 ⟨i, g3, g5⟩, fun h3 => absurd h3 h1, fun _ => g6⟩

theorem placed_mono (fs fs1 : FS) (D : List Char) (CD d : List (List Char)) (e : Entry)
    (hwf : fs.wf) (hext : Ext fs fs1 d) (h : placed fs D CD e) : placed fs1 D CD e := by
  obtain ⟨ino, hn, _⟩ := nodeOf_node fs D e _ h.1 h.2.2
  exact ⟨locate_Ext fs fs1 d _ _ hwf hext h.1 (by rw [hn]; simp), h.2.1,
    nodeOf_mono fs fs1 D d e hwf hext h.2.2⟩

/-- The lookup of one name from a directory ends at that name, unless the name is a
symlink that is to be followed. -/
theorem walk_last (fs : FS) (fl : Bool) (n : Nat) (cur : List (List Char)) (c : List Char)
    (hc : plainName c = true)
    (h : ∀ ino, fs.node (cur ++ [c]) = some ino → ino.kind.isSymlink = true → fl = false) :
    walk fs fl n cur [c] = .ok (cur ++ [c], n) := by
  simp only [plainName, Bool.and_eq_true, Bool.not_eq_true', beq_eq_false_iff_ne, ne_eq] at hc
  rw [walk_eq, walkWith_cons, if_neg hc.1.1, if_neg hc.2]
  cases hn : fs.node (cur ++ [c]) with
  | none => simp
  | some ino =>
    simp only
    cases hk : ino.kind with
    | dir => simp only; rw [walkWith_nil]
    | file c1 => simp
    | symlink t =>
      have hf := h ino hn (by rw [hk]; rfl)
      simp [hf]

theorem walk_child (fs : FS) (fl : Bool) (P CP : List (List Char)) (k : Nat) (c : List Char)
    (hw : walk fs false MAXSYMLINKS [] P = .ok (CP, k))
    (hdir : ∃ ino, fs.node CP = some ino ∧ ino.kind = Kind.dir)
    (hc : plainName c = true)
    (h : ∀ ino, fs.node (CP ++ [c]) = some ino → ino.kind.isSymlink = true → fl = false) :
    walk fs fl MAXSYMLINKS [] (P ++ [c]) = .ok (CP ++ [c], k) := by
  have hw1 : walk fs true MAXSYMLINKS [] P = .ok (CP, k) := by
    apply walk_follow fs (CP, k) _ _ _ _ hw
    intro ino hn
    obtain ⟨ino1, h1, h2⟩ := hdir
    simp only at hn
    rw [h1] at hn
    cases hn
    rw [h2]
    rfl
  rw [walk_append fs fl [c] (by simp) CP k hdir _ _ _ hw1]
  exact walk_last fs fl k CP c hc h

theorem locate_child (fs : FS) (p : List Char) (P CP : List (List Char)) (k : Nat)
    (c : List Char) (hp : p ≠ []) (hel : elements p = P ++ [c])
    (hw : walk fs false MAXSYMLINKS [] P = .ok (CP, k))
    (hdir : ∃ ino, fs.node CP = some ino ∧ ino.kind = Kind.dir)
    (hc : plainName c = true) : fs.locate p = .ok (CP ++ [c]) :=
  (locate_eq_ok fs p _).2
    ⟨hp, k, by rw [hel]; exact walk_child fs false P CP k c hw hdir hc (fun _ _ _ => rfl)⟩

theorem creatable_append (CP : List (List Char)) (c : List Char) (hc : plainName c = true) :
    creatable (CP ++ [c]) = true := by
  simp only [plainName, Bool.and_eq_true, Bool.not_eq_true', beq_eq_false_iff_ne, ne_eq] at hc
  simp [creatable, hc.1.1, hc.2]

/-- What the state of the reconstruction keeps of the file system it started on. -/
theorem Inv_node (D : List Char) (CD : List (List Char)) (fs0 : FS) (pre : List Entry)
    (fs : FS) (hfs0 : fs0.wf) (hinv : ExtractInv D CD fs0 pre fs) (r : List (List Char))
    (ino : Inode) (h : fs0.node r = some ino) :
    ∃ ino1, fs.node r = some ino1 ∧ ino1.kind = ino.kind := by
  obtain ⟨i, hn, hi⟩ := (node_eq_some fs0 r ino).1 h
  have h3 := hinv.2.2.2.1 i (hfs0 r i hn).1
  rw [hi] at h3
  cases h1 : fs.inodes i with
  | none => rw [h1] at h3; cases h3
  | some ino1 =>
    rw [h1] at h3
    simp only [Option.map_some', Option.some.injEq] at h3
    exact ⟨ino1, (node_eq_some fs r ino1).2 ⟨i, hinv.2.1 r i hn, h1⟩, h3⟩

/-- The destination root is where it was, and a directory. -/
theorem root_located (D : List Char) (CD : List (List Char)) (fs0 : FS) (pre : List Entry)
    (fs : FS) (hfs0 : fs0.wf) (hD : emptyDirAt fs0 D CD) (hinv : ExtractInv D CD fs0 pre fs) :
    fs.locate (dstpath D []) = .ok CD
    ∧ ∃ ino, fs.node CD = some ino ∧ ino.kind = Kind.dir := by
  obtain ⟨hl, ⟨ino, hn, hk⟩, _⟩ := hD
  obtain ⟨ino1, h1, h2⟩ := Inv_node D CD fs0 pre fs hfs0 hinv CD ino hn
  refine ⟨?_, ino1, h1, by rw [h2, hk]⟩
  apply locate_stable fs0 fs _ _ _ hl (fun h => by rw [hn] at h; cases h)
  intro r x hx
  obtain ⟨x1, g1, g2⟩ := Inv_node D CD fs0 pre fs hfs0 hinv r x hx
  exact ⟨x1, g1, by rw [g2]⟩

theorem dstpath_ne_nil (D : List Char) (CD : List (List Char)) (fs : FS) (name : List Char)
    (h : fs.locate (dstpath D []) = .ok CD) : dstpath D name ≠ [] := by
  intro h1
  have := locate_ne_nil fs _ _ h
  exact this (dstpath_eq_nil D name h1)

theorem below_of_append (D : List Char) (e : Entry) (b : List (List Char))
    (h : entryPath D e = rootPath D ++ b) : below D e = b := by
  unfold below
  rw [h]
  simp

/-- The parent of an entry is the real path of a directory below the destination
root, to which the path of the parent leads. -/
theorem parent_located (D : List Char) (CD : List (List Char)) (fs0 : FS) (pre : List Entry)
    (fs : FS) (e : Entry) (hfs0 : fs0.wf) (hD : emptyDirAt fs0 D CD)
    (hinv : ExtractInv D CD fs0 pre fs)
    (hend : endsInName (entryPath D e) = true)
    (hpar : (entryPath D e).dropLast = rootPath D
      ∨ ∃ p ∈ pre, p.isDir = true ∧ entryPath D p = (entryPath D e).dropLast) :
    ∃ bp c k, plainName c = true
      ∧ entryPath D e = (rootPath D ++ bp) ++ [c]
      ∧ below D e = bp ++ [c]
      ∧ walk fs false MAXSYMLINKS [] (rootPath D ++ bp) = .ok (CD ++ bp, k)
      ∧ ∃ ino, fs.node (CD ++ bp) = some ino ∧ ino.kind = Kind.dir := by
  obtain ⟨hrl, hrd⟩ := root_located D CD fs0 pre fs hfs0 hD hinv
  unfold endsInName at hend
  cases hlast : (entryPath D e).getLast? with
  | none => rw [hlast] at hend; cases hend
  | some c =>
    rw [hlast] at hend
    simp only at hend
    have hsplit : entryPath D e = (entryPath D e).dropLast ++ [c] :=
      (List.dropLast_append_getLast? c hlast).symm
    rcases hpar with hp | ⟨p, hp, hpd, hpe⟩
    · obtain ⟨_, k, hk⟩ := (locate_eq_ok fs _ _).1 hrl
      refine ⟨[], c, k, hend, ?_, ?_, ?_, ?_⟩
      · rw [List.append_nil, ← hp]; exact hsplit
      · apply below_of_append
        rw [← hp]; exact hsplit
      · rw [List.append_nil, List.append_nil]; exact hk
      · rw [List.append_nil]; exact hrd
    · obtain ⟨pl, pp, pn⟩ := hinv.2.2.2.2.2 p hp
      obtain ⟨_, k, hk⟩ := (locate_eq_ok fs _ _).1 pl
      obtain ⟨ino, hn, hkd, _⟩ := nodeOf_node fs D p _ pl pn
      have hpth : (entryPath D e).dropLast = rootPath D ++ below D p := by rw [← hpe, pp]
      refine ⟨below D p, c, k, hend, ?_, ?_, ?_, ino, hn, hkd hpd⟩
      · rw [← hpth]; exact hsplit
      · apply below_of_append
        rw [← List.append_assoc, ← hpth]; exact hsplit
      · rw [← pp]; exact hk

/-- The place of an entry below the destination root is free, or the entry is a
directory entry and an earlier directory entry has made the directory. -/
theorem fresh_names (D : List Char) (CD : List (List Char)) (fs0 : FS) (pre : List Entry)
    (fs : FS) (e : Entry) (hD : emptyDirAt fs0 D CD) (hinv : ExtractInv D CD fs0 pre fs)
    (hpath : entryPath D e = rootPath D ++ below D e) (hb : below D e ≠ [])
    (hf : freshPath D pre e = true) :
    fs.names (CD ++ below D e) = none
    ∨ (e.isDir = true ∧ ∃ ino, fs.node (CD ++ below D e) = some ino ∧ ino.kind = Kind.dir) := by
  cases hn : fs.names (CD ++ below D e) with
  | none => exact Or.inl rfl
  | some i =>
    right
    rcases hinv.2.2.1 (CD ++ below D e) (by rw [hn]; simp) with h | ⟨p, hp, hpq⟩
    · exact absurd (hD.2.2 _ hb) h
    · have hbe : below D p = below D e := List.append_cancel_left hpq
      obtain ⟨pl, pp, pn⟩ := hinv.2.2.2.2.2 p hp
      have hpe : entryPath D p = entryPath D e := by rw [pp, hpath, hbe]
      unfold freshPath at hf
      by_cases hdir : e.isDir = true
      · rw [if_pos hdir] at hf
        have h2 := List.all_eq_true.1 hf p hp
        simp only [Bool.or_eq_true, bne_iff_ne, ne_eq] at h2
        have hpi : p.isDir = true := h2.resolve_left (fun h => h hpe)
        obtain ⟨ino, hno, hk, _⟩ := nodeOf_node fs D p _ pl pn
        rw [hbe] at hno
        exact ⟨hdir, ino, hno, hk hpi⟩
      · rw [if_neg hdir] at hf
        simp only [Bool.and_eq_true, bne_iff_ne, ne_eq, List.all_eq_true] at hf
        exact absurd hpe (hf.2 p hp)

/-- A directory entry whose path leads to a directory sets its mode. -/
theorem step_existing_dir (fs : FS) (D : List Char) (e : Entry) (q : List (List Char))
    (hwf : fs.wf) (hdir : e.isDir = true)
    (hl : fs.locate (dstpath D e.hdr.Name) = .ok q)
    (hn : ∃ ino, fs.node q = some ino ∧ ino.kind = Kind.dir) :
    ∃ fs1, extractEntry fs D e = (fs1, none) ∧ Ext fs fs1 q := by
  obtain ⟨ino, hno, hk⟩ := hn
  obtain ⟨i, hni, hii⟩ := (node_eq_some fs q ino).1 hno
  have htf : e.hdr.Typeflag = TypeDir := (isDir_iff e).1 hdir
  have hm := Mkdir_exists fs (dstpath D e.hdr.Name) (entryMode e.hdr) q i hl hni
  have hr : fs.resolve (dstpath D e.hdr.Name) = .ok q :=
    resolve_of_locate fs _ q hl (fun x hx => by
      rw [hno] at hx
      cases hx
      rw [hk]
      rfl)
  have hc := Chmod_at fs (dstpath D e.hdr.Name) (entryMode e.hdr) q i ino hr hni hii
  refine ⟨fs.setInode i { ino with mode := entryMode e.hdr }, ?_,
    Ext_setInode fs i ino _ q hwf hii rfl⟩
  simp only [extractEntry]
  rw [if_pos htf, hm]
  simp only [hc]
  rfl

theorem kindAt_of_node (fs : FS) (p : List Char) (q : List (List Char)) (ino : Inode)
    (hl : fs.locate p = .ok q) (hn : fs.node q = some ino) : fs.kindAt p = some ino.kind :=
  (kindAt_eq_some fs p ino.kind).2 ⟨q, ino, hl, hn, rfl⟩

/-- The path of a child leads to its place in every extension of the file system. -/
theorem child_in_Ext (fs fs1 : FS) (d : List (List Char)) (p : List Char)
    (P CP : List (List Char)) (k : Nat) (c : List Char) (hwf : fs.wf) (hext : Ext fs fs1 d)
    (hp : p ≠ []) (hel : elements p = P ++ [c])
    (hw : walk fs false MAXSYMLINKS [] P = .ok (CP, k))
    (hdir : ∃ ino, fs.node CP = some ino ∧ ino.kind = Kind.dir)
    (hc : plainName c = true) : fs1.locate p = .ok (CP ++ [c]) := by
  obtain ⟨ino, hn, hk⟩ := hdir
  obtain ⟨ino1, h1, h2⟩ := Ext_node fs fs1 d CP ino hwf hext hn
  apply locate_child fs1 p P CP k c hp hel _ ⟨ino1, h1, by rw [h2, hk]⟩ hc
  exact walk_stable fs fs1 (Ext_NodeKept fs fs1 d hwf hext) false (CP, k)
    (fun h => by simp only at h; rw [hn] at h; cases h) _ _ _ hw

/-- A directory, regular-file or symlink entry is left by an inode of its kind at
the place its path leads to. -/
theorem nodeOf_created (fs : FS) (D : List Char) (e : Entry) (q : List (List Char))
    (ino : Inode) (hl : fs.locate (dstpath D e.hdr.Name) = .ok q) (hn : fs.node q = some ino)
    (hk : ino.kind = if e.isDir then Kind.dir
      else if e.isReg then Kind.file e.payload else Kind.symlink e.hdr.Linkname)
    (ht : e.isDir = true ∨ e.isReg = true ∨ e.isSymlink = true) : nodeOf fs D e := by
  have h := kindAt_of_node fs _ q ino hl hn
  rw [hk] at h
  unfold nodeOf
  by_cases h1 : e.isDir = true
  · rw [if_pos h1] at h ⊢; exact h
  · rw [if_neg h1] at h ⊢
    by_cases h2 : e.isReg = true
    · rw [if_pos h2] at h ⊢; exact h
    · rw [if_neg h2] at h ⊢
      have h3 : e.isSymlink = true := (ht.resolve_left h1).resolve_left h2
      rw [if_pos h3]
      exact h

/-- One entry of a well-formed stream: it is extracted without error, changes the
entry of its own place only, and is in its place afterwards. -/
theorem extractEntry_step (D : List Char) (CD : List (List Char)) (fs0 : FS)
    (pre : List Entry) (fs : FS) (e : Entry) (hfs0 : fs0.wf) (hD : emptyDirAt fs0 D CD)
    (hinv : ExtractInv D CD fs0 pre fs) (hs : e.supported = true) (hc : e.copyErr = none)
    (hp : dirParentBefore D pre e = true) (ht : targetBefore D pre e = true)
    (hf : freshPath D pre e = true) (hln : e.isSymlink = true → e.hdr.Linkname ≠ []) :
    ∃ fs1, extractEntry fs D e = (fs1, none) ∧ Ext fs fs1 (CD ++ below D e)
      ∧ placed fs1 D CD e := by
  have hwf : fs.wf := hinv.1
  obtain ⟨hrl, hrd⟩ := root_located D CD fs0 pre fs hfs0 hD hinv
  have hne : dstpath D e.hdr.Name ≠ [] := dstpath_ne_nil D CD fs _ hrl
  unfold dirParentBefore at hp
  simp only [Bool.or_eq_true, Bool.and_eq_true, beq_iff_eq, List.any_eq_true] at hp
  rcases hp with ⟨hdir, hroot⟩ | ⟨hend, hpar⟩
  · -- a directory entry for the destination root
    have hb : below D e = [] := by
      unfold below
      rw [hroot]
      simp
    have hl : fs.locate (dstpath D e.hdr.Name) = .ok CD := by
      rw [locate_of_elements fs _ (dstpath D []) hne (locate_ne_nil fs _ _ hrl) hroot]
      exact hrl
    obtain ⟨fs1, h1, h2⟩ := step_existing_dir fs D e CD hwf hdir hl hrd
    obtain ⟨ino, hno, hk⟩ := hrd
    obtain ⟨ino1, g1, g2⟩ := Ext_node fs fs1 CD CD ino hwf h2 hno
    have hl1 : fs1.locate (dstpath D e.hdr.Name) = .ok CD :=
      locate_Ext fs fs1 CD _ CD hwf h2 hl (by rw [hno]; simp)
    rw [hb, List.append_nil]
    refine ⟨fs1, h1, h2, ?_, ?_, ?_⟩
    · rw [hb, List.append_nil]; exact hl1
    · rw [hb, List.append_nil]; exact hroot
    · unfold nodeOf
      rw [if_pos hdir, kindAt_of_node fs1 _ CD ino1 hl1 g1, g2, hk]
  · have hpar1 : (entryPath D e).dropLast = rootPath D
        ∨ ∃ p ∈ pre, p.isDir = true ∧ entryPath D p = (entryPath D e).dropLast := by
      rcases hpar with h | ⟨p, hp1, hp2, hp3⟩
      · exact Or.inl h
      · exact Or.inr ⟨p, hp1, hp2, hp3⟩
    obtain ⟨bp, c, k, hc1, hpath, hb, hw, hdirP⟩ :=
      parent_located D CD fs0 pre fs e hfs0 hD hinv hend hpar1
    have hq : CD ++ below D e = (CD ++ bp) ++ [c] := by rw [hb, List.append_assoc]
    have hpath2 : entryPath D e = rootPath D ++ below D e := by
      rw [hb, ← List.append_assoc]; exact hpath
    have hl : fs.locate (dstpath D e.hdr.Name) = .ok (CD ++ below D e) := by
      rw [hq]
      exact locate_child fs _ _ _ k c hne hpath hw hdirP hc1
    have hloc1 : ∀ fs1, Ext fs fs1 (CD ++ below D e) →
        fs1.locate (dstpath D e.hdr.Name) = .ok (CD ++ below D e) := by
      intro fs1 hext
      rw [hq]
      exact child_in_Ext fs fs1 _ _ _ _ k c hwf hext hne hpath hw hdirP hc1
    rcases fresh_names D CD fs0 pre fs e hD hinv hpath2 (by rw [hb]; simp) hf
      with hnn | ⟨hdir, hnd⟩
    · -- the place is free
      have hcr : creatable (CD ++ below D e) = true := by
        rw [hq]; exact creatable_append _ _ hc1
      have hnode0 : fs.node (CD ++ below D e) = none := node_none_of_names fs _ hnn
      have hr : fs.resolve (dstpath D e.hdr.Name) = .ok (CD ++ below D e) :=
        resolve_of_locate fs _ _ hl (fun ino h => by rw [hnode0] at h; cases h)
      by_cases hdir : e.isDir = true
      · have htf : e.hdr.Typeflag = TypeDir := (isDir_iff e).1 hdir
        have hext := Ext_create fs (CD ++ below D e)
          ⟨Kind.dir, applyUmask fs.umask (entryMode e.hdr), fs.clock, fs.clock⟩ hwf hnn
        refine ⟨_, ?_, hext, hloc1 _ hext, hpath2, ?_⟩
        · simp only [extractEntry]
          rw [if_pos htf, Mkdir_new fs _ _ _ hl hnn hcr]
        · exact nodeOf_created _ D e _ _ (hloc1 _ hext) (node_create_self _ _ _)
            (by simp only [hdir, if_true]) (Or.inl hdir)
      · have htf : e.hdr.Typeflag ≠ TypeDir := fun h => hdir ((isDir_iff e).2 h)
        by_cases hreg : e.isReg = true
        · have htr : e.hdr.Typeflag = TypeReg ∨ e.hdr.Typeflag = TypeRegA := by
            simpa [Entry.isReg] using hreg
          have hext := Ext_create fs (CD ++ below D e)
            ⟨Kind.file e.payload, applyUmask fs.umask (entryMode e.hdr), fs.clock, fs.clock⟩
            hwf hnn
          refine ⟨_, ?_, hext, hloc1 _ hext, hpath2, ?_⟩
          · simp only [extractEntry]
            rw [if_neg htf, if_pos htr, OpenFile_new fs _ _ _ hr hnn hcr]
            simp only [hc, Write_create_eq]
          · exact nodeOf_created _ D e _ _ (hloc1 _ hext) (node_create_self _ _ _)
              (by simp only [hdir, hreg, if_true, Bool.false_eq_true, if_false])
              (Or.inr (Or.inl hreg))
        · have htr : ¬ (e.hdr.Typeflag = TypeReg ∨ e.hdr.Typeflag = TypeRegA) := by
            simpa [Entry.isReg] using hreg
          by_cases hsym : e.isSymlink = true
          · have hts : e.hdr.Typeflag = TypeSymlink := by simpa [Entry.isSymlink] using hsym
            have hext := Ext_create fs (CD ++ below D e)
              ⟨Kind.symlink e.hdr.Linkname, 0o777, fs.clock, fs.clock⟩ hwf hnn
            refine ⟨_, ?_, hext, hloc1 _ hext, hpath2, ?_⟩
            · simp only [extractEntry]
              rw [if_neg htf, if_neg htr, if_pos hts,
                Symlink_new fs _ _ _ (hln hsym) hl hnn hcr]
            · exact nodeOf_created _ D e _ _ (hloc1 _ hext) (node_create_self _ _ _)
                (by simp only [hdir, hreg, Bool.false_eq_true, if_false])
                (Or.inr (Or.inr hsym))
          · have hts : e.hdr.Typeflag ≠ TypeSymlink := by simpa [Entry.isSymlink] using hsym
            have hlink : e.isLink = true := by
              unfold Entry.supported at hs
              simp only [Bool.or_eq_true] at hs
              rcases hs with ((h | h) | h) | h
              · exact absurd h hdir
              · exact absurd h hreg
              · exact absurd h hsym
              · exact h
            have htl : e.hdr.Typeflag = TypeLink := by simpa [Entry.isLink] using hlink
            unfold targetBefore at ht
            simp only [hlink, Bool.not_true, Bool.false_or, List.any_eq_true, Bool.and_eq_true,
              Bool.not_eq_true', beq_iff_eq] at ht
            obtain ⟨p, hpm, hpnd, hpd⟩ := ht
            obtain ⟨pl, pp, pn⟩ := hinv.2.2.2.2.2 p hpm
            obtain ⟨ino, hno, _, hknd⟩ := nodeOf_node fs D p _ pl pn
            obtain ⟨i, hni, hii⟩ := (node_eq_some fs _ ino).1 hno
            have hlo : fs.locate (dstpath D e.hdr.Linkname) = .ok (CD ++ below D p) := by
              rw [← locate_of_elements fs _ _ (locate_ne_nil fs _ _ pl)
                (dstpath_ne_nil D CD fs _ hrl) hpd]
              exact pl
            have hext := Ext_addName fs (CD ++ below D e) i hwf hnn
              ⟨(hwf _ i hni).1, (hwf _ i hni).2⟩
            obtain ⟨ino1, g1, g2⟩ := Ext_node fs _ _ (CD ++ below D p) ino hwf hext hno
            obtain ⟨j, gj1, gj2⟩ := (node_eq_some _ _ ino1).1 g1
            have hji : j = i := by
              have := hext.2.1 _ i hni
              rw [gj1] at this
              exact Option.some.inj this
            subst hji
            refine ⟨_, ?_, hext, hloc1 _ hext, hpath2, ?_⟩
            · simp only [extractEntry]
              rw [if_neg htf, if_neg htr, if_neg hts, if_pos htl,
                Link_new fs _ _ _ _ j ino hlo hni hii (hknd hpnd) hl hnn hcr]
            · unfold nodeOf
              rw [if_neg hdir, if_neg hreg, if_neg hsym]
              refine ⟨CD ++ below D e, CD ++ below D p, j, ino1, hloc1 _ hext,
                locate_Ext fs _ _ _ _ hwf hext hlo (by rw [hno]; simp), ?_, gj1, gj2,
                by rw [g2]; exact hknd hpnd⟩
              simp only [FS.addName, if_true]
    · -- the directory exists
      obtain ⟨fs1, h1, h2⟩ := step_existing_dir fs D e _ hwf hdir hl hnd
      obtain ⟨ino, hno, hk⟩ := hnd
      obtain ⟨ino1, g1, g2⟩ := Ext_node fs fs1 _ _ ino hwf h2 hno
      refine ⟨fs1, h1, h2, hloc1 fs1 h2, hpath2, ?_⟩
      unfold nodeOf
      rw [if_pos hdir, kindAt_of_node fs1 _ _ ino1 (hloc1 fs1 h2) g1, g2, hk]

theorem ExtractInv_step (D : List Char) (CD : List (List Char)) (fs0 : FS) (pre : List Entry)
    (fs fs2 : FS) (e : Entry) (hinv : ExtractInv D CD fs0 pre fs)
    (hext : Ext fs fs2 (CD ++ below D e)) (hpl : placed fs2 D CD e) :
    ExtractInv D CD fs0 (pre ++ [e]) fs2 := by
  obtain ⟨b1, b2, b3, b4, b5, b6⟩ := hinv
  have hext0 := hext
  obtain ⟨a1, a2, a3, a4, a5⟩ := hext
  refine ⟨a1, fun p i h => a2 p i (b2 p i h), ?_, ?_, le_trans b5 a4, ?_⟩
  · intro q hq
    by_cases hqd : q = CD ++ below D e
    · exact Or.inr ⟨e, by simp, hqd.symm⟩
    · rw [a5 q hqd] at hq
      rcases b3 q hq with h | ⟨x, hx, hxd⟩
      · exact Or.inl h
      · exact Or.inr ⟨x, by simp [hx], hxd⟩
  · intro i hi
    rw [a3 i (lt_of_lt_of_le hi b5), b4 i hi]
  · intro x hx
    rcases List.mem_append.1 hx with h | h
    · exact placed_mono fs fs2 D CD _ x b1 hext0 (b6 x h)
    · simp only [List.mem_singleton] at h
      rw [h]
      exact hpl

/-- The reconstruction of the rest `es` of a well-formed stream without collisions
returns nil and keeps the invariant. -/
theorem processTarStream_inv (D : List Char) (CD : List (List Char)) (fs0 : FS)
    (hfs0 : fs0.wf) (hD : emptyDirAt fs0 D CD) (es : List Entry) :
    ∀ (pre : List Entry) (fs : FS), ExtractInv D CD fs0 pre fs →
      wellFormedFrom D pre es = true → dirParentsFrom D pre es = true →
      noCollisionFrom D pre es = true →
      (∀ e ∈ es, e.isSymlink = true → e.hdr.Linkname ≠ []) →
      (processTarStream D fs es none).2 = none
      ∧ ExtractInv D CD fs0 (pre ++ es) (processTarStream D fs es none).1 := by
  induction es with
  | nil =>
    intro pre fs hinv _ _ _ _
    simp only [processTarStream, List.append_nil]
    exact ⟨trivial, hinv⟩
  | cons e es ih =>
    intro pre fs hinv hw hdp hn hln
    simp only [wellFormedFrom, Bool.and_eq_true, Option.isNone_iff_eq_none] at hw
    simp only [dirParentsFrom, Bool.and_eq_true] at hdp
    simp only [noCollisionFrom, Bool.and_eq_true] at hn
    obtain ⟨⟨⟨⟨hs, hc⟩, _⟩, ht⟩, hw2⟩ := hw
    obtain ⟨hp, hdp2⟩ := hdp
    obtain ⟨hf, hn2⟩ := hn
    obtain ⟨fs1, h1, h2, h3⟩ := extractEntry_step D CD fs0 pre fs e hfs0 hD hinv hs hc hp ht hf
      (hln e (List.mem_cons_self _ _))
    have hext2 := Ext_chtimes fs1 D (CD ++ below D e) e h2.1
    have hinv2 := ExtractInv_step D CD fs0 pre fs (chtimesBestEffort fs1 D e) e hinv
      (Ext_trans _ _ _ _ h2 hext2) (placed_mono fs1 _ D CD _ e h2.1 hext2 h3)
    have := ih (pre ++ [e]) _ hinv2 hw2 hdp2 hn2
      (fun x hx => hln x (List.mem_cons_of_mem _ hx))
    rw [List.append_assoc] at this
    simp only [processTarStream, h1]
    exact this

theorem ExtractInv_init (D : List Char) (CD : List (List Char)) (fs : FS) (hwf : fs.wf) :
    ExtractInv D CD fs [] fs :=
  ⟨hwf, fun _ _ h => h, fun _ h => Or.inl h, fun _ _ => rfl, le_rfl,
    fun _ h => absurd h (List.not_mem_nil _)⟩

theorem hostFS_emptyDirAt :
    emptyDirAt hostFS "/var/tmp/d".toList (elements "/var/tmp/d".toList) := by
  refine ⟨rfl, ⟨⟨Kind.dir, 0o755, 0, 0⟩, by decide, rfl⟩, ?_⟩
  intro sfx hne
  have hlen : 5 ≤ (elements "/var/tmp/d".toList ++ sfx).length := by
    have h4 : (elements "/var/tmp/d".toList).length = 4 := by decide
    have h1 : 1 ≤ sfx.length := by
      cases sfx with
      | nil => exact absurd rfl hne
      | cons a l => simp
    rw [List.length_append, h4]
    omega
  generalize elements "/var/tmp/d".toList ++ sfx = q at hlen
  by_contra h
  have hm : q ∈ ["/".toList, "/var".toList, "/var/tmp".toList, "/var/tmp/d".toList].map
      elements := by
    by_contra h2
    exact h (by simp only [hostFS, FS.ofDirs]; rw [if_neg h2])
  simp only [List.map_cons, List.map_nil, List.mem_cons, List.mem_singleton,
    List.not_mem_nil, or_false] at hm
  rcases hm with h1 | h1 | h1 | h1 <;> subst h1 <;> revert hlen <;> decide

/-- C2, counterexample: three well-formed streams of supported entries (parents
before children, no hard links), extracted into the empty directory
`/var/tmp/d`. The two symlink entries `rootfs/a` and `a` are mapped to the
same path: the second `os.Symlink` fails with EEXIST and `processTarStream`
returns an error. The symlink entry `rootfs/l` has an empty link name:
`os.Symlink` fails with ENOENT and `processTarStream` returns an error. The
regular file `bin/sh` comes after its parent, the symlink `bin` to the
directory `usr`: `processTarStream` returns nil and leaves the file at
`/var/tmp/d/usr/sh`, which is the path of no entry and was not there. -/
theorem processTarStream_not_exact :
    emptyDirAt hostFS "/var/tmp/d".toList (elements "/var/tmp/d".toList)
    ∧ (wellFormedFrom "/var/tmp/d".toList [] collidingLinks = true
      ∧ (processTarStream "/var/tmp/d".toList hostFS collidingLinks none).2
          = some (.createSymlink Errno.EEXIST))
    ∧ (wellFormedFrom "/var/tmp/d".toList [] emptyTarget = true
      ∧ (processTarStream "/var/tmp/d".toList hostFS emptyTarget none).2
          = some (.createSymlink Errno.ENOENT))
    ∧ (wellFormedFrom "/var/tmp/d".toList [] usrMerge = true
      ∧ (processTarStream "/var/tmp/d".toList hostFS usrMerge none).2 = none
      ∧ hostFS.stat "/var/tmp/d/usr/sh".toList = none
      ∧ (processTarStream "/var/tmp/d".toList hostFS usrMerge none).1.stat
          "/var/tmp/d/usr/sh".toList = some ⟨Kind.file "#!".toList, 0o644, 7, 9⟩
      ∧ ∀ e ∈ usrMerge, dstpath "/var/tmp/d".toList e.hdr.Name ≠ "/var/tmp/d/usr/sh".toList) :=
  ⟨hostFS_emptyDirAt, ⟨by decide, by decide⟩, ⟨by decide, by decide⟩,
    ⟨by decide, by decide, by decide, by decide, by decide⟩⟩

/-- C2, amended: for a well-formed stream of directory, regular-file, symlink and
hard-link entries (payloads that can be read, parents before children,
hard-link targets before the links) in which the parent of every entry is
the destination root or the path of an earlier directory entry, no entry is
mapped to the path of an earlier one unless both are directories, and no
symlink entry has an empty link name, `processTarStream` into an empty
directory `D` returns nil and leaves, at the path
`Join(D, TrimPrefix(name, "rootfs/"))` of every entry, a directory, a
regular file with the bytes of the payload, a symlink with the literal link
name, or a second name of the inode at
`Join(D, TrimPrefix(Linkname, "rootfs/"))`; that path leads to the place
below the one of `D` that its elements after those of `D` name; no name is
made or removed at another place, and what existed before keeps its name
and kind. -/
theorem processTarStream_exact (D : List Char) (CD : List (List Char)) (fs : FS)
    (es : List Entry) (hwf : fs.wf) (hD : emptyDirAt fs D CD)
    (hs : wellFormedFrom D [] es = true) (hp : dirParentsFrom D [] es = true)
    (hn : noCollisionFrom D [] es = true)
    (hl : ∀ e ∈ es, e.isSymlink = true → e.hdr.Linkname ≠ []) :
    (processTarStream D fs es none).2 = none
    ∧ (∀ e ∈ es, nodeOf (processTarStream D fs es none).1 D e)
    ∧ (∀ e ∈ es, entryPath D e = rootPath D ++ below D e
        ∧ (processTarStream D fs es none).1.locate (dstpath D e.hdr.Name)
          = .ok (CD ++ below D e))
    ∧ (∀ q, (∀ e ∈ es, CD ++ below D e ≠ q) →
        (processTarStream D fs es none).1.names q = fs.names q)
    ∧ (∀ q i, fs.names q = some i →
        (processTarStream D fs es none).1.names q = some i
        ∧ ((processTarStream D fs es none).1.inodes i).map (fun ino => ino.kind)
          = (fs.inodes i).map (fun ino => ino.kind)) := by
  obtain ⟨h1, h2⟩ := processTarStream_inv D CD fs hwf hD es [] fs (ExtractInv_init D CD fs hwf)
    hs hp hn hl
  simp only [List.nil_append] at h2
  obtain ⟨_, b2, b3, b4, _, b6⟩ := h2
  refine ⟨h1, fun e he => (b6 e he).2.2, fun e he => ⟨(b6 e he).2.1, (b6 e he).1⟩, ?_, ?_⟩
  · intro q hq
    cases hf : fs.names q with
    | some i => exact b2 q i hf
    | none =>
      by_contra hne
      rcases b3 q hne with h | ⟨e, he, hed⟩
      · exact h hf
      · exact hq e he hed
  · intro q i hi
    exact ⟨b2 q i hi, b4 i (hwf q i hi).1⟩

/-- C2, amended, at the stream `sampleTree` extracted into the empty directory
`/var/tmp/d`: the root directory, a directory, a file in it, a symlink, a
hard link to the file, and the directory once more. -/
theorem processTarStream_exact_witness :
    (processTarStream "/var/tmp/d".toList hostFS sampleTree none).2 = none
    ∧ (∀ e ∈ sampleTree,
        nodeOf (processTarStream "/var/tmp/d".toList hostFS sampleTree none).1
          "/var/tmp/d".toList e)
    ∧ (∀ q, (∀ e ∈ sampleTree,
          elements "/var/tmp/d".toList ++ below "/var/tmp/d".toList e ≠ q) →
        (processTarStream "/var/tmp/d".toList hostFS sampleTree none).1.names q
          = hostFS.names q)
    ∧ (processTarStream "/var/tmp/d".toList hostFS sampleTree none).1.stat
        "/var/tmp/d/etc/pw".toList = some ⟨Kind.file "root".toList, 0o644, 7, 9⟩ :=
  ⟨(processTarStream_exact "/var/tmp/d".toList _ hostFS sampleTree hostFS_wf hostFS_emptyDirAt
      (by decide) (by decide) (by decide) (by decide)).1,
   (processTarStream_exact "/var/tmp/d".toList _ hostFS sampleTree hostFS_wf hostFS_emptyDirAt
      (by decide) (by decide) (by decide) (by decide)).2.1,
   (processTarStream_exact "/var/tmp/d".toList _ hostFS sampleTree hostFS_wf hostFS_emptyDirAt
      (by decide) (by decide) (by decide) (by decide)).2.2.2.1,
   by decide⟩

/-! ## C3: errors of the tar reconstructor -/

/-- Reading from a pipe whose bytes end with the end-of-archive marker or with a
block that is rejected is `processTarStream` on that stream; all bytes have
been read when no entry fails and nothing follows. -/
theorem processPipe_ended (D : List Char) (endErr : Option (List Char)) (trailing : Bool)
    (es : List Entry) :
    ∀ fs : FS,
      (processPipe D fs es (.ended endErr trailing)).1 = (processTarStream D fs es endErr).1
      ∧ (processPipe D fs es (.ended endErr trailing)).2.1 = (processTarStream D fs es endErr).2
      ∧ ((processPipe D fs es (.ended endErr trailing)).2.2 = .returned true
          ↔ (processTarStream D fs es none).2 = none ∧ trailing = false) := by
  induction es with
  | nil =>
    intro fs
    cases endErr with
    | none => cases trailing <;> simp [processPipe, processTarStream]
    | some err => cases trailing <;> simp [processPipe, processTarStream]
  | cons e es ih =>
    intro fs
    rw [processPipe, processTarStream]
    rw [processTarStream]
    cases hx : extractEntry fs D e with
    | mk fs1 r =>
      cases r with
      | some err =>
        refine ⟨rfl, rfl, ?_⟩
        simp
      | none => exact ih _

/-- Reading from a pipe whose bytes stop after the entries blocks, unless an entry
fails. -/
theorem processPipe_stops (D : List Char) (es : List Entry) :
    ∀ fs : FS,
      (processPipe D fs es .stops).2.2 = .returned true →
        (processTarStream D fs es none).2 ≠ none := by
  induction es with
  | nil => intro fs h; simp [processPipe] at h
  | cons e es ih =>
    intro fs h
    rw [processPipe] at h
    rw [processTarStream]
    cases hx : extractEntry fs D e with
    | mk fs1 r =>
      rw [hx] at h
      cases r with
      | some err => simp
      | none => exact ih _ h

/-- C3, counterexample: the container exports a stream whose first header block is
not valid and `DownloadFromContainer` returns nil. `processTarStream`
returns the read error, `handleTarStream` logs it, and both
`createAndExtractImage` and `ExtractImage` return, with a nil error, the
latter with the metadata of the image. -/
theorem extraction_error_not_reported :
    (processTarStream "/var/tmp/d".toList hostFS badStream.entries badStream.endErr).2
      = some (.read "archive/tar: invalid tar header".toList)
    ∧ (createAndExtractImage (okEnv badStream) hostFS
        { imageOptions with DstPath := "/var/tmp/d".toList } "image-inspector-1".toList).logged
      = some (.read "archive/tar: invalid tar header".toList)
    ∧ (createAndExtractImage (okEnv badStream) hostFS
        { imageOptions with DstPath := "/var/tmp/d".toList } "image-inspector-1".toList).err
      = none
    ∧ (createAndExtractImage (okEnv badStream) hostFS
        { imageOptions with DstPath := "/var/tmp/d".toList } "image-inspector-1".toList).hangs
      = false
    ∧ (ExtractImage (okEnv badStream) hostFS
        { imageOptions with DstPath := "/var/tmp/d".toList }).err = none
    ∧ (ExtractImage (okEnv badStream) hostFS
        { imageOptions with DstPath := "/var/tmp/d".toList }).meta
      = some (NewInspectorMetadata ⟨"sha256:1".toList⟩) := by
  decide

/-- C3, amended: once the container is created and inspected and the destination
directory is there, an error of `processTarStream` is only logged by
`handleTarStream`, and the tree reconstructed so far stays.
`createAndExtractImage` returns exactly when `handleTarStream` has returned
and has read all that `DownloadFromContainer` wrote: for a stream that ends
with the end-of-archive marker or with a block that is rejected, when no
entry fails and nothing follows; for a stream that stops, only when an entry
fails. The error it then returns is the error of `DownloadFromContainer`,
wrapped, nil when that is nil, whatever `processTarStream` returned, and
`ExtractImage` returns the same error, and the metadata of the image when it
is nil. Otherwise the two goroutines wait for each other: the call does not
return and the container is not removed. -/
theorem createAndExtractImage_err (env : Env) (fs fs1 : FS) (opts : ImageInspectorOptions)
    (n containerID imageID dst : List Char) (imageMetadata : DockerImage)
    (h0 : env.NewClient opts.URI = none) (hp : (pullImage env opts).err = none)
    (hn : env.randInt = .ok n)
    (h1 : env.CreateContainer ("image-inspector-".toList ++ n) = .ok containerID)
    (h2 : env.InspectContainer containerID = .ok imageID)
    (h3 : env.InspectImage imageID = .ok imageMetadata)
    (h4 : createOutputDir (env.tempSuffixes "image-inspector-".toList) fs opts.DstPath
        "image-inspector-".toList = (fs1, .ok dst)) :
    (createAndExtractImage env fs opts ("image-inspector-".toList ++ n)).fs
      = (processPipe dst fs1 (env.DownloadFromContainer containerID).1.entries
          (env.DownloadFromContainer containerID).1.tail).1
    ∧ ((createAndExtractImage env fs opts ("image-inspector-".toList ++ n)).hangs = true
        ↔ (processPipe dst fs1 (env.DownloadFromContainer containerID).1.entries
            (env.DownloadFromContainer containerID).1.tail).2.2 ≠ .returned true)
    ∧ ((createAndExtractImage env fs opts ("image-inspector-".toList ++ n)).hangs = true →
        (createAndExtractImage env fs opts ("image-inspector-".toList ++ n)).removed = none
        ∧ (createAndExtractImage env fs opts ("image-inspector-".toList ++ n)).err = none
        ∧ (createAndExtractImage env fs opts ("image-inspector-".toList ++ n)).image = none
        ∧ (ExtractImage env fs opts).hangs = true
        ∧ (ExtractImage env fs opts).meta = none)
    ∧ ((processPipe dst fs1 (env.DownloadFromContainer containerID).1.entries
          (env.DownloadFromContainer containerID).1.tail).2.2 = .returned true →
        (createAndExtractImage env fs opts ("image-inspector-".toList ++ n)).logged
          = (processPipe dst fs1 (env.DownloadFromContainer containerID).1.entries
              (env.DownloadFromContainer containerID).1.tail).2.1
        ∧ (createAndExtractImage env fs opts ("image-inspector-".toList ++ n)).removed
          = some containerID
        ∧ (createAndExtractImage env fs opts ("image-inspector-".toList ++ n)).err
          = (env.DownloadFromContainer containerID).2.map AcquireError.extract
        ∧ (ExtractImage env fs opts).hangs = false
        ∧ (ExtractImage env fs opts).err
          = (env.DownloadFromContainer containerID).2.map AcquireError.extract
        ∧ ((env.DownloadFromContainer containerID).2 = none →
            (ExtractImage env fs opts).meta = some (NewInspectorMetadata imageMetadata)))
    ∧ (∀ endErr trailing,
        (env.DownloadFromContainer containerID).1.tail = .ended endErr trailing →
        (processPipe dst fs1 (env.DownloadFromContainer containerID).1.entries
            (env.DownloadFromContainer containerID).1.tail).1
          = (processTarStream dst fs1 (env.DownloadFromContainer containerID).1.entries
              endErr).1
        ∧ (processPipe dst fs1 (env.DownloadFromContainer containerID).1.entries
            (env.DownloadFromContainer containerID).1.tail).2.1
          = (processTarStream dst fs1 (env.DownloadFromContainer containerID).1.entries
              endErr).2
        ∧ ((processPipe dst fs1 (env.DownloadFromContainer containerID).1.entries
              (env.DownloadFromContainer containerID).1.tail).2.2 = .returned true
            ↔ (processTarStream dst fs1 (env.DownloadFromContainer containerID).1.entries
                none).2 = none ∧ trailing = false))
    ∧ ((env.DownloadFromContainer containerID).1.tail = .stops →
        (processPipe dst fs1 (env.DownloadFromContainer containerID).1.entries
            (env.DownloadFromContainer containerID).1.tail).2.2 = .returned true →
        (processTarStream dst fs1 (env.DownloadFromContainer containerID).1.entries
          none).2 ≠ none) := by
  generalize hd : env.DownloadFromContainer containerID = d
  generalize hh : processPipe dst fs1 d.1.entries d.1.tail = h
  have hc : createAndExtractImage env fs opts ("image-inspector-".toList ++ n)
      = match h.2.2 with
        | .blocked => ⟨h.1, dst, some dst, none, none, none, none, true⟩
        | .returned false => ⟨h.1, dst, some dst, h.2.1, none, none, none, true⟩
        | .returned true =>
          match d.2 with
          | some err =>
            ⟨h.1, dst, some dst, h.2.1, some containerID, some imageMetadata,
              some (.extract err), false⟩
          | none =>
            ⟨h.1, dst, some dst, h.2.1, some containerID, some imageMetadata, none, false⟩ := by
    simp only [createAndExtractImage, h1, h2, h3, h4, handleTarStream, hd, hh]
  have he : ExtractImage env fs opts
      = if (createAndExtractImage env fs opts ("image-inspector-".toList ++ n)).hangs then
          ⟨(createAndExtractImage env fs opts ("image-inspector-".toList ++ n)).fs,
            { opts with DstPath :=
                (createAndExtractImage env fs opts ("image-inspector-".toList ++ n)).DstPath },
            (createAndExtractImage env fs opts ("image-inspector-".toList ++ n)).extractedTo,
            (createAndExtractImage env fs opts ("image-inspector-".toList ++ n)).logged,
            none, none, true⟩
        else
          match (createAndExtractImage env fs opts ("image-inspector-".toList ++ n)).err,
            (createAndExtractImage env fs opts ("image-inspector-".toList ++ n)).image with
          | none, some imageMetadata =>
            ⟨(createAndExtractImage env fs opts ("image-inspector-".toList ++ n)).fs,
              { opts with DstPath :=
                  (createAndExtractImage env fs opts ("image-inspector-".toList ++ n)).DstPath },
              (createAndExtractImage env fs opts ("image-inspector-".toList ++ n)).extractedTo,
              (createAndExtractImage env fs opts ("image-inspector-".toList ++ n)).logged,
              some (NewInspectorMetadata imageMetadata), none, false⟩
          | some err, _ =>
            ⟨(createAndExtractImage env fs opts ("image-inspector-".toList ++ n)).fs,
              { opts with DstPath :=
                  (createAndExtractImage env fs opts ("image-inspector-".toList ++ n)).DstPath },
              (createAndExtractImage env fs opts ("image-inspector-".toList ++ n)).extractedTo,
              (createAndExtractImage env fs opts ("image-inspector-".toList ++ n)).logged,
              none, some err, false⟩
          | none, none =>
            ⟨(createAndExtractImage env fs opts ("image-inspector-".toList ++ n)).fs,
              { opts with DstPath :=
                  (createAndExtractImage env fs opts ("image-inspector-".toList ++ n)).DstPath },
              (createAndExtractImage env fs opts ("image-inspector-".toList ++ n)).extractedTo,
              (createAndExtractImage env fs opts ("image-inspector-".toList ++ n)).logged,
              none, none, false⟩ := by
    simp only [ExtractImage, h0, hp, generateRandomName, hn]
  have hpe : ∀ endErr trailing, d.1.tail = .ended endErr trailing →
      h.1 = (processTarStream dst fs1 d.1.entries endErr).1
      ∧ h.2.1 = (processTarStream dst fs1 d.1.entries endErr).2
      ∧ (h.2.2 = .returned true
          ↔ (processTarStream dst fs1 d.1.entries none).2 = none ∧ trailing = false) := by
    intro endErr trailing ht
    rw [← hh, ht]
    exact processPipe_ended dst endErr trailing d.1.entries fs1
  have hps : d.1.tail = .stops → h.2.2 = .returned true →
      (processTarStream dst fs1 d.1.entries none).2 ≠ none := by
    intro ht
    rw [← hh, ht]
    exact processPipe_stops dst d.1.entries fs1
  refine ⟨?_, ?_, ?_, ?_, hpe, hps⟩
  · rw [hc]
    cases h.2.2 with
    | blocked => rfl
    | returned b =>
      cases b with
      | false => rfl
      | true => cases d.2 <;> rfl
  · rw [hc]
    cases h.2.2 with
    | blocked => simp
    | returned b =>
      cases b with
      | false => simp
      | true => cases d.2 <;> simp
  · intro hh1
    rw [he, if_pos hh1]
    rw [hc] at hh1 ⊢
    cases hr : h.2.2 with
    | blocked => exact ⟨rfl, rfl, rfl, rfl, rfl⟩
    | returned b =>
      cases b with
      | false => exact ⟨rfl, rfl, rfl, rfl, rfl⟩
      | true =>
        rw [hr] at hh1
        cases hd2 : d.2 <;> rw [hd2] at hh1 <;> cases hh1
  · intro hr
    have hnh : ¬ (createAndExtractImage env fs opts ("image-inspector-".toList ++ n)).hangs
        = true := by
      rw [hc, hr]
      cases d.2 <;> simp
    rw [he, if_neg hnh, hc, hr]
    cases hd2 : d.2 with
    | none => exact ⟨rfl, rfl, rfl, rfl, rfl, fun _ => rfl⟩
    | some err => exact ⟨rfl, rfl, rfl, rfl, rfl, fun hcon => by cases hcon⟩

/-- C3, amended, at the stream that ends in a read error: nil is returned; and at
a download that fails before the first byte, and at a stream in which an
entry fails before the end of the archive: the call does not return. -/
theorem createAndExtractImage_err_witness :
    (createAndExtractImage (okEnv badStream) hostFS
        { imageOptions with DstPath := "/var/tmp/d".toList }
        ("image-inspector-".toList ++ "00000000000004d2".toList)).err = none
    ∧ (ExtractImage (okEnv badStream) hostFS
        { imageOptions with DstPath := "/var/tmp/d".toList }).err = none
    ∧ (createAndExtractImage noBytesEnv hostFS
        { imageOptions with DstPath := "/var/tmp/d".toList }
        ("image-inspector-".toList ++ "00000000000004d2".toList)).hangs = true
    ∧ (createAndExtractImage orphanEnv hostFS
        { imageOptions with DstPath := "/var/tmp/d".toList }
        ("image-inspector-".toList ++ "00000000000004d2".toList)).hangs = true
    ∧ (createAndExtractImage orphanEnv hostFS
        { imageOptions with DstPath := "/var/tmp/d".toList }
        ("image-inspector-".toList ++ "00000000000004d2".toList)).removed = none :=
  ⟨((createAndExtractImage_err (okEnv badStream) hostFS hostFS
      { imageOptions with DstPath := "/var/tmp/d".toList } "00000000000004d2".toList
      "c1".toList "sha256:1".toList "/var/tmp/d".toList ⟨"sha256:1".toList⟩
      rfl (by decide) rfl rfl rfl rfl rfl).2.2.2.1 (by decide)).2.2.1,
   ((createAndExtractImage_err (okEnv badStream) hostFS hostFS
      { imageOptions with DstPath := "/var/tmp/d".toList } "00000000000004d2".toList
      "c1".toList "sha256:1".toList "/var/tmp/d".toList ⟨"sha256:1".toList⟩
      rfl (by decide) rfl rfl rfl rfl rfl).2.2.2.1 (by decide)).2.2.2.2.1,
   (createAndExtractImage_err noBytesEnv hostFS hostFS
      { imageOptions with DstPath := "/var/tmp/d".toList } "00000000000004d2".toList
      "c1".toList "sha256:1".toList "/var/tmp/d".toList ⟨"sha256:1".toList⟩
      rfl (by decide) rfl rfl rfl rfl rfl).2.1.2 (by decide),
   (createAndExtractImage_err orphanEnv hostFS hostFS
      { imageOptions with DstPath := "/var/tmp/d".toList } "00000000000004d2".toList
      "c1".toList "sha256:1".toList "/var/tmp/d".toList ⟨"sha256:1".toList⟩
      rfl (by decide) rfl rfl rfl rfl rfl).2.1.2 (by decide),
   ((createAndExtractImage_err orphanEnv hostFS hostFS
      { imageOptions with DstPath := "/var/tmp/d".toList } "00000000000004d2".toList
      "c1".toList "sha256:1".toList "/var/tmp/d".toList ⟨"sha256:1".toList⟩
      rfl (by decide) rfl rfl rfl rfl rfl).2.2.1 (by decide)).1⟩

/-! ## C4: the path handed to the scanners -/

theorem createOutputDir_of_ne_nil (suffixes : List (List Char)) (fs : FS)
    (dirName tempName dst : List Char) (hne : dirName ≠ [])
    (h : (createOutputDir suffixes fs dirName tempName).2 = .ok dst) : dst = dirName := by
  have hpos : 0 < dirName.length := List.length_pos.2 hne
  unfold createOutputDir at h
  rw [if_pos hpos] at h
  split at h
  · simp only [Except.ok.injEq] at h
    exact h.symm
  · split at h
    · cases h
    · simp only [Except.ok.injEq] at h
      exact h.symm

/-- With a destination path that is not empty, the image is extracted into that
path, which is also the one `main` hands to the scanners. -/
theorem extractedTo_of_ne_nil (env : Env) (fs : FS) (opts : ImageInspectorOptions)
    (containerName dst : List Char) (hne : opts.DstPath ≠ [])
    (h : (createAndExtractImage env fs opts containerName).extractedTo = some dst) :
    dst = opts.DstPath := by
  unfold createAndExtractImage at h
  split at h
  · cases h
  · split at h
    · cases h
    · split at h
      · cases h
      · split at h
        · cases h
        · next fs1 d hout =>
          have hd := createOutputDir_of_ne_nil _ fs opts.DstPath _ d hne (by rw [hout])
          simp only at h
          split at h
          · simp only [Option.some.injEq] at h; rw [← h, hd]
          · simp only [Option.some.injEq] at h; rw [← h, hd]
          · split at h
            · simp only [Option.some.injEq] at h; rw [← h, hd]
            · simp only [Option.some.injEq] at h; rw [← h, hd]

/-- C4, evaluated at the failing input: the options `-image img -custom custom.yaml
-scan-type occlamdscan -scan-type openscap` pass `Validate`; with the
destination path left empty, the image is extracted into the temporary
directory `/var/tmp/image-inspector-123`, but the openscap scan is run
against the empty path and the custom scanner gets an empty `IMAGE_PATH`. -/
theorem mainImage_scans_empty_path :
    (Validate (fun _ => StatResult.notDir) initialScanOptions customOptions).err = none
    ∧ (Validate (fun _ => StatResult.notDir) initialScanOptions customOptions).opts.DstPath = []
    ∧ (mainImage (okEnv ⟨[], none⟩) hostFS
        (Validate (fun _ => StatResult.notDir) initialScanOptions customOptions).ScanOptions
        (Validate (fun _ => StatResult.notDir) initialScanOptions customOptions).opts).extractedTo
      = some "/var/tmp/image-inspector-123".toList
    ∧ ((mainImage (okEnv ⟨[], none⟩) hostFS
        (Validate (fun _ => StatResult.notDir) initialScanOptions customOptions).ScanOptions
        (Validate (fun _ => StatResult.notDir) initialScanOptions customOptions).opts).openscap.bind
          fun r => r.scanned) = some []
    ∧ (mainImage (okEnv ⟨[], none⟩) hostFS
        (Validate (fun _ => StatResult.notDir) initialScanOptions customOptions).ScanOptions
        (Validate (fun _ => StatResult.notDir) initialScanOptions customOptions).opts).custom
      = [("occlamdscan".toList,
          .ran ["occlamdscan".toList, "--image".toList]
            ["IMAGE_NAME=img".toList, "IMAGE_PATH=".toList] none)]
    ∧ (mainImage (okEnv ⟨[], none⟩) hostFS
        (Validate (fun _ => StatResult.notDir) initialScanOptions customOptions).ScanOptions
        (Validate (fun _ => StatResult.notDir) initialScanOptions customOptions).opts).fatal = none
    ∧ (mainImage (okEnv ⟨[], none⟩) hostFS
        (Validate (fun _ => StatResult.notDir) initialScanOptions customOptions).ScanOptions
        (Validate (fun _ => StatResult.notDir) initialScanOptions customOptions).opts).hangs
      = false := by
  decide

/-! ## C5: the mode of created directories and files -/

/-- C5: the mode `processTarStream` uses is the header mode or-ed with 0600, so
the owner read and write bits are set and every bit of the header mode is
kept; a new directory and a new regular file are created with that mode
(`os.Mkdir` and `os.OpenFile` are called with it, the new inode has it
without the bits of the umask); and when the directory exists already, that
mode is applied to it (`os.Chmod`) and no error is returned. -/
theorem entryMode_owner_rw (fs : FS) (D : List Char) (e : Entry) :
    entryMode e.hdr = e.hdr.Mode ||| 0o600
    ∧ entryMode e.hdr &&& 0o600 = 0o600
    ∧ e.hdr.Mode &&& entryMode e.hdr = e.hdr.Mode
    ∧ (e.hdr.Typeflag = TypeDir → ∀ q, fs.locate (dstpath D e.hdr.Name) = .ok q →
        fs.names q = none → creatable q = true →
        Mkdir fs (dstpath D e.hdr.Name) (e.hdr.Mode ||| 0o600)
          = .ok (extractEntry fs D e).1
        ∧ (extractEntry fs D e).2 = none
        ∧ (extractEntry fs D e).1.node q
            = some ⟨Kind.dir, applyUmask fs.umask (e.hdr.Mode ||| 0o600), fs.clock, fs.clock⟩
        ∧ (fs.umask = 0 → (extractEntry fs D e).1.node q
            = some ⟨Kind.dir, e.hdr.Mode ||| 0o600, fs.clock, fs.clock⟩)
        ∧ (fs.wf → (extractEntry fs D e).1.stat (dstpath D e.hdr.Name)
            = some ⟨Kind.dir, applyUmask fs.umask (e.hdr.Mode ||| 0o600), fs.clock, fs.clock⟩))
    ∧ (e.hdr.Typeflag = TypeReg ∨ e.hdr.Typeflag = TypeRegA →
        ∀ q, fs.resolve (dstpath D e.hdr.Name) = .ok q →
        fs.names q = none → creatable q = true → e.copyErr = none →
        (OpenFile fs (dstpath D e.hdr.Name) (e.hdr.Mode ||| 0o600)).toOption.map Prod.snd
          = some fs.next
        ∧ (extractEntry fs D e).2 = none
        ∧ (extractEntry fs D e).1.node q
            = some ⟨Kind.file e.payload, applyUmask fs.umask (e.hdr.Mode ||| 0o600), fs.clock,
                fs.clock⟩
        ∧ (fs.umask = 0 → (extractEntry fs D e).1.node q
            = some ⟨Kind.file e.payload, e.hdr.Mode ||| 0o600, fs.clock, fs.clock⟩)
        ∧ (fs.wf → fs.locate (dstpath D e.hdr.Name) = .ok q →
            (extractEntry fs D e).1.stat (dstpath D e.hdr.Name)
              = some ⟨Kind.file e.payload, applyUmask fs.umask (e.hdr.Mode ||| 0o600), fs.clock,
                  fs.clock⟩))
    ∧ (e.hdr.Typeflag = TypeDir → ∀ ino, fs.stat (dstpath D e.hdr.Name) = some ino →
        ino.kind = Kind.dir →
        (extractEntry fs D e).2 = none
        ∧ (extractEntry fs D e).1.stat (dstpath D e.hdr.Name)
            = some { ino with mode := e.hdr.Mode ||| 0o600 }) := by
  refine ⟨rfl, lor_land_self _ _, land_lor_self _ _, ?_, ?_, ?_⟩
  · intro ht q hl hn hc
    have hmk := Mkdir_new fs _ (entryMode e.hdr) q hl hn hc
    have hex : extractEntry fs D e
        = (fs.create q ⟨Kind.dir, applyUmask fs.umask (entryMode e.hdr), fs.clock, fs.clock⟩,
            none) := by
      simp only [extractEntry, ht, if_true, hmk]
    rw [hex]
    refine ⟨hmk, rfl, node_create_self _ _ _, ?_, ?_⟩
    · intro hu
      rw [node_create_self, hu]
      simp [applyUmask, entryMode, OWNER_PERM_RW]
    · intro hwf
      have hl1 := locate_stable fs
        (fs.create q ⟨Kind.dir, applyUmask fs.umask (entryMode e.hdr), fs.clock, fs.clock⟩)
        (NodeKept_create fs q _ hwf hn) _ q hl
        (fun _ ino1 h1 => by rw [node_create_self] at h1; cases h1; rfl)
      simp only [FS.stat, hl1]
      exact node_create_self _ _ _
  · intro ht q hr hn hc hce
    have hnd : e.hdr.Typeflag ≠ TypeDir := by
      rcases ht with h | h <;> rw [h] <;> decide
    have hop := OpenFile_new fs _ (entryMode e.hdr) q hr hn hc
    have hex : extractEntry fs D e
        = (fs.create q ⟨Kind.file e.payload, applyUmask fs.umask (entryMode e.hdr), fs.clock,
            fs.clock⟩, none) := by
      simp only [extractEntry, if_neg hnd, if_pos ht, hop, hce, Write_create_eq]
    rw [hex]
    refine ⟨by rw [show e.hdr.Mode ||| 0o600 = entryMode e.hdr from rfl, hop]; rfl, rfl,
      node_create_self _ _ _, ?_, ?_⟩
    · intro hu
      rw [node_create_self, hu]
      simp [applyUmask, entryMode, OWNER_PERM_RW]
    · intro hwf hl
      have hl1 := locate_stable fs
        (fs.create q ⟨Kind.file e.payload, applyUmask fs.umask (entryMode e.hdr), fs.clock,
          fs.clock⟩)
        (NodeKept_create fs q _ hwf hn) _ q hl
        (fun _ ino1 h1 => by rw [node_create_self] at h1; cases h1; rfl)
      simp only [FS.stat, hl1]
      exact node_create_self _ _ _
  · intro ht ino hs hk
    obtain ⟨q, hl, hq⟩ := (stat_eq_some fs _ ino).1 hs
    obtain ⟨i, hn, hi⟩ := (node_eq_some fs q ino).1 hq
    have hm := Mkdir_exists fs _ (entryMode e.hdr) q i hl hn
    have hr := resolve_of_locate fs _ q hl (fun x hx => by
      rw [hq] at hx; cases hx; rw [hk]; rfl)
    have hch := Chmod_at fs _ (entryMode e.hdr) q i ino hr hn hi
    have hex : extractEntry fs D e = (fs.setInode i { ino with mode := entryMode e.hdr }, none) := by
      simp only [extractEntry, ht, if_true, hm, hch]
      rfl
    rw [hex]
    refine ⟨rfl, ?_⟩
    have hl1 := locate_stable fs _ (NodeKept_setInode fs i ino { ino with mode := entryMode e.hdr }
      hi rfl) _ q hl (fun h => by rw [hq] at h; cases h)
    simp only [FS.stat, hl1]
    rw [node_setInode, if_pos hn]
    rfl

/-- C5, at the host file system: the directory entry `rootfs/etc` with mode 0444 is
created with mode 0644, the file entry `rootfs/motd` likewise, and the
existing directory `/var/tmp/d` is given mode 0644 by the entry `rootfs/`. -/
theorem entryMode_owner_rw_witness :
    (extractEntry hostFS "/var/tmp/d".toList (mkEntry TypeDir "rootfs/etc".toList [] [])).1.stat
        "/var/tmp/d/etc".toList = some ⟨Kind.dir, 0o644, 0, 0⟩
    ∧ (extractEntry hostFS "/var/tmp/d".toList
        (mkEntry TypeReg "rootfs/motd".toList [] "hi".toList)).1.stat
        "/var/tmp/d/motd".toList = some ⟨Kind.file "hi".toList, 0o644, 0, 0⟩
    ∧ (extractEntry hostFS "/var/tmp/d".toList (mkEntry TypeDir "rootfs/".toList [] [])).1.stat
        "/var/tmp/d".toList = some ⟨Kind.dir, 0o644, 0, 0⟩ :=
  ⟨((entryMode_owner_rw hostFS "/var/tmp/d".toList
      (mkEntry TypeDir "rootfs/etc".toList [] [])).2.2.2.1 (by decide)
      (elements "/var/tmp/d/etc".toList) rfl (by decide) (by decide)).2.2.2.2 hostFS_wf,
   ((entryMode_owner_rw hostFS "/var/tmp/d".toList
      (mkEntry TypeReg "rootfs/motd".toList [] "hi".toList)).2.2.2.2.1 (by decide)
      (elements "/var/tmp/d/motd".toList) rfl (by decide) (by decide) (by decide)).2.2.2.2
      hostFS_wf rfl,
   ((entryMode_owner_rw hostFS "/var/tmp/d".toList
      (mkEntry TypeDir "rootfs/".toList [] [])).2.2.2.2.2 (by decide)
      ⟨Kind.dir, 0o755, 0, 0⟩ (by decide) (by decide)).2⟩

/-! ## C6, C8: the credential resolver -/

theorem keys_mapSet (m : AuthConfigurations) (k : List Char) (v : AuthConfiguration) :
    (mapSet m k v).map Prod.fst
      = if k ∈ m.map Prod.fst then m.map Prod.fst else m.map Prod.fst ++ [k] := by
  induction m with
  | nil => simp [mapSet]
  | cons kv rest ih =>
    obtain ⟨k1, v1⟩ := kv
    by_cases h : k1 = k
    · subst h
      simp only [mapSet, if_true, List.map_cons, List.mem_cons, true_or]
    · have h2 : ¬ k = k1 := fun h3 => h h3.symm
      simp only [mapSet, if_neg h, List.map_cons, ih, List.mem_cons, h2, false_or]
      split <;> simp

theorem mem_mapSet_of_ne (m : AuthConfigurations) (k a : List Char) (v x : AuthConfiguration)
    (h : (a, x) ∈ m) (hne : a ≠ k) : (a, x) ∈ mapSet m k v := by
  induction m with
  | nil => simp at h
  | cons kv rest ih =>
    obtain ⟨k1, v1⟩ := kv
    by_cases h1 : k1 = k
    · subst h1
      simp only [mapSet, if_true, List.mem_cons] at h ⊢
      rcases h with h | h
      · cases h; exact absurd rfl hne
      · exact Or.inr h
    · simp only [mapSet, if_neg h1, List.mem_cons] at h ⊢
      rcases h with h | h
      · exact Or.inl h
      · exact Or.inr (ih h)

theorem defaultAuthName_ne_cfgKey (f n : List Char) : defaultAuthName ≠ cfgKey f n := by
  intro h
  have h1 : '/' ∈ cfgKey f n := by simp [cfgKey]
  rw [← h] at h1
  revert h1
  decide

theorem KeysInv_mapSet (m : AuthConfigurations) (ks : List (List Char)) (f n : List Char)
    (v : AuthConfiguration) (h : KeysInv m ks) :
    KeysInv (mapSet m (cfgKey f n) v) (ks ++ [cfgKey f n]) := by
  obtain ⟨h1, h2, h3⟩ := h
  refine ⟨?_, ?_, mem_mapSet_of_ne m _ _ v _ h3 (defaultAuthName_ne_cfgKey f n)⟩
  · rw [keys_mapSet]
    split
    · exact h1
    · next hn =>
      rw [List.nodup_append]
      refine ⟨h1, List.nodup_singleton _, ?_⟩
      intro a ha hb
      simp at hb
      subst hb
      exact hn ha
  · intro k
    rw [keys_mapSet]
    split
    · next hin =>
      rw [h2 k, List.mem_append, List.mem_singleton]
      constructor
      · rintro (h | h)
        · exact Or.inl h
        · exact Or.inr (Or.inl h)
      · rintro (h | h | h)
        · exact Or.inl h
        · exact Or.inr h
        · subst h
          exact (h2 _).1 hin
    · rw [List.mem_append, List.mem_singleton, h2 k, List.mem_append, List.mem_singleton,
        or_assoc]

theorem KeysInv_foldl_mapSet (f : List Char) (configs : AuthConfigurations)
    (m : AuthConfigurations) (ks : List (List Char)) (h : KeysInv m ks) :
    KeysInv (configs.foldl (fun m na => mapSet m (cfgKey f na.1) na.2) m)
      (ks ++ configs.map (fun na => cfgKey f na.1)) := by
  induction configs generalizing m ks with
  | nil =>
    simp only [List.foldl_nil, List.map_nil, List.append_nil]
    exact h
  | cons na rest ih =>
    have := ih _ _ (KeysInv_mapSet m ks f na.1 na.2 h)
    simp only [List.foldl_cons, List.map_cons]
    rw [List.append_cons]
    exact this

theorem derivedKeys_singleton (env : Env) (f : List Char) :
    derivedKeys env [f]
      = match env.OpenDockerCfg f with
        | .auths configs => configs.map (fun na => cfgKey f na.1)
        | _ => [] := by
  simp only [derivedKeys, List.flatMap_cons, List.flatMap_nil, List.append_nil]

theorem derivedKeys_cons (env : Env) (f : List Char) (fs : List (List Char)) :
    derivedKeys env (f :: fs) = derivedKeys env [f] ++ derivedKeys env fs := by
  simp only [derivedKeys, List.flatMap_cons, List.flatMap_nil, List.append_nil]

theorem KeysInv_append (env : Env) (f : List Char) (m : AuthConfigurations)
    (ks : List (List Char)) (h : KeysInv m ks) :
    KeysInv (appendDockerCfgConfigs (env.OpenDockerCfg f) f m).1 (ks ++ derivedKeys env [f]) := by
  rw [derivedKeys_singleton]
  unfold appendDockerCfgConfigs
  cases hf : env.OpenDockerCfg f with
  | openFails err =>
    simp only [List.append_nil]
    exact h
  | parseFails err =>
    simp only [List.append_nil]
    exact h
  | auths configs =>
    by_cases h0 : configs.length = 0
    · have : configs = [] := List.length_eq_zero.1 h0
      subst this
      simp only [List.length_nil, if_true, List.map_nil, List.append_nil]
      exact h
    · simp only [h0, if_false]
      exact KeysInv_foldl_mapSet f configs m ks h

theorem KeysInv_files (env : Env) (files : List (List Char)) (m : AuthConfigurations)
    (ks : List (List Char)) (h : KeysInv m ks) :
    KeysInv (files.foldl
        (fun m dcfgFile => (appendDockerCfgConfigs (env.OpenDockerCfg dcfgFile) dcfgFile m).1) m)
      (ks ++ derivedKeys env files) := by
  induction files generalizing m ks with
  | nil =>
    simp only [List.foldl_nil, derivedKeys, List.flatMap_nil, List.append_nil]
    exact h
  | cons f rest ih =>
    have := ih _ _ (KeysInv_append env f m ks h)
    rw [derivedKeys_cons, ← List.append_assoc]
    exact this

theorem length_derivedKeys (env : Env) (files : List (List Char)) :
    (derivedKeys env files).length = derivedCount env files := by
  induction files with
  | nil => rfl
  | cons f rest ih =>
    rw [derivedKeys_cons, List.length_append, ih, derivedKeys_singleton]
    simp only [derivedCount, List.map_cons, List.sum_cons]
    congr 1
    cases env.OpenDockerCfg f with
    | openFails err => rfl
    | parseFails err => rfl
    | auths configs => simp only [List.length_map]

theorem defaultAuthName_not_mem_derivedKeys (env : Env) (files : List (List Char)) :
    defaultAuthName ∉ derivedKeys env files := by
  intro h
  simp only [derivedKeys, List.mem_flatMap] at h
  obtain ⟨f, _, hf⟩ := h
  cases hc : env.OpenDockerCfg f with
  | openFails err => simp [hc] at hf
  | parseFails err => simp [hc] at hf
  | auths configs =>
    simp only [hc, List.mem_map] at hf
    obtain ⟨na, _, hna⟩ := hf
    exact defaultAuthName_ne_cfgKey f na.1 hna.symm

theorem KeysInv_length (m : AuthConfigurations) (ks : List (List Char)) (h : KeysInv m ks)
    (hd : defaultAuthName ∉ ks) : m.length = ks.dedup.length + 1 := by
  obtain ⟨h1, h2, _⟩ := h
  have hp : (m.map Prod.fst).Perm (defaultAuthName :: ks.dedup) := by
    rw [List.perm_ext_iff_of_nodup h1]
    · intro k
      rw [h2 k, List.mem_cons, List.mem_dedup]
    · rw [List.nodup_cons]
      exact ⟨by simpa using hd, List.nodup_dedup ks⟩
  have := hp.length_eq
  simpa using this

/-- C6, counterexample: with the docker config file `cfg`, which has the one entry
`reg`, listed twice, both files parse and yield one entry each, but
`getAuthConfigs` returns two candidates, not 2 + 1. -/
theorem getAuthConfigs_size_counterexample :
    getAuthConfigs regCfgEnv { imageOptions with DockerCfg := ["cfg".toList, "cfg".toList] }
      = .ok [(defaultAuthName, ⟨[], [], [], []⟩),
          ("cfg/reg".toList, ⟨"u".toList, "p".toList, [], []⟩)]
    ∧ derivedCount regCfgEnv ["cfg".toList, "cfg".toList] + 1 = 3
    ∧ [(defaultAuthName, (⟨[], [], [], []⟩ : AuthConfiguration)),
          ("cfg/reg".toList, ⟨"u".toList, "p".toList, [], []⟩)].length
        ≠ derivedCount regCfgEnv ["cfg".toList, "cfg".toList] + 1 :=
  ⟨rfl, rfl, by decide⟩

/-- C6, amended: with no username, `getAuthConfigs` returns without error a
collection that contains the "no authentication" fallback and whose size is
the number of distinct names `<file>/<entry>` derived from the files that
parse, plus 1; this is at least 1, at most the number of derived entries plus
1, and equal to it when the derived names are pairwise distinct. A file that
fails to open or parse, or has no entries, contributes nothing and does not
abort the resolution. -/
theorem getAuthConfigs_size (env : Env) (opts : ImageInspectorOptions)
    (hu : opts.Username = []) :
    ∃ m, getAuthConfigs env opts = .ok m
      ∧ (defaultAuthName, (⟨[], [], [], []⟩ : AuthConfiguration)) ∈ m
      ∧ m.length = (derivedKeys env opts.DockerCfg).dedup.length + 1
      ∧ 1 ≤ m.length
      ∧ m.length ≤ derivedCount env opts.DockerCfg + 1
      ∧ ((derivedKeys env opts.DockerCfg).Nodup →
          m.length = derivedCount env opts.DockerCfg + 1) := by
  have h0 : KeysInv [(defaultAuthName, (⟨[], [], [], []⟩ : AuthConfiguration))] [] := by
    refine ⟨by simp, ?_, by simp⟩
    intro k
    simp
  have hinv := KeysInv_files env opts.DockerCfg _ _ h0
  simp only [List.nil_append] at hinv
  have hlen := KeysInv_length _ _ hinv (defaultAuthName_not_mem_derivedKeys env opts.DockerCfg)
  refine ⟨_, by simp only [getAuthConfigs, hu, ne_eq, not_true_eq_false, if_false],
    hinv.2.2, hlen, by omega, ?_, ?_⟩
  · rw [hlen, ← length_derivedKeys]
    have := (List.dedup_sublist (derivedKeys env opts.DockerCfg)).length_le
    omega
  · intro hnd
    rw [hlen, hnd.dedup, length_derivedKeys]

/-- C6, amended, at two config files of which `bad` fails to open and `cfg` has the
one entry `reg`: two candidates. -/
theorem getAuthConfigs_size_witness :
    ∃ m, getAuthConfigs
        { okEnv ⟨[], none⟩ with
          OpenDockerCfg := fun f =>
            if f = "cfg".toList then .auths [("reg".toList, ⟨"u".toList, "p".toList, [], []⟩)]
            else .openFails "no such file".toList }
        { imageOptions with DockerCfg := ["bad".toList, "cfg".toList] } = .ok m
      ∧ m.length = 2 := by
  obtain ⟨m, h1, _, h2, _⟩ := getAuthConfigs_size
    { okEnv ⟨[], none⟩ with
      OpenDockerCfg := fun f =>
        if f = "cfg".toList then .auths [("reg".toList, ⟨"u".toList, "p".toList, [], []⟩)]
        else .openFails "no such file".toList }
    { imageOptions with DockerCfg := ["bad".toList, "cfg".toList] } (by decide)
  refine ⟨m, h1, ?_⟩
  rw [h2]
  decide

/-- C8: when a username is supplied, `getAuthConfigs` returns exactly one
candidate, with the supplied username and the exact content of the password
file as password, whatever the docker config files hold; if the password
file cannot be read, it returns an error and no candidates. -/
theorem getAuthConfigs_username (env : Env) (opts : ImageInspectorOptions)
    (hu : opts.Username ≠ []) :
    (∀ token, env.ReadFile opts.PasswordFile = .ok token →
        getAuthConfigs env opts = .ok [([], ⟨opts.Username, token, [], []⟩)])
    ∧ (∀ err, env.ReadFile opts.PasswordFile = .error err →
        getAuthConfigs env opts = .error (.passwordFile err)) := by
  constructor
  · intro token h
    simp only [getAuthConfigs, hu, ne_eq, not_false_eq_true, if_true, h]
  · intro err h
    simp only [getAuthConfigs, hu, ne_eq, not_false_eq_true, if_true, h]

/-- C8, at the username `joe`, a password file holding `s3cret` and a newline,
and a docker config file with one entry. -/
theorem getAuthConfigs_username_witness :
    getAuthConfigs
        { okEnv ⟨[], none⟩ with
          ReadFile := fun _ => .ok "s3cret\n".toList
          OpenDockerCfg := fun _ => .auths [("reg".toList, ⟨"u".toList, "p".toList, [], []⟩)] }
        { imageOptions with
          Username := "joe".toList, PasswordFile := "pw".toList, DockerCfg := ["cfg".toList] }
      = .ok [([], ⟨"joe".toList, "s3cret\n".toList, [], []⟩)] :=
  (getAuthConfigs_username
    { okEnv ⟨[], none⟩ with
      ReadFile := fun _ => .ok "s3cret\n".toList
      OpenDockerCfg := fun _ => .auths [("reg".toList, ⟨"u".toList, "p".toList, [], []⟩)] }
    { imageOptions with
      Username := "joe".toList, PasswordFile := "pw".toList, DockerCfg := ["cfg".toList] }
    (by decide)).1 "s3cret\n".toList rfl

/-! ## C7: pull with fallback -/

theorem pullLoop_first_success (pull : Nat → AuthConfiguration → Option (List Char))
    (l : AuthConfigurations) (n k : Nat) (a : Option (List Char))
    (c : List Char × AuthConfiguration) (hk : l.get? k = some c) (hok : pull (n + k) c.2 = none)
    (hfail : ∀ j, j < k → ∀ c1, l.get? j = some c1 → pull (n + j) c1.2 ≠ none) :
    pullLoop pull l n a = ⟨n + k + 1, none⟩ := by
  induction l generalizing n k a with
  | nil => simp at hk
  | cons x rest ih =>
    obtain ⟨name, auth⟩ := x
    cases k with
    | zero =>
      simp only [List.get?_cons_zero, Option.some.injEq] at hk
      subst hk
      simp only [Nat.add_zero] at hok
      simp only [pullLoop, hok, Nat.add_zero]
    | succ k =>
      simp only [List.get?_cons_succ] at hk
      have h0 := hfail 0 (Nat.succ_pos k) (name, auth) rfl
      simp only [Nat.add_zero] at h0
      obtain ⟨e, he⟩ := Option.ne_none_iff_exists'.1 h0
      have hk2 : pull (n + 1 + k) c.2 = none := by
        rw [← hok]; congr 1; omega
      have := ih (n + 1) k (some e) hk hk2 (by
        intro j hj c1 hc1
        have := hfail (j + 1) (by omega) c1 (by simpa using hc1)
        intro h
        apply this
        rw [← h]; congr 1; omega)
      simp only [pullLoop, he, this]
      congr 1
      omega

theorem pullLoop_all_fail (pull : Nat → AuthConfiguration → Option (List Char))
    (l : AuthConfigurations) (n : Nat) (a : Option (List Char)) (hl : l ≠ [])
    (hfail : ∀ j c1, l.get? j = some c1 → pull (n + j) c1.2 ≠ none) :
    ∃ c e, l.get? (l.length - 1) = some c ∧ pull (n + (l.length - 1)) c.2 = some e
      ∧ pullLoop pull l n a = ⟨n + l.length, some (.pull (some e))⟩ := by
  induction l generalizing n a with
  | nil => exact absurd rfl hl
  | cons x rest ih =>
    obtain ⟨name, auth⟩ := x
    have h0 := hfail 0 (name, auth) rfl
    simp only [Nat.add_zero] at h0
    obtain ⟨e, he⟩ := Option.ne_none_iff_exists'.1 h0
    cases rest with
    | nil =>
      refine ⟨(name, auth), e, rfl, by simpa using he, ?_⟩
      simp only [pullLoop, he, List.length_singleton]
    | cons y rest2 =>
      obtain ⟨c, e2, h1, h2, h3⟩ := ih (n + 1) (some e) (by simp) (by
        intro j c1 hc1
        have := hfail (j + 1) c1 (by simpa using hc1)
        intro h
        apply this
        rw [← h]; congr 1; omega)
      refine ⟨c, e2, ?_, ?_, ?_⟩
      · simpa using h1
      · rw [← h2]; congr 1
        simp only [List.length_cons]; omega
      · simp only [pullLoop, he] at h3 ⊢
        rw [h3]
        congr 1
        simp only [List.length_cons]; omega

theorem mapSet_ne_nil (m : AuthConfigurations) (k : List Char) (v : AuthConfiguration) :
    mapSet m k v ≠ [] := by
  cases m with
  | nil => simp [mapSet]
  | cons kv rest =>
    obtain ⟨k1, v1⟩ := kv
    unfold mapSet
    split <;> simp

theorem appendDockerCfgConfigs_ne_nil (file : DockerCfgFile) (f : List Char)
    (m : AuthConfigurations) (h : m ≠ []) : (appendDockerCfgConfigs file f m).1 ≠ [] := by
  cases file with
  | openFails err => exact h
  | parseFails err => exact h
  | auths configs =>
    simp only [appendDockerCfgConfigs]
    split
    · exact h
    · have : ∀ (cs : AuthConfigurations) (m : AuthConfigurations), m ≠ [] →
          cs.foldl (fun m na => mapSet m (cfgKey f na.1) na.2) m ≠ [] := by
        intro cs
        induction cs with
        | nil => intro m hm; exact hm
        | cons na rest ih => intro m _; exact ih _ (mapSet_ne_nil _ _ _)
      exact this configs m h

theorem getAuthConfigs_ne_nil (env : Env) (opts : ImageInspectorOptions)
    (m : AuthConfigurations) (h : getAuthConfigs env opts = .ok m) : m ≠ [] := by
  unfold getAuthConfigs at h
  by_cases hu : opts.Username = []
  · simp only [hu, ne_eq, not_true_eq_false, if_false, Except.ok.injEq] at h
    rw [← h]
    have : ∀ (fs : List (List Char)) (m : AuthConfigurations), m ≠ [] →
        fs.foldl (fun m dcfgFile =>
          (appendDockerCfgConfigs (env.OpenDockerCfg dcfgFile) dcfgFile m).1) m ≠ [] := by
      intro fs
      induction fs with
      | nil => intro m hm; exact hm
      | cons f rest ih => intro m hm; exact ih _ (appendDockerCfgConfigs_ne_nil _ _ _ hm)
    exact this _ _ (by simp)
  · simp only [hu, ne_eq, not_false_eq_true, if_true] at h
    cases hr : env.ReadFile opts.PasswordFile with
    | error err => simp [hr] at h
    | ok token =>
      simp only [hr, Except.ok.injEq] at h
      rw [← h]
      simp

/-- C7: `pullImage` tries the credential candidates one after another, in the
order in which `range` visits them, and stops at the first success: if the
candidate at position k (counted from 0) is the first whose pull succeeds,
exactly k + 1 pulls are attempted and `pullImage` returns nil; if every
pull fails, all candidates are tried and `pullImage` returns the error that
wraps the error of the last attempt. -/
theorem pullImage_first_success (env : Env) (opts : ImageInspectorOptions)
    (m : AuthConfigurations) (hm : getAuthConfigs env opts = .ok m)
    (hperm : (env.rangeOrder m).Perm m) :
    (∀ k c, (env.rangeOrder m).get? k = some c → env.PullImage k c.2 = none →
        (∀ j, j < k → ∀ c1, (env.rangeOrder m).get? j = some c1 → env.PullImage j c1.2 ≠ none) →
        pullImage env opts = ⟨k + 1, none⟩)
    ∧ ((∀ j c1, (env.rangeOrder m).get? j = some c1 → env.PullImage j c1.2 ≠ none) →
        ∃ c e, (env.rangeOrder m).get? (m.length - 1) = some c
          ∧ env.PullImage (m.length - 1) c.2 = some e
          ∧ pullImage env opts = ⟨m.length, some (.pull (some e))⟩) := by
  have hne : env.rangeOrder m ≠ [] := by
    intro h
    rw [h] at hperm
    exact getAuthConfigs_ne_nil env opts m hm (List.Perm.nil_eq hperm).symm
  have hlen : (env.rangeOrder m).length = m.length := hperm.length_eq
  constructor
  · intro k c hk hok hfail
    have := pullLoop_first_success env.PullImage (env.rangeOrder m) 0 k none c hk
      (by simpa using hok) (by simpa using hfail)
    simp only [pullImage, hm, this, Nat.zero_add]
  · intro hfail
    obtain ⟨c, e, h1, h2, h3⟩ := pullLoop_all_fail env.PullImage (env.rangeOrder m) 0 none hne
      (by simpa using hfail)
    rw [hlen] at h1 h2 h3
    refine ⟨c, e, h1, by simpa using h2, ?_⟩
    simp only [pullImage, hm, h3, Nat.zero_add]

/-- C7, at three candidates of which the third is the first to succeed (three
attempts, nil), and at three candidates that all fail (three attempts, the
error of the third wrapped). -/
theorem pullImage_first_success_witness :
    pullImage thirdPullEnv
        { imageOptions with DockerCfg := ["a".toList, "b".toList] } = ⟨3, none⟩
    ∧ pullImage noPullEnv
        { imageOptions with DockerCfg := ["a".toList, "b".toList] }
        = ⟨3, some (.pull (some "denied2".toList))⟩ :=
  ⟨(pullImage_first_success thirdPullEnv
      { imageOptions with DockerCfg := ["a".toList, "b".toList] }
      [(defaultAuthName, ⟨[], [], [], []⟩), ("a/reg".toList, ⟨"u".toList, "p".toList, [], []⟩),
        ("b/reg".toList, ⟨"u".toList, "p".toList, [], []⟩)] rfl (List.Perm.refl _)).1 2
      ("b/reg".toList, ⟨"u".toList, "p".toList, [], []⟩) rfl rfl
      (by
        intro j hj c1 _
        have : j = 0 ∨ j = 1 := by omega
        rcases this with h | h <;> subst h <;> simp [thirdPullEnv]),
   by
    obtain ⟨c, e, h1, h2, h3⟩ := (pullImage_first_success noPullEnv
      { imageOptions with DockerCfg := ["a".toList, "b".toList] }
      [(defaultAuthName, ⟨[], [], [], []⟩), ("a/reg".toList, ⟨"u".toList, "p".toList, [], []⟩),
        ("b/reg".toList, ⟨"u".toList, "p".toList, [], []⟩)] rfl (List.Perm.refl _)).2
      (by intro j c1 _; simp [noPullEnv])
    rw [h3]
    have : e = "denied2".toList := by
      have h4 : noPullEnv.PullImage 2 c.2 = some "denied2".toList := rfl
      simp only [List.length_cons, List.length_nil] at h2
      rw [h4] at h2
      exact (Option.some.inj h2).symm
    rw [this]
    rfl⟩

/-! ## C9: the status after `Inspect` -/

theorem isInfix_mid (a err b : List Char) : err <:+: a ++ err ++ b :=
  ⟨a, b, rfl⟩

/-- C9: after `Inspect` on an inspector whose status was not Success before, the
status is Success only if the output directory was there, the scan ran
without error and the primary result file (and the HTML result file, when
HTML reporting is requested) was read back, the stored reports being what
was read; and if the scanner or the reading of a required result file fails,
the status is Error, the message contains the underlying error, and the
stored reports are empty. -/
theorem Inspect_status (env : Env) (fs : FS) (i : openscapImageInspector)
    (h0 : i.meta.OpenSCAP.Status ≠ ScanStatus.StatusSuccess) :
    ((Inspect env fs i).inspector.meta.OpenSCAP.Status = ScanStatus.StatusSuccess →
      ∃ fs1 dir, inspectOutputDir env fs i = (fs1, .ok dir)
        ∧ (inspectScanner env i dir).Scan i.opts.DstPath i.meta.Image = none
        ∧ env.ReadFile (inspectScanner env i dir).ResultsFileName
            = .ok (Inspect env fs i).inspector.scanReport
        ∧ (i.opts.OpenScapHTML = true →
            env.ReadFile (inspectScanner env i dir).HTMLResultsFileName
              = .ok (Inspect env fs i).inspector.htmlScanReport))
    ∧ (∀ fs1 dir err, inspectOutputDir env fs i = (fs1, .ok dir) →
        ((inspectScanner env i dir).Scan i.opts.DstPath i.meta.Image = some err
          ∨ ((inspectScanner env i dir).Scan i.opts.DstPath i.meta.Image = none
              ∧ env.ReadFile (inspectScanner env i dir).ResultsFileName = .error err)
          ∨ ((inspectScanner env i dir).Scan i.opts.DstPath i.meta.Image = none
              ∧ (∃ rep, env.ReadFile (inspectScanner env i dir).ResultsFileName = .ok rep)
              ∧ i.opts.OpenScapHTML = true
              ∧ env.ReadFile (inspectScanner env i dir).HTMLResultsFileName = .error err)) →
        (Inspect env fs i).inspector.meta.OpenSCAP.Status = ScanStatus.StatusError
        ∧ err <:+: (Inspect env fs i).inspector.meta.OpenSCAP.ErrorMessage
        ∧ (Inspect env fs i).inspector.scanReport = []
        ∧ (Inspect env fs i).inspector.htmlScanReport = []) := by
  unfold inspectOutputDir inspectScanner
  constructor
  · intro hs
    rcases hc : createOutputDir (env.tempSuffixes "image-inspector-scan-results-".toList) fs
        i.opts.ScanResultsDir "image-inspector-scan-results-".toList with ⟨fs1, _ | dir⟩
    · simp only [Inspect, hc] at hs
      exact absurd hs h0
    · refine ⟨fs1, dir, rfl, ?_⟩
      simp only [Inspect, hc, scanImage] at hs ⊢
      generalize env.NewDefaultScanner OSCAP_CVE_DIR dir i.opts.CVEUrlPath
        i.opts.OpenScapHTML = s at hs ⊢
      cases hscan : s.Scan i.opts.DstPath i.meta.Image with
      | some err =>
        simp only [hscan, OpenSCAPMetadata.SetError] at hs
        cases hs
      | none =>
        simp only [hscan] at hs ⊢
        refine ⟨trivial, ?_⟩
        cases hread : env.ReadFile s.ResultsFileName with
        | error err =>
          simp only [hread, OpenSCAPMetadata.SetError] at hs
          cases hs
        | ok rep =>
          simp only [hread] at hs ⊢
          by_cases hh : i.opts.OpenScapHTML = true
          · simp only [hh, if_true] at hs ⊢
            cases hhtml : env.ReadFile s.HTMLResultsFileName with
            | error err =>
              simp only [hhtml, OpenSCAPMetadata.SetError] at hs
              cases hs
            | ok html => simp
          · simp [hh]
  · intro fs1 dir err hc hfail
    simp only [Inspect, hc, scanImage]
    generalize env.NewDefaultScanner OSCAP_CVE_DIR dir i.opts.CVEUrlPath
      i.opts.OpenScapHTML = s at hfail ⊢
    rcases hfail with h | ⟨h1, h2⟩ | ⟨h1, ⟨rep, h2⟩, h3, h4⟩
    · simp only [h]
      exact ⟨by trivial, isInfix_mid _ err _, by trivial, by trivial⟩
    · simp only [h1, h2]
      exact ⟨by trivial, isInfix_mid _ err _, by trivial, by trivial⟩
    · simp only [h1, h2, h3, if_true, h4]
      exact ⟨by trivial, isInfix_mid _ err _, by trivial, by trivial⟩

/-- C9, at a fresh inspector with HTML reporting whose HTML report cannot be read
back: the status is Error, the message contains the read error, the reports
are empty. -/
theorem Inspect_status_witness :
    (Inspect noHtmlEnv hostFS htmlInspector).inspector.meta.OpenSCAP.Status
      = ScanStatus.StatusError
    ∧ "no such file".toList
        <:+: (Inspect noHtmlEnv hostFS htmlInspector).inspector.meta.OpenSCAP.ErrorMessage
    ∧ (Inspect noHtmlEnv hostFS htmlInspector).inspector.scanReport = []
    ∧ (Inspect noHtmlEnv hostFS htmlInspector).inspector.htmlScanReport = [] :=
  (Inspect_status noHtmlEnv hostFS htmlInspector (by decide)).2
    (hostFS.create (elements "/var/tmp/r".toList) ⟨Kind.dir, 0o755, 0, 0⟩) "/var/tmp/r".toList
    "no such file".toList rfl
    (Or.inr (Or.inr ⟨rfl, ⟨"report".toList, rfl⟩, rfl, rfl⟩))

/-! ## C10: custom scanners -/

theorem runScannerLoop_eq_find (run : List (List Char) → List (List Char) → Option (List Char))
    (opts : ImageInspectorOptions) (scanName scanType : List Char) (l : List CustomScan) :
    runScannerLoop run opts scanName scanType l
      = match l.find? (fun s => decide (s.Name = scanName)) with
        | none => RunOutcome.notFound
        | some scanner => runScannerBody run opts scanType scanner := by
  induction l with
  | nil => rfl
  | cons s rest ih =>
    by_cases h : s.Name = scanName
    · simp [runScannerLoop, h, List.find?_cons]
    · simp [runScannerLoop, h, List.find?_cons, ih]

theorem runScanCommand_ne_notFound
    (run : List (List Char) → List (List Char) → Option (List Char))
    (command env : List (List Char)) :
    runScanCommand run command env ≠ .notFound := by
  unfold runScanCommand
  split <;> simp

theorem runScanCommand_executed
    (run : List (List Char) → List (List Char) → Option (List Char))
    (c e command env : List (List Char))
    (h : (runScanCommand run c e).executed = some (command, env)) :
    command = c ∧ c ≠ [] := by
  unfold runScanCommand at h
  by_cases hc : c = []
  · simp [hc, RunOutcome.executed] at h
  · simp [hc, RunOutcome.executed] at h
    exact ⟨h.1.symm, hc⟩

theorem runScannerBody_ne_notFound
    (run : List (List Char) → List (List Char) → Option (List Char))
    (opts : ImageInspectorOptions) (scanType : List Char) (scanner : CustomScan) :
    runScannerBody run opts scanType scanner ≠ .notFound := by
  unfold runScannerBody
  split
  · exact runScanCommand_ne_notFound _ _ _
  · split
    · exact runScanCommand_ne_notFound _ _ _
    · split
      · exact runScanCommand_ne_notFound _ _ _
      · simp

theorem runScannerBody_executed
    (run : List (List Char) → List (List Char) → Option (List Char))
    (opts : ImageInspectorOptions) (scanType : List Char) (scanner : CustomScan)
    (command env : List (List Char))
    (h : (runScannerBody run opts scanType scanner).executed = some (command, env)) :
    supportedMode scanType ∧ command = scanCommandFor scanner scanType ∧ command ≠ [] := by
  unfold runScannerBody at h
  unfold supportedMode scanCommandFor
  by_cases h1 : scanType = ScannerImage
  · rw [if_pos h1] at h
    obtain ⟨h2, h3⟩ := runScanCommand_executed _ _ _ _ _ h
    rw [if_pos h1]
    exact ⟨Or.inl h1, h2, h2 ▸ h3⟩
  · rw [if_neg h1] at h
    by_cases h4 : scanType = ScannerVolume
    · rw [if_pos h4] at h
      obtain ⟨h2, h3⟩ := runScanCommand_executed _ _ _ _ _ h
      rw [if_neg h1, if_pos h4]
      exact ⟨Or.inr (Or.inr h4), h2, h2 ▸ h3⟩
    · rw [if_neg h4] at h
      by_cases h5 : scanType = ScannerContainer
      · rw [if_pos h5] at h
        obtain ⟨h2, h3⟩ := runScanCommand_executed _ _ _ _ _ h
        rw [if_neg h1, if_neg h4, if_pos h5]
        exact ⟨Or.inr (Or.inl h5), h2, h2 ▸ h3⟩
      · rw [if_neg h5] at h
        simp [RunOutcome.executed] at h

theorem runScannerBody_no_command
    (run : List (List Char) → List (List Char) → Option (List Char))
    (opts : ImageInspectorOptions) (scanType : List Char) (scanner : CustomScan)
    (h : ¬ supportedMode scanType ∨ scanCommandFor scanner scanType = []) :
    (runScannerBody run opts scanType scanner).executed = none
    ∧ (runScannerBody run opts scanType scanner).isNil = false := by
  cases hx : (runScannerBody run opts scanType scanner) with
  | unsupported => simp [RunOutcome.executed, RunOutcome.isNil]
  | commandNotSpecified => simp [RunOutcome.executed, RunOutcome.isNil]
  | notFound => simp [RunOutcome.executed, RunOutcome.isNil]
  | ran command env err =>
    have h2 := runScannerBody_executed run opts scanType scanner command env
      (by rw [hx]; rfl)
    rcases h with h | h
    · exact absurd h2.1 h
    · exact absurd (h2.2.1.trans h) h2.2.2

/-- C10: `RunScanner` executes a command only when a configured entry has the
requested name, the mode is one of imagescan, containerscan, volumescan, and
the command list of that entry for the mode is not empty, and the command is
that list; it returns the "not found" error exactly when no configured
entry has the requested name; and when the mode is not supported or the
command list of the entry with the requested name is absent or empty, it
returns an error and executes nothing. -/
theorem RunScanner_executes (env : Env) (opts : ImageInspectorOptions)
    (scanName scanType : List Char) :
    (∀ command cmdEnv, (RunScanner env opts scanName scanType).executed = some (command, cmdEnv) →
        ∃ scanner ∈ opts.CustomScans, scanner.Name = scanName ∧ supportedMode scanType
          ∧ command = scanCommandFor scanner scanType ∧ command ≠ [])
    ∧ (RunScanner env opts scanName scanType = RunOutcome.notFound
        ↔ ∀ scanner ∈ opts.CustomScans, scanner.Name ≠ scanName)
    ∧ (¬ supportedMode scanType →
        (RunScanner env opts scanName scanType).executed = none
        ∧ (RunScanner env opts scanName scanType).isNil = false)
    ∧ (∀ scanner, opts.CustomScans.find? (fun s => decide (s.Name = scanName)) = some scanner →
        scanCommandFor scanner scanType = [] →
        (RunScanner env opts scanName scanType).executed = none
        ∧ (RunScanner env opts scanName scanType).isNil = false) := by
  unfold RunScanner
  rw [runScannerLoop_eq_find]
  cases hf : opts.CustomScans.find? (fun s => decide (s.Name = scanName)) with
  | none =>
    refine ⟨?_, ?_, ?_, ?_⟩
    · intro command cmdEnv h
      simp [RunOutcome.executed] at h
    · simp only [true_iff]
      intro scanner hm hn
      have := List.find?_eq_none.1 hf scanner hm
      simp [hn] at this
    · intro _
      simp [RunOutcome.executed, RunOutcome.isNil]
    · intro scanner h
      cases h
  | some s =>
    have hmem : s ∈ opts.CustomScans := List.mem_of_find?_eq_some hf
    have hname : s.Name = scanName := by
      have := List.find?_some hf
      simpa using this
    refine ⟨?_, ?_, ?_, ?_⟩
    · intro command cmdEnv h
      exact ⟨s, hmem, hname, runScannerBody_executed _ _ _ _ _ _ h⟩
    · constructor
      · intro h
        exact absurd h (runScannerBody_ne_notFound _ _ _ _)
      · intro h
        exact absurd hname (h s hmem)
    · intro hns
      exact runScannerBody_no_command _ _ _ _ (Or.inl hns)
    · intro scanner h hc
      cases h
      exact runScannerBody_no_command _ _ _ _ (Or.inr hc)

/-- C10, at a configuration with the scanner `clam`: the image scan runs its
command, an unsupported mode and an empty command list run nothing. -/
theorem RunScanner_executes_witness :
    (RunScanner (okEnv ⟨[], none⟩)
      { imageOptions with CustomScans := [⟨"clam".toList, ["clamscan".toList], [], []⟩] }
      "clam".toList "badmode".toList).executed = none
    ∧ (RunScanner (okEnv ⟨[], none⟩)
      { imageOptions with CustomScans := [⟨"clam".toList, ["clamscan".toList], [], []⟩] }
      "clam".toList ScannerVolume).isNil = false :=
  ⟨((RunScanner_executes (okEnv ⟨[], none⟩)
      { imageOptions with CustomScans := [⟨"clam".toList, ["clamscan".toList], [], []⟩] }
      "clam".toList "badmode".toList).2.2.1 (by unfold supportedMode; decide)).1,
   ((RunScanner_executes (okEnv ⟨[], none⟩)
      { imageOptions with CustomScans := [⟨"clam".toList, ["clamscan".toList], [], []⟩] }
      "clam".toList ScannerVolume).2.2.2 ⟨"clam".toList, ["clamscan".toList], [], []⟩
      (by decide) (by decide)).2⟩

/-! ## C11: isolation of scanner failures -/

theorem runCustomScanners_names (env : Env) (opts : ImageInspectorOptions)
    (ScanOptions : List (List Char)) :
    (runCustomScanners env opts ScanOptions).map Prod.fst
      = ScanOptions.filter
          (fun n => decide (¬ n = "openscap".toList) && HasValue opts.ScanType n) := by
  induction ScanOptions with
  | nil => rfl
  | cons n rest ih =>
    unfold runCustomScanners
    rw [List.filter_cons]
    by_cases hc : n = "openscap".toList ∨ (!HasValue opts.ScanType n) = true
    · have hp : (decide (¬ n = "openscap".toList) && HasValue opts.ScanType n) = false := by
        rcases hc with h | h
        · simp [h]
        · cases hv : HasValue opts.ScanType n
          · simp
          · rw [hv] at h; cases h
      rw [if_pos hc, hp, ih]
      rfl
    · have hp : (decide (¬ n = "openscap".toList) && HasValue opts.ScanType n) = true := by
        have h1 : ¬ n = "openscap".toList := fun h => hc (Or.inl h)
        have hv : HasValue opts.ScanType n = true := by
          cases hv : HasValue opts.ScanType n
          · exact absurd (Or.inr (by rw [hv]; rfl)) hc
          · rfl
        rw [Bool.and_eq_true]
        exact ⟨decide_eq_true h1, hv⟩
      rw [if_neg hc, hp, List.map_cons, ih]
      rfl

theorem countP_eq_one_of_nodup (n : List Char) :
    ∀ l : List (List Char), l.Nodup → n ∈ l → l.countP (fun x => decide (x = n)) = 1
  | [], _, h => by cases h
  | a :: l, hnd, h => by
    rw [List.nodup_cons] at hnd
    by_cases ha : a = n
    · have h0 : l.countP (fun x => decide (x = n)) = 0 := by
        rw [List.countP_eq_zero]
        intro x hx hxn
        exact hnd.1 (by rw [ha, ← of_decide_eq_true hxn]; exact hx)
      rw [List.countP_cons_of_pos _ _ (by simp [ha]), h0]
    · rw [List.countP_cons_of_neg _ _ (by simp [ha])]
      rcases List.mem_cons.1 h with h | h
      · exact absurd h.symm ha
      · exact countP_eq_one_of_nodup n l hnd.2 h

theorem runCustomScanners_outcome (env : Env) (opts : ImageInspectorOptions)
    (ScanOptions : List (List Char)) :
    ∀ x ∈ runCustomScanners env opts ScanOptions,
      x.2 = RunScanner env opts x.1 ScannerImage := by
  induction ScanOptions with
  | nil => intro x hx; cases hx
  | cons n rest ih =>
    intro x hx
    unfold runCustomScanners at hx
    split at hx
    · exact ih x hx
    · rcases List.mem_cons.1 hx with h | h
      · rw [h]
      · exact ih x h

/-- When `ExtractImage` returns metadata it has returned. -/
theorem ExtractImage_not_hangs (env : Env) (fs : FS) (opts : ImageInspectorOptions)
    (m : InspectorMetadata) (h : (ExtractImage env fs opts).meta = some m) :
    (ExtractImage env fs opts).hangs = false := by
  cases h0 : env.NewClient opts.URI with
  | some err => simp only [ExtractImage, h0]
  | none =>
    cases hp : (pullImage env opts).err with
    | some err => simp only [ExtractImage, h0, hp]
    | none =>
      cases hg : generateRandomName env with
      | error err => simp only [ExtractImage, h0, hp, hg]
      | ok n =>
        simp only [ExtractImage, h0, hp, hg] at h ⊢
        by_cases hh : (createAndExtractImage env fs opts n).hangs = true
        · rw [if_pos hh] at h; cases h
        · rw [if_neg hh]
          split <;> rfl

/-- C11, counterexample: the scanners `openscap` and `occlamdscan` are selected
and serving is requested, but the results directory cannot be created:
`Inspect` returns the error, `main` ends the run with `log.Fatalf`, the
custom scanner is not invoked and `Serve` is not called. -/
theorem mainImage_inspect_error_is_fatal :
    (mainImage (okEnv ⟨[], none⟩) hostFS ["openscap".toList, "occlamdscan".toList]
        noResultsDirOptions).fatal
      = some (.errorInspecting (.createDestination Errno.ENOENT))
    ∧ (mainImage (okEnv ⟨[], none⟩) hostFS ["openscap".toList, "occlamdscan".toList]
        noResultsDirOptions).custom = []
    ∧ (mainImage (okEnv ⟨[], none⟩) hostFS ["openscap".toList, "occlamdscan".toList]
        noResultsDirOptions).served = none := by
  decide

/-- C11, amended: in a run whose image is extracted and in which `Inspect`, when
openscap is selected, returns nil (its results directory is there), no
scanner outcome prevents the other scanners or the serve step: `Inspect` is
called exactly when openscap is selected, `RunScanner` is called once for
every other selected scan type of a registry without duplicates and for
nothing else, its result being ignored, `Serve` is called exactly when
serving is requested, and no scanner outcome ends the run. -/
theorem mainImage_scanners_isolated (env : Env) (fs : FS) (ScanOptions : List (List Char))
    (opts : ImageInspectorOptions) (m : InspectorMetadata)
    (hE : (ExtractImage env fs opts).err = none)
    (hM : (ExtractImage env fs opts).meta = some m)
    (hI : HasValue opts.ScanType "openscap".toList = true →
      (Inspect env (ExtractImage env fs opts).fs (NewOpenscapImageInspector opts m)).err = none) :
    ((mainImage env fs ScanOptions opts).openscap.isSome
        = HasValue opts.ScanType "openscap".toList)
    ∧ (mainImage env fs ScanOptions opts).custom.map Prod.fst
        = ScanOptions.filter
            (fun n => decide (¬ n = "openscap".toList) && HasValue opts.ScanType n)
    ∧ (∀ x ∈ (mainImage env fs ScanOptions opts).custom,
        x.2 = RunScanner env opts x.1 ScannerImage)
    ∧ (ScanOptions.Nodup → ∀ n ∈ ScanOptions, n ≠ "openscap".toList →
        HasValue opts.ScanType n = true →
        ((mainImage env fs ScanOptions opts).custom.map Prod.fst).countP
          (fun x => decide (x = n)) = 1)
    ∧ (mainImage env fs ScanOptions opts).served
        = (if 0 < opts.Serve.length then some opts else none)
    ∧ ((mainImage env fs ScanOptions opts).fatal = none
        ∨ ∃ err, (mainImage env fs ScanOptions opts).fatal = some (.serviceFailed err)) := by
  have hmain : mainImage env fs ScanOptions opts
      = (if 0 < opts.Serve.length then
          match env.Serve opts with
          | some err =>
            ⟨(ExtractImage env fs opts).extractedTo,
              (if HasValue opts.ScanType "openscap".toList then
                some (Inspect env (ExtractImage env fs opts).fs
                  (NewOpenscapImageInspector opts m))
              else none),
              runCustomScanners env opts ScanOptions, some opts, some (.serviceFailed err), false⟩
          | none =>
            ⟨(ExtractImage env fs opts).extractedTo,
              (if HasValue opts.ScanType "openscap".toList then
                some (Inspect env (ExtractImage env fs opts).fs
                  (NewOpenscapImageInspector opts m))
              else none),
              runCustomScanners env opts ScanOptions, some opts, none, false⟩
        else
          ⟨(ExtractImage env fs opts).extractedTo,
            (if HasValue opts.ScanType "openscap".toList then
              some (Inspect env (ExtractImage env fs opts).fs
                (NewOpenscapImageInspector opts m))
            else none),
            runCustomScanners env opts ScanOptions, none, none, false⟩) := by
    have hH : (ExtractImage env fs opts).hangs = false :=
      ExtractImage_not_hangs env fs opts m hM
    unfold mainImage
    simp only [hE, hM, hH]
    cases hv : HasValue opts.ScanType "openscap".toList with
    | false => simp
    | true => simp [hI hv]
  have hcases : ∃ sv ft, mainImage env fs ScanOptions opts
      = ⟨(ExtractImage env fs opts).extractedTo,
          (if HasValue opts.ScanType "openscap".toList then
            some (Inspect env (ExtractImage env fs opts).fs (NewOpenscapImageInspector opts m))
          else none),
          runCustomScanners env opts ScanOptions, sv, ft, false⟩
      ∧ sv = (if 0 < opts.Serve.length then some opts else none)
      ∧ (ft = none ∨ ∃ err, ft = some (FatalError.serviceFailed err)) := by
    rw [hmain]
    by_cases hs : 0 < opts.Serve.length
    · rw [if_pos hs]
      cases hsv : env.Serve opts with
      | none => exact ⟨_, _, rfl, by rw [if_pos hs], Or.inl rfl⟩
      | some err => exact ⟨_, _, rfl, by rw [if_pos hs], Or.inr ⟨err, rfl⟩⟩
    · rw [if_neg hs]
      exact ⟨_, _, rfl, by rw [if_neg hs], Or.inl rfl⟩
  obtain ⟨sv, ft, heq, hsv, hft⟩ := hcases
  rw [heq]
  refine ⟨?_, runCustomScanners_names env opts ScanOptions,
    runCustomScanners_outcome env opts ScanOptions, ?_, hsv, hft⟩
  · cases HasValue opts.ScanType "openscap".toList <;> rfl
  · intro hnd n hn hne hv
    simp only [runCustomScanners_names]
    apply countP_eq_one_of_nodup n _ (hnd.filter _)
    rw [List.mem_filter]
    exact ⟨hn, by rw [Bool.and_eq_true]; exact ⟨decide_eq_true hne, hv⟩⟩

/-- C11, amended, at a run in which the openscap scanner and the command of the
custom scanner both fail: the custom scanner is still invoked, once, and
`Serve` is called. -/
theorem mainImage_scanners_isolated_witness :
    (mainImage failingScannersEnv hostFS ["openscap".toList, "occlamdscan".toList]
        { noResultsDirOptions with ScanResultsDir := [] }).custom.map Prod.fst
      = ["occlamdscan".toList]
    ∧ (mainImage failingScannersEnv hostFS ["openscap".toList, "occlamdscan".toList]
        { noResultsDirOptions with ScanResultsDir := [] }).served
      = some { noResultsDirOptions with ScanResultsDir := [] } :=
  ⟨(mainImage_scanners_isolated failingScannersEnv hostFS
      ["openscap".toList, "occlamdscan".toList]
      { noResultsDirOptions with ScanResultsDir := [] }
      (NewInspectorMetadata ⟨"sha256:1".toList⟩) (by decide) (by decide)
      (fun _ => by decide)).2.1,
   (mainImage_scanners_isolated failingScannersEnv hostFS
      ["openscap".toList, "occlamdscan".toList]
      { noResultsDirOptions with ScanResultsDir := [] }
      (NewInspectorMetadata ⟨"sha256:1".toList⟩) (by decide) (by decide)
      (fun _ => by decide)).2.2.2.2.1⟩

/-! ## C12: a second run over directories and regular files -/

theorem targetOf_eq_some (X : FS) (D : List Char) (e : Entry) (i : Nat)
    (h : targetOf X D e = some i) :
    ∃ q, X.resolve (dstpath D e.hdr.Name) = .ok q ∧ X.names q = some i := by
  unfold targetOf at h
  cases hr : X.resolve (dstpath D e.hdr.Name) with
  | error err => rw [hr] at h; cases h
  | ok q => rw [hr] at h; exact ⟨q, rfl, h⟩

theorem targetOf_of_resolve (X : FS) (D : List Char) (e : Entry) (q : List (List Char))
    (h : X.resolve (dstpath D e.hdr.Name) = .ok q) : targetOf X D e = X.names q := by
  simp only [targetOf, h]

theorem targetOf_Grows (fs fs1 : FS) (D : List Char) (e : Entry) (i : Nat) (hwf : fs.wf)
    (h : Grows fs fs1) (ht : targetOf fs D e = some i) : targetOf fs1 D e = some i := by
  obtain ⟨q, hr, hn⟩ := targetOf_eq_some fs D e i ht
  rw [targetOf_of_resolve fs1 D e q (resolve_Grows fs fs1 hwf h _ q hr)]
  exact h.2.1 q i hn

theorem mkdirExists_Grows (fs fs1 : FS) (p : List Char) (hwf : fs.wf) (h : Grows fs fs1)
    (hm : mkdirExists fs p) : mkdirExists fs1 p := by
  obtain ⟨q, hl, hq⟩ := hm
  refine ⟨q, locate_Grows fs fs1 hwf h p q hl, ?_⟩
  rcases hq with hq | hq
  · obtain ⟨i, hi⟩ := Option.ne_none_iff_exists'.1 hq
    left
    rw [h.2.1 q i hi]
    simp
  · exact Or.inr hq

theorem Mkdir_of_mkdirExists (fs : FS) (p : List Char) (mode : Nat) (h : mkdirExists fs p) :
    Mkdir fs p mode = .error Errno.EEXIST := by
  obtain ⟨q, hl, hq⟩ := h
  cases hn : fs.names q with
  | some i => exact Mkdir_exists fs p mode q i hl hn
  | none =>
    rcases hq with hq | hq
    · exact absurd hn hq
    · simp only [Mkdir, hl, hn, hq, Bool.false_eq_true, if_false]

theorem chtimes_at (X : FS) (D : List Char) (e : Entry) (q : List (List Char)) (i : Nat)
    (y : Inode) (hr : X.resolve (dstpath D e.hdr.Name) = .ok q)
    (hn : X.names q = some i) (hi : X.inodes i = some y) :
    chtimesBestEffort X D e
      = X.setInode i { y with atime := e.hdr.AccessTime, mtime := e.hdr.ModTime } := by
  simp only [chtimesBestEffort, Chtimes_at X _ _ _ q i y hr hn hi]

/-- A directory or regular-file entry whose path leads to an inode that exists
sets its fields on that inode. -/
theorem step_old (X : FS) (D : List Char) (e : Entry) (q : List (List Char)) (i : Nat)
    (x : Inode) (hwf : X.wf) (ht : e.isDir = true ∨ e.isReg = true)
    (hr : X.resolve (dstpath D e.hdr.Name) = .ok q)
    (hn : X.names q = some i) (hi : X.inodes i = some x)
    (hd : e.isDir = true → mkdirExists X (dstpath D e.hdr.Name))
    (hf : e.isReg = true → (∃ c, x.kind = Kind.file c) ∧ e.copyErr = none) :
    ∃ X1, extractEntry X D e = (X1, none)
      ∧ chtimesBestEffort X1 D e = X.setInode i (overwrite e x) := by
  by_cases hdir : e.isDir = true
  · have htf : e.hdr.Typeflag = TypeDir := (isDir_iff e).1 hdir
    have hmk := Mkdir_of_mkdirExists X (dstpath D e.hdr.Name) (entryMode e.hdr) (hd hdir)
    have hch := Chmod_at X (dstpath D e.hdr.Name) (entryMode e.hdr) q i x hr hn hi
    refine ⟨X.setInode i { x with mode := entryMode e.hdr }, ?_, ?_⟩
    · simp only [extractEntry]
      rw [if_pos htf, hmk]
      simp only [hch]
      rfl
    · have hg := Grows_setInode X i x { x with mode := entryMode e.hdr } hwf hi rfl
      have hr1 := resolve_Grows X _ hwf hg _ q hr
      rw [chtimes_at (X.setInode i { x with mode := entryMode e.hdr }) D e q i
        { x with mode := entryMode e.hdr } hr1 hn (setInode_self _ _ _), setInode_setInode]
      simp only [overwrite, hdir, if_true]
  · have hreg : e.isReg = true := ht.resolve_left hdir
    have htf : ¬ e.hdr.Typeflag = TypeDir := fun h => hdir ((isDir_iff e).2 h)
    have htr : e.hdr.Typeflag = TypeReg ∨ e.hdr.Typeflag = TypeRegA := by
      simpa [Entry.isReg] using hreg
    obtain ⟨⟨c, hc⟩, hce⟩ := hf hreg
    have hop := OpenFile_old X (dstpath D e.hdr.Name) (entryMode e.hdr) q i x c hr hn hi hc
    have hw : Write (X.setInode i { x with kind := Kind.file [], mtime := X.clock }) i e.payload
        = X.setInode i { x with kind := Kind.file e.payload, mtime := X.clock } := by
      simp only [Write, setInode_self, setInode_setInode, List.nil_append]
    refine ⟨X.setInode i { x with kind := Kind.file e.payload, mtime := X.clock }, ?_, ?_⟩
    · simp only [extractEntry]
      rw [if_neg htf, if_pos htr, hop]
      simp only [hce, hw]
    · have hg := Grows_setInode X i x { x with kind := Kind.file e.payload, mtime := X.clock }
        hwf hi (by rw [hc]; rfl)
      have hr1 := resolve_Grows X _ hwf hg _ q hr
      rw [chtimes_at (X.setInode i { x with kind := Kind.file e.payload, mtime := X.clock }) D e
        q i { x with kind := Kind.file e.payload, mtime := X.clock } hr1 hn
        (setInode_self _ _ _), setInode_setInode]
      simp only [overwrite, hdir]
      rfl

/-- A directory or regular-file entry whose path leads to no inode makes one. -/
theorem step_new (X : FS) (D : List Char) (e : Entry) (q : List (List Char)) (k : Kind)
    (m : Nat) (hwf : X.wf) (hq : X.names q = none) (hk : k.isSymlink = false)
    (hr : X.resolve (dstpath D e.hdr.Name) = .ok q) (c1 c2 : Nat) :
    chtimesBestEffort (X.create q ⟨k, m, c1, c2⟩) D e
      = X.create q ⟨k, m, e.hdr.AccessTime, e.hdr.ModTime⟩ := by
  have hg := Grows_create X q ⟨k, m, c1, c2⟩ hwf hq hk
  have hr1 := resolve_Grows X _ hwf hg _ q hr
  rw [chtimes_at (X.create q ⟨k, m, c1, c2⟩) D e q X.next ⟨k, m, c1, c2⟩ hr1
    (create_names_self _ _ _) (create_inodes_self _ _ _), create_setInode]

/-- The two ways in which a directory or regular-file entry is extracted without
error: its path leads to an inode that exists, or to none and one is made. -/
theorem step_cases (X : FS) (D : List Char) (e : Entry) (hwf : X.wf)
    (ht : e.isDir = true ∨ e.isReg = true) (hok : (extractEntry X D e).2 = none) :
    ∃ q, X.resolve (dstpath D e.hdr.Name) = .ok q
      ∧ ((∃ i x, X.names q = some i ∧ X.inodes i = some x
            ∧ (e.isDir = true → mkdirExists X (dstpath D e.hdr.Name))
            ∧ (e.isReg = true → (∃ c, x.kind = Kind.file c) ∧ e.copyErr = none))
          ∨ (X.names q = none
            ∧ (e.isDir = true → X.locate (dstpath D e.hdr.Name) = .ok q)
            ∧ (e.isReg = true → e.copyErr = none)
            ∧ chtimesBestEffort (extractEntry X D e).1 D e
              = X.create q ⟨if e.isDir then Kind.dir else Kind.file e.payload,
                  applyUmask X.umask (entryMode e.hdr), e.hdr.AccessTime, e.hdr.ModTime⟩)) := by
  by_cases hdir : e.isDir = true
  · have htf : e.hdr.Typeflag = TypeDir := (isDir_iff e).1 hdir
    have hreg : e.isReg = false := isDir_not_isReg e hdir
    cases hmk : Mkdir X (dstpath D e.hdr.Name) (entryMode e.hdr) with
    | ok X1 =>
      cases hl : X.locate (dstpath D e.hdr.Name) with
      | error err => simp only [Mkdir, hl] at hmk; cases hmk
      | ok q =>
        cases hn : X.names q with
        | some j => simp only [Mkdir, hl, hn] at hmk; cases hmk
        | none =>
          cases hc : creatable q with
          | false => simp only [Mkdir, hl, hn, hc, Bool.false_eq_true, if_false] at hmk; cases hmk
          | true =>
            have hmk1 := Mkdir_new X (dstpath D e.hdr.Name) (entryMode e.hdr) q hl hn hc
            have hres : X.resolve (dstpath D e.hdr.Name) = .ok q :=
              resolve_of_locate X _ q hl (fun ino h => by
                rw [node_none_of_names X q hn] at h; cases h)
            have hex : extractEntry X D e
                = (X.create q ⟨Kind.dir, applyUmask X.umask (entryMode e.hdr), X.clock, X.clock⟩,
                    none) := by
              simp only [extractEntry]
              rw [if_pos htf, hmk1]
            refine ⟨q, hres, Or.inr ⟨hn, fun _ => rfl, ?_, ?_⟩⟩
            · intro h; rw [hreg] at h; cases h
            · rw [hex, if_pos hdir]
              exact step_new X D e q Kind.dir _ hwf hn rfl hres _ _
    | error err =>
      simp only [extractEntry] at hok
      rw [if_pos htf, hmk] at hok
      simp only at hok
      cases herr : IsExist err with
      | false => rw [herr] at hok; simp at hok
      | true =>
        have he : err = Errno.EEXIST := by
          cases err <;> first | rfl | cases herr
        rw [he] at hmk
        have hme : mkdirExists X (dstpath D e.hdr.Name) := Mkdir_EEXIST X _ _ hmk
        rw [herr] at hok
        simp only [Bool.not_true, Bool.false_eq_true, if_false] at hok
        cases hr : X.resolve (dstpath D e.hdr.Name) with
        | error err2 =>
          exfalso
          simp [Chmod, hr] at hok
        | ok q =>
          cases hq : X.names q with
          | none =>
            exfalso
            simp [Chmod, hr, hq] at hok
          | some i =>
            cases hi : X.inodes i with
            | none =>
              exfalso
              simp [Chmod, hr, hq, hi] at hok
            | some x =>
              refine ⟨q, rfl, Or.inl ⟨i, x, hq, hi, fun _ => hme, ?_⟩⟩
              intro h
              rw [hreg] at h
              cases h
  · have hreg : e.isReg = true := ht.resolve_left hdir
    have htf : ¬ e.hdr.Typeflag = TypeDir := fun h => hdir ((isDir_iff e).2 h)
    have htr : e.hdr.Typeflag = TypeReg ∨ e.hdr.Typeflag = TypeRegA := by
      simpa [Entry.isReg] using hreg
    simp only [extractEntry] at hok
    rw [if_neg htf, if_pos htr] at hok
    cases hr : X.resolve (dstpath D e.hdr.Name) with
    | error err =>
      exfalso
      simp [OpenFile, hr] at hok
    | ok q =>
      refine ⟨q, rfl, ?_⟩
      cases hq : X.names q with
      | some i =>
        left
        cases hi : X.inodes i with
        | none =>
          exfalso
          simp [OpenFile, hr, hq, hi] at hok
        | some x =>
          cases hk : x.kind with
          | dir => exfalso; simp [OpenFile, hr, hq, hi, hk] at hok
          | symlink t => exfalso; simp [OpenFile, hr, hq, hi, hk] at hok
          | file c =>
            refine ⟨i, x, rfl, hi, fun h => absurd h hdir, fun _ => ⟨⟨c, hk⟩, ?_⟩⟩
            cases hce : e.copyErr with
            | none => rfl
            | some err =>
              exfalso
              simp [OpenFile, hr, hq, hi, hk, hce] at hok
      | none =>
        right
        cases hc : creatable q with
        | false =>
          exfalso
          simp [OpenFile, hr, hq, hc] at hok
        | true =>
          have hop := OpenFile_new X (dstpath D e.hdr.Name) (entryMode e.hdr) q hr hq hc
          rw [hop] at hok
          have hce : e.copyErr = none := by
            cases hce : e.copyErr with
            | none => rfl
            | some err => rw [hce] at hok; cases hok
          have hex : extractEntry X D e
              = (X.create q ⟨Kind.file e.payload, applyUmask X.umask (entryMode e.hdr),
                  X.clock, X.clock⟩, none) := by
            simp only [extractEntry]
            rw [if_neg htf, if_pos htr, hop]
            simp only [hce, Write_create_eq]
          refine ⟨rfl, fun h => absurd h hdir, fun _ => hce, ?_⟩
          rw [hex, if_neg hdir]
          exact step_new X D e q (Kind.file e.payload) _ hwf hq rfl hr _ _

theorem overwrite_shape (e : Entry) (x : Inode)
    (h : e.isDir = false → ∃ c, x.kind = Kind.file c) :
    (overwrite e x).kind.shape = x.kind.shape := by
  unfold overwrite
  cases hd : e.isDir with
  | true => rfl
  | false =>
    obtain ⟨c, hc⟩ := h hd
    simp only [Bool.false_eq_true, if_false, hc]
    rfl

/-- One directory or regular-file entry extracted without error: the inode its
path leads to afterwards has the bytes or the mode of the entry, a new
directory the mode without the bits of the umask, and the other allocated
inodes keep kind, bytes and mode. -/
theorem step_run1 (X : FS) (D : List Char) (e : Entry) (hwf : X.wf)
    (ht : e.isDir = true ∨ e.isReg = true) (hok : (extractEntry X D e).2 = none) :
    ∃ i y, Grows X (chtimesBestEffort (extractEntry X D e).1 D e)
      ∧ targetOf (chtimesBestEffort (extractEntry X D e).1 D e) D e = some i
      ∧ (chtimesBestEffort (extractEntry X D e).1 D e).inodes i = some y
      ∧ (e.isDir = false → y.kind = Kind.file e.payload)
      ∧ (e.isDir = true →
          y.mode = entryMode e.hdr ∨ y.mode = applyUmask X.umask (entryMode e.hdr))
      ∧ (e.isDir = true →
          mkdirExists (chtimesBestEffort (extractEntry X D e).1 D e) (dstpath D e.hdr.Name))
      ∧ (e.isReg = true → e.copyErr = none)
      ∧ (∀ j ino, j < X.next → X.inodes j = some ino →
          ∃ ino1, (chtimesBestEffort (extractEntry X D e).1 D e).inodes j = some ino1
            ∧ ino1.kind = (if j = i then overwrite e ino else ino).kind
            ∧ ino1.mode = (if j = i then overwrite e ino else ino).mode) := by
  obtain ⟨q, hr, hcase⟩ := step_cases X D e hwf ht hok
  rcases hcase with ⟨i, x, hn, hi, hd, hf⟩ | ⟨hn, hloc, hce, hres⟩
  · obtain ⟨X1, hex, hch⟩ := step_old X D e q i x hwf ht hr hn hi hd hf
    rw [hex, hch]
    have hsh : (overwrite e x).kind.shape = x.kind.shape := by
      apply overwrite_shape
      intro hnd
      have hreg : e.isReg = true := ht.resolve_left (by rw [hnd]; decide)
      exact (hf hreg).1
    have hg := Grows_setInode X i x (overwrite e x) hwf hi hsh
    refine ⟨i, overwrite e x, hg, ?_, setInode_self _ _ _, ?_, ?_, ?_, fun h => (hf h).2, ?_⟩
    · rw [targetOf_of_resolve _ D e q (resolve_Grows X _ hwf hg _ q hr)]
      exact hn
    · intro hnd
      simp only [overwrite, hnd, Bool.false_eq_true, if_false]
    · intro hdir
      left
      simp only [overwrite, hdir, if_true]
    · intro h
      exact mkdirExists_Grows X _ _ hwf hg (hd h)
    · intro j ino _ hj
      by_cases hji : j = i
      · subst hji
        rw [hi] at hj
        cases hj
        exact ⟨overwrite e x, setInode_self _ _ _, by rw [if_pos rfl], by rw [if_pos rfl]⟩
      · refine ⟨ino, ?_, by rw [if_neg hji], by rw [if_neg hji]⟩
        rw [setInode_other _ _ _ _ hji]
        exact hj
  · rw [hres]
    have hk : (if e.isDir then Kind.dir else Kind.file e.payload).isSymlink = false := by
      split <;> rfl
    have hg := Grows_create X q ⟨if e.isDir then Kind.dir else Kind.file e.payload,
      applyUmask X.umask (entryMode e.hdr), e.hdr.AccessTime, e.hdr.ModTime⟩ hwf hn hk
    refine ⟨X.next, ⟨if e.isDir then Kind.dir else Kind.file e.payload,
      applyUmask X.umask (entryMode e.hdr), e.hdr.AccessTime, e.hdr.ModTime⟩, hg, ?_,
      create_inodes_self _ _ _, ?_, fun _ => Or.inr rfl, ?_, hce, ?_⟩
    · rw [targetOf_of_resolve _ D e q (resolve_Grows X _ hwf hg _ q hr)]
      exact create_names_self _ _ _
    · intro hnd
      simp only [hnd, Bool.false_eq_true, if_false]
    · intro hdir
      refine ⟨q, locate_Grows X _ hwf hg _ q (hloc hdir), Or.inl ?_⟩
      rw [create_names_self]
      simp
    · intro j ino hj hino
      have hne1 : j ≠ X.next := Nat.ne_of_lt hj
      rw [create_inodes_other _ _ _ _ hne1, if_neg hne1]
      rcases touch_inodes X q.dropLast j with h1 | ⟨y, h1, h2⟩
      · rw [h1]; exact ⟨ino, hino, rfl, rfl⟩
      · rw [h2]
        rw [hino] at h1
        cases h1
        exact ⟨_, rfl, rfl, rfl⟩

theorem Agree_congr (D : List Char) (R : FS) (all es : List Entry) (i : Nat) (r x x1 : Inode)
    (hm : x1.mode = x.mode) (hk : x1.kind = x.kind) (h : Agree D R all es i r x) :
    Agree D R all es i r x1 := by
  unfold Agree at h ⊢
  rw [hm, hk]
  exact h

theorem Agree_cons (D : List Char) (R : FS) (all : List Entry) (e : Entry) (rest : List Entry)
    (i : Nat) (r x : Inode) (h : Agree D R all rest i r x) : Agree D R all (e :: rest) i r x := by
  obtain ⟨h1, h2⟩ := h
  refine ⟨h1.imp_right (Or.imp_left ?_), h2.imp_right ?_⟩
  · rintro ⟨e1, hm, hp⟩; exact ⟨e1, List.mem_cons_of_mem _ hm, hp⟩
  · rintro ⟨e1, hm, hp⟩; exact ⟨e1, List.mem_cons_of_mem _ hm, hp⟩

theorem Agree_cons_overwrite (D : List Char) (R : FS) (all : List Entry) (e : Entry)
    (rest : List Entry) (i : Nat) (r x : Inode) (ht : e.isDir = true ∨ e.isReg = true)
    (htg : targetOf R D e = some i) (h : Agree D R all rest i r (overwrite e x)) :
    Agree D R all (e :: rest) i r x := by
  obtain ⟨h1, h2⟩ := Agree_cons D R all e rest i r _ h
  refine ⟨?_, ?_⟩
  · by_cases hdir : e.isDir = true
    · exact Or.inr (Or.inl ⟨e, List.mem_cons_self _ _, hdir, htg⟩)
    · have hm : (overwrite e x).mode = x.mode := by simp only [overwrite, if_neg hdir]
      rw [hm] at h1
      exact h1
  · by_cases hdir : e.isDir = true
    · have hk : (overwrite e x).kind = x.kind := by simp only [overwrite, if_pos hdir]
      rw [hk] at h2
      exact h2
    · exact Or.inr ⟨e, List.mem_cons_self _ _, ht.resolve_left hdir, htg⟩

theorem Agree_tail (D : List Char) (R : FS) (all : List Entry) (e : Entry) (rest : List Entry)
    (i j : Nat) (r x : Inode) (htg : targetOf R D e = some i) (hji : j ≠ i)
    (h : Agree D R all (e :: rest) j r x) : Agree D R all rest j r x := by
  have hne : ¬ targetOf R D e = some j := by
    rw [htg]
    intro h1
    exact hji (Option.some.inj h1).symm
  obtain ⟨h1, h2⟩ := h
  refine ⟨h1.imp_right (Or.imp_left ?_), h2.imp_right ?_⟩
  · rintro ⟨e1, hm, hp, hq⟩
    rcases List.mem_cons.1 hm with he | he
    · subst he; exact absurd hq hne
    · exact ⟨e1, he, hp, hq⟩
  · rintro ⟨e1, hm, hp, hq⟩
    rcases List.mem_cons.1 hm with he | he
    · subst he; exact absurd hq hne
    · exact ⟨e1, he, hp, hq⟩

theorem applyUmask_of_clear (umask mode : Nat) (h : mode &&& (umask &&& 0o777) = 0) :
    applyUmask umask mode = mode := by
  unfold applyUmask
  rw [h]
  rfl

theorem Agree_overwrite (D : List Char) (R : FS) (all : List Entry) (e : Entry)
    (rest : List Entry) (i : Nat) (r t y : Inode) (hall : e ∈ all)
    (htg : targetOf R D e = some i)
    (h : Agree D R all (e :: rest) i r t) (hy : Agree D R all rest i r y)
    (hyk : e.isDir = false → y.kind = Kind.file e.payload)
    (hym : e.isDir = true →
      y.mode = entryMode e.hdr ∨ y.mode = applyUmask R.umask (entryMode e.hdr)) :
    Agree D R all rest i r (overwrite e t) := by
  obtain ⟨h1, h2⟩ := h
  obtain ⟨y1, y2⟩ := hy
  by_cases hdir : e.isDir = true
  · have hreg : e.isReg = false := isDir_not_isReg e hdir
    have hm : (overwrite e t).mode = entryMode e.hdr := by simp only [overwrite, if_pos hdir]
    have hk : (overwrite e t).kind = t.kind := by simp only [overwrite, if_pos hdir]
    refine ⟨?_, ?_⟩
    · by_cases hc : entryMode e.hdr &&& (R.umask &&& 0o777) = 0
      · have hye : y.mode = entryMode e.hdr := by
          rcases hym hdir with h0 | h0
          · exact h0
          · rw [h0, applyUmask_of_clear _ _ hc]
        rw [hm, ← hye]
        exact y1
      · exact Or.inr (Or.inr ⟨e, hall, hdir, htg, hm, hc⟩)
    · rw [hk]
      refine h2.imp_right ?_
      rintro ⟨e1, hm1, hp, hq⟩
      rcases List.mem_cons.1 hm1 with he | he
      · subst he; rw [hreg] at hp; cases hp
      · exact ⟨e1, he, hp, hq⟩
  · have hnd : e.isDir = false := by
      cases hd : e.isDir with
      | false => rfl
      | true => exact absurd hd hdir
    have hm : (overwrite e t).mode = t.mode := by simp only [overwrite, if_neg hdir]
    have hk : (overwrite e t).kind = y.kind := by
      rw [hyk hnd]; simp only [overwrite, if_neg hdir]
    refine ⟨?_, by rw [hk]; exact y2⟩
    rw [hm]
    refine h1.imp_right (Or.imp_left ?_)
    rintro ⟨e1, hm1, hp, hq⟩
    rcases List.mem_cons.1 hm1 with he | he
    · subst he; exact absurd hp hdir
    · exact ⟨e1, he, hp, hq⟩

theorem processTarStream_cons (D : List Char) (X : FS) (e : Entry) (rest : List Entry)
    (h : (extractEntry X D e).2 = none) :
    processTarStream D X (e :: rest) none
      = processTarStream D (chtimesBestEffort (extractEntry X D e).1 D e) rest none := by
  rw [processTarStream]
  cases hx : extractEntry X D e with
  | mk X1 err =>
    rw [hx] at h
    simp only at h
    subst h
    rfl

theorem processTarStream_cons_err (D : List Char) (X : FS) (e : Entry) (rest : List Entry)
    (h : (processTarStream D X (e :: rest) none).2 = none) : (extractEntry X D e).2 = none := by
  rw [processTarStream] at h
  cases hx : extractEntry X D e with
  | mk X1 err =>
    cases err with
    | none => rfl
    | some er => rw [hx] at h; cases h

theorem Sim_Grows (D : List Char) (R T : FS) (all es : List Entry) (hwf : R.wf)
    (h : Sim D R all es T) : Grows R T := by
  obtain ⟨h1, h2, h3, _, h5⟩ := h
  refine ⟨?_, fun p i hp => by rw [h1]; exact hp, ?_, ?_, by rw [h2], h3⟩
  · intro p i hp
    rw [h1] at hp
    obtain ⟨w1, w2⟩ := hwf p i hp
    obtain ⟨r, hr⟩ := Option.ne_none_iff_exists'.1 w2
    obtain ⟨t, ht, _⟩ := h5 i r hr
    exact ⟨by rw [h2]; exact w1, by rw [ht]; simp⟩
  · intro i r _ hr
    obtain ⟨t, ht, hs, _⟩ := h5 i r hr
    exact ⟨t, ht, hs⟩
  · intro p hp ino hs
    rw [← h1] at hp
    rw [node_none_of_names T p hp] at hs
    cases hs

theorem Sim_refl (D : List Char) (R : FS) (all es : List Entry) : Sim D R all es R :=
  ⟨rfl, rfl, rfl, fun _ h => h, fun _ r hr => ⟨r, hr, rfl, Or.inl rfl, Or.inl rfl⟩⟩

/-- The first run over directories and regular files, and a second run that
starts on a file system with the names and inodes of the result of the first. -/
theorem second_run (D : List Char) (all es : List Entry) :
    ∀ s : FS, s.wf → (∀ e ∈ es, e ∈ all) → (∀ e ∈ es, e.isDir = true ∨ e.isReg = true) →
      (processTarStream D s es none).2 = none →
      Grows s (processTarStream D s es none).1
      ∧ Frame D (processTarStream D s es none).1 all es s
      ∧ ∀ T, Sim D (processTarStream D s es none).1 all es T →
          (processTarStream D T es none).2 = none
          ∧ Sim D (processTarStream D s es none).1 all [] (processTarStream D T es none).1 := by
  induction es with
  | nil =>
    intro s hwf _ _ _
    refine ⟨Grows_refl s hwf, ?_, ?_⟩
    · intro i ino _ hi
      exact ⟨ino, hi, Or.inl rfl, Or.inl rfl⟩
    · intro T hsim
      exact ⟨rfl, hsim⟩
  | cons e rest ih =>
    intro s hwf hsub htypes hok
    have ht : e.isDir = true ∨ e.isReg = true := htypes e (List.mem_cons_self _ _)
    have hall : e ∈ all := hsub e (List.mem_cons_self _ _)
    have hex := processTarStream_cons_err D s e rest hok
    rw [processTarStream_cons D s e rest hex] at hok ⊢
    obtain ⟨i, y, hg, htg, hiy, hyk, hym, hdn, hce, hframe⟩ := step_run1 s D e hwf ht hex
    generalize chtimesBestEffort (extractEntry s D e).1 D e = s1
      at hok hg htg hiy hdn hframe ⊢
    obtain ⟨ihg, ihf, ihb⟩ := ih s1 hg.1 (fun e1 h1 => hsub e1 (List.mem_cons_of_mem _ h1))
      (fun e1 h1 => htypes e1 (List.mem_cons_of_mem _ h1)) hok
    generalize (processTarStream D s1 rest none).1 = R at ihg ihf ihb ⊢
    have htgR : targetOf R D e = some i := targetOf_Grows s1 R D e i hg.1 ihg htg
    obtain ⟨q1, hq1r, hq1n⟩ := targetOf_eq_some s1 D e i htg
    have hi1 : i < s1.next := (hg.1 q1 i hq1n).1
    obtain ⟨r, hr, hagr⟩ := ihf i y hi1 hiy
    have hum : R.umask = s.umask := by rw [ihg.2.2.2.2.2, hg.2.2.2.2.2]
    refine ⟨Grows_trans s s1 R hg ihg, ?_, ?_⟩
    · intro j ino hj hino
      have hj1 : j < s1.next := lt_of_lt_of_le hj hg.2.2.2.2.1
      obtain ⟨ino1, hino1, hk1, hm1⟩ := hframe j ino hj hino
      obtain ⟨rj, hrj, haj⟩ := ihf j ino1 hj1 hino1
      refine ⟨rj, hrj, ?_⟩
      have haj1 := Agree_congr D R all rest j rj ino1 _ hm1.symm hk1.symm haj
      by_cases hji : j = i
      · subst hji
        rw [if_pos rfl] at haj1
        exact Agree_cons_overwrite D R all e rest j rj ino ht htgR haj1
      · rw [if_neg hji] at haj1
        exact Agree_cons D R all e rest j rj ino haj1
    · intro T hsim
      have hRwf : R.wf := ihg.1
      have hgT := Sim_Grows D R T all (e :: rest) hRwf hsim
      obtain ⟨n1, n2, n3, n4, n5⟩ := hsim
      obtain ⟨t, hTi, hts, hagt⟩ := n5 i r hr
      obtain ⟨q, hqr, hqn⟩ := targetOf_eq_some R D e i htgR
      obtain ⟨r1, hr1, hsh1⟩ := ihg.2.2.1 i y hi1 hiy
      rw [hr] at hr1
      cases hr1
      have htk : e.isDir = false → ∃ c, t.kind = Kind.file c := by
        intro hnd
        have h1 := hyk hnd
        rw [h1] at hsh1
        rw [hsh1] at hts
        exact shape_eq_file _ _ hts
      obtain ⟨T1, hT1, hT2⟩ := step_old T D e q i t hgT.1 ht
        (resolve_Grows R T hRwf hgT _ q hqr) (by rw [n1]; exact hqn) hTi
        (fun h => mkdirExists_Grows R T _ hRwf hgT (mkdirExists_Grows s1 R _ hg.1 ihg (hdn h)))
        (fun h => ⟨htk (by
          cases hd : e.isDir with
          | false => rfl
          | true => rw [isDir_not_isReg e hd] at h; cases h), hce h⟩)
      have hex2 : (extractEntry T D e).2 = none := by rw [hT1]
      rw [processTarStream_cons D T e rest hex2, hT1, hT2]
      apply ihb
      refine ⟨n1, n2, n3, ?_, ?_⟩
      · intro j hj
        have hji : j ≠ i := by
          intro h
          rw [h, hr] at hj
          cases hj
        rw [setInode_other _ _ _ _ hji]
        exact n4 j hj
      · intro j rj hrj
        by_cases hji : j = i
        · subst hji
          rw [hr] at hrj
          have hrr : r = rj := Option.some.inj hrj
          subst hrr
          refine ⟨overwrite e t, setInode_self _ _ _, ?_, ?_⟩
          · rw [overwrite_shape e t htk]
            exact hts
          · exact Agree_overwrite D R all e rest j r t y hall htgR hagt hagr hyk
              (fun h => by rw [hum]; exact hym h)
        · obtain ⟨tj, htj, hsj, haj⟩ := n5 j rj hrj
          refine ⟨tj, ?_, hsj, Agree_tail D R all e rest i j rj tj htgR hji haj⟩
          rw [setInode_other _ _ _ _ hji]
          exact htj

/-- What a second run leaves, from the relation `Sim` after the last entry. -/
theorem Sim_nil (D : List Char) (R T : FS) (all : List Entry) (h : Sim D R all [] T) :
    T.names = R.names
    ∧ (∀ i, (T.inodes i).map Inode.kind = (R.inodes i).map Inode.kind)
    ∧ (∀ i t, T.inodes i = some t → ∃ r, R.inodes i = some r
        ∧ (t.mode = r.mode
          ∨ ∃ e ∈ all, e.isDir = true ∧ targetOf R D e = some i ∧ t.mode = entryMode e.hdr
              ∧ umaskClears R.umask e)) := by
  obtain ⟨h1, _, _, h4, h5⟩ := h
  refine ⟨h1, ?_, ?_⟩
  · intro i
    cases hr : R.inodes i with
    | none => rw [h4 i hr]
    | some r =>
      obtain ⟨t, ht, _, _, a2⟩ := h5 i r hr
      rw [ht]
      have e2 : t.kind = r.kind := a2.resolve_right (by rintro ⟨e, hm, _⟩; cases hm)
      simp only [Option.map_some', e2]
  · intro i t ht
    cases hr : R.inodes i with
    | none => rw [h4 i hr] at ht; cases ht
    | some r =>
      obtain ⟨t1, ht1, _, a1, _⟩ := h5 i r hr
      rw [ht] at ht1
      cases ht1
      refine ⟨r, rfl, ?_⟩
      rcases a1 with a | a | a
      · exact Or.inl a
      · obtain ⟨e, hm, _⟩ := a; cases hm
      · exact Or.inr a

/-- C12, counterexample: under the umask 022 a stream with the one directory
`rootfs/pub` of mode 0777. The first run returns nil and makes the directory
with mode 0755, as `os.Mkdir` does; the second run returns nil and sets
mode 0777 with `os.Chmod`: the directory modes are not those after the first
run. -/
theorem processTarStream_second_run_mode :
    hostFS.umask = 0o022
    ∧ (processTarStream "/var/tmp/d".toList hostFS publicDir none).2 = none
    ∧ (processTarStream "/var/tmp/d".toList hostFS publicDir none).1.stat
        "/var/tmp/d/pub".toList = some ⟨Kind.dir, 0o755, 1, 2⟩
    ∧ (processTarStream "/var/tmp/d".toList
        (processTarStream "/var/tmp/d".toList hostFS publicDir none).1 publicDir none).2 = none
    ∧ (processTarStream "/var/tmp/d".toList
        (processTarStream "/var/tmp/d".toList hostFS publicDir none).1 publicDir none).1.stat
        "/var/tmp/d/pub".toList = some ⟨Kind.dir, 0o777, 1, 2⟩ := by
  decide

/-- C12, amended: when a first run of `processTarStream` over a stream of directory
and regular-file entries returns nil, a second run over the same stream into
the same destination returns nil too, and leaves the tree of the first run:
the same names, and at every inode and every path the same kind and the same
file bytes. An inode whose mode is not the one after the first run has the
mode of a directory entry of the stream that leads to it and from which the
umask clears a bit; when the umask clears no bit of the mode of any
directory entry, the modes at every path are those after the first run. -/
theorem processTarStream_idempotent (D : List Char) (fs : FS) (es : List Entry)
    (hwf : fs.wf) (htypes : ∀ e ∈ es, e.isDir = true ∨ e.isReg = true)
    (h1 : (processTarStream D fs es none).2 = none) :
    (processTarStream D (processTarStream D fs es none).1 es none).2 = none
    ∧ (processTarStream D (processTarStream D fs es none).1 es none).1.names
      = (processTarStream D fs es none).1.names
    ∧ (∀ i, ((processTarStream D (processTarStream D fs es none).1 es none).1.inodes i).map
          Inode.kind
        = ((processTarStream D fs es none).1.inodes i).map Inode.kind)
    ∧ (∀ p, ((processTarStream D (processTarStream D fs es none).1 es none).1.stat p).map
          Inode.kind
        = ((processTarStream D fs es none).1.stat p).map Inode.kind)
    ∧ (∀ i r2, (processTarStream D (processTarStream D fs es none).1 es none).1.inodes i
          = some r2 →
        ∃ r, (processTarStream D fs es none).1.inodes i = some r
          ∧ (r2.mode = r.mode
            ∨ ∃ e ∈ es, e.isDir = true
                ∧ targetOf (processTarStream D fs es none).1 D e = some i
                ∧ r2.mode = entryMode e.hdr ∧ umaskClears fs.umask e))
    ∧ ((∀ e ∈ es, e.isDir = true → entryMode e.hdr &&& (fs.umask &&& 0o777) = 0) →
        ∀ p, ((processTarStream D (processTarStream D fs es none).1 es none).1.stat p).map
            Inode.mode
          = ((processTarStream D fs es none).1.stat p).map Inode.mode) := by
  obtain ⟨hg, _, hb⟩ := second_run D es es fs hwf (fun _ h => h) htypes h1
  obtain ⟨hnil, hsim⟩ := hb _ (Sim_refl D _ es es)
  obtain ⟨s1, s2, s3⟩ := Sim_nil D _ _ es hsim
  have hum : (processTarStream D fs es none).1.umask = fs.umask := hg.2.2.2.2.2
  refine ⟨hnil, s1, s2, ?_, ?_, ?_⟩
  · intro p
    exact stat_map_congr _ _ Kind Inode.kind s1 s2 s2 p
  · intro i r2 hr2
    obtain ⟨r, hr, hm⟩ := s3 i r2 hr2
    rw [hum] at hm
    exact ⟨r, hr, hm⟩
  · intro hclear p
    apply stat_map_congr _ _ Nat Inode.mode s1 s2
    intro i
    cases hr2 : (processTarStream D (processTarStream D fs es none).1 es none).1.inodes i with
    | none =>
      have := s2 i
      rw [hr2] at this
      cases hr : (processTarStream D fs es none).1.inodes i with
      | none => rfl
      | some r => rw [hr] at this; cases this
    | some r2 =>
      obtain ⟨r, hr, hm⟩ := s3 i r2 hr2
      rw [hr]
      rcases hm with hm | ⟨e, he, hd, _, _, hc⟩
      · simp only [Option.map_some', hm]
      · rw [hum] at hc
        exact absurd (hclear e he hd) hc

/-- C12, amended, at a stream in which a directory and a file come twice, the
directory with the modes 0755 and 0700, of which the umask 022 clears no
bit: after the second run the directory has the mode of its last entry and
the file the bytes of its last entry, as after the first. -/
theorem processTarStream_idempotent_witness :
    (processTarStream "/var/tmp/d".toList
        (processTarStream "/var/tmp/d".toList hostFS dirsAndFiles none).1 dirsAndFiles none).2
      = none
    ∧ (∀ p, ((processTarStream "/var/tmp/d".toList
          (processTarStream "/var/tmp/d".toList hostFS dirsAndFiles none).1
            dirsAndFiles none).1.stat p).map Inode.kind
        = ((processTarStream "/var/tmp/d".toList hostFS dirsAndFiles none).1.stat p).map
            Inode.kind)
    ∧ (∀ p, ((processTarStream "/var/tmp/d".toList
          (processTarStream "/var/tmp/d".toList hostFS dirsAndFiles none).1
            dirsAndFiles none).1.stat p).map Inode.mode
        = ((processTarStream "/var/tmp/d".toList hostFS dirsAndFiles none).1.stat p).map
            Inode.mode)
    ∧ (processTarStream "/var/tmp/d".toList hostFS dirsAndFiles none).1.stat
        "/var/tmp/d/etc".toList = some ⟨Kind.dir, 0o700, 5, 6⟩
    ∧ (processTarStream "/var/tmp/d".toList hostFS dirsAndFiles none).1.stat
        "/var/tmp/d/etc/passwd".toList = some ⟨Kind.file "toor".toList, 0o644, 7, 8⟩ :=
  ⟨(processTarStream_idempotent "/var/tmp/d".toList hostFS dirsAndFiles hostFS_wf
      (by decide) (by decide)).1,
   (processTarStream_idempotent "/var/tmp/d".toList hostFS dirsAndFiles hostFS_wf
      (by decide) (by decide)).2.2.2.1,
   (processTarStream_idempotent "/var/tmp/d".toList hostFS dirsAndFiles hostFS_wf
      (by decide) (by decide)).2.2.2.2.2 (by decide),
   by decide, by decide⟩

/-! ## C13: entries of other types -/

theorem extractEntry_unsupported (fs : FS) (D : List Char) (e : Entry)
    (h : e.supported = false) : extractEntry fs D e = (fs, none) := by
  simp only [Entry.supported, Entry.isDir, Entry.isReg, Entry.isSymlink, Entry.isLink,
    Bool.or_eq_false_iff, beq_eq_false_iff_ne, ne_eq] at h
  obtain ⟨⟨⟨h1, h2, h3⟩, h4⟩, h5⟩ := h
  simp only [extractEntry]
  rw [if_neg h1, if_neg (by rintro (h | h); exact h2 h; exact h3 h), if_neg h4, if_neg h5]

theorem Chtimes_absent (fs : FS) (p : List Char) (a m : Nat) (q : List (List Char))
    (hr : fs.resolve p = .ok q) (h : fs.names q = none) :
    Chtimes fs p a m = .error Errno.ENOENT := by
  simp only [Chtimes, hr, h]

/-- An entry of another type whose path leads to nothing that exists changes
nothing; one whose path exists changes at most the two timestamps of inodes. -/
theorem skipped_entry_effect (fs : FS) (D : List Char) (e : Entry) :
    (∀ q, fs.resolve (dstpath D e.hdr.Name) = .ok q → fs.names q = none →
      chtimesBestEffort fs D e = fs)
    ∧ (chtimesBestEffort fs D e).names = fs.names
    ∧ (chtimesBestEffort fs D e).next = fs.next
    ∧ ∀ i, ((chtimesBestEffort fs D e).inodes i).map (fun ino => (ino.kind, ino.mode))
        = (fs.inodes i).map (fun ino => (ino.kind, ino.mode)) := by
  refine ⟨?_, ?_⟩
  · intro q hr h
    simp only [chtimesBestEffort, Chtimes_absent fs _ _ _ q hr h]
  · unfold chtimesBestEffort Chtimes
    split
    · next fs1 heq =>
      split at heq
      · cases heq
      · split at heq
        · cases heq
        · split at heq
          · cases heq
          · next j ino hino =>
            cases heq
            refine ⟨rfl, rfl, ?_⟩
            intro i
            simp only [FS.setInode]
            split
            · next hij => rw [hij, hino]; rfl
            · rfl
    · exact ⟨rfl, rfl, fun _ => rfl⟩

/-- C13, evaluated at the failing input: the FIFO entry `rootfs/pipe` that follows
the regular file of the same name is skipped without error and creates
nothing, but the call of `os.Chtimes` after the `switch` sets the times
of the file, 7 and 9 after its own entry, to the 1 and 2 of the FIFO entry. -/
theorem skipped_entry_changes_times :
    (processTarStream "/var/tmp/d".toList hostFS pipeStream none).2 = none
    ∧ (processTarStream "/var/tmp/d".toList hostFS (pipeStream.take 1) none).1.stat
        "/var/tmp/d/pipe".toList = some ⟨Kind.file "data".toList, 0o644, 7, 9⟩
    ∧ (processTarStream "/var/tmp/d".toList hostFS pipeStream none).1.stat
        "/var/tmp/d/pipe".toList = some ⟨Kind.file "data".toList, 0o644, 1, 2⟩ := by
  decide

/-! ## C14: the openscap routes -/

theorem Inspect_success_reports (env : Env) (fs : FS) (i : openscapImageInspector)
    (h0 : i.meta.OpenSCAP.Status ≠ ScanStatus.StatusSuccess)
    (hs : (Inspect env fs i).inspector.meta.OpenSCAP.Status = ScanStatus.StatusSuccess) :
    ∃ fs1 dir, inspectOutputDir env fs i = (fs1, .ok dir)
      ∧ env.ReadFile (inspectScanner env i dir).ResultsFileName
          = .ok (Inspect env fs i).inspector.scanReport
      ∧ (i.opts.OpenScapHTML = true →
          env.ReadFile (inspectScanner env i dir).HTMLResultsFileName
            = .ok (Inspect env fs i).inspector.htmlScanReport) := by
  unfold inspectOutputDir inspectScanner
  rcases hc : createOutputDir (env.tempSuffixes "image-inspector-scan-results-".toList) fs
      i.opts.ScanResultsDir "image-inspector-scan-results-".toList with ⟨fs1, _ | dir⟩
  · simp only [Inspect, hc] at hs
    exact absurd hs h0
  · refine ⟨fs1, dir, rfl, ?_⟩
    simp only [Inspect, hc, scanImage] at hs ⊢
    generalize env.NewDefaultScanner OSCAP_CVE_DIR dir i.opts.CVEUrlPath
      i.opts.OpenScapHTML = s at hs ⊢
    cases hscan : s.Scan i.opts.DstPath i.meta.Image with
    | some err =>
      simp only [hscan, OpenSCAPMetadata.SetError] at hs
      cases hs
    | none =>
      simp only [hscan] at hs ⊢
      cases hread : env.ReadFile s.ResultsFileName with
      | error err =>
        simp only [hread, OpenSCAPMetadata.SetError] at hs
        cases hs
      | ok rep =>
        simp only [hread] at hs ⊢
        by_cases hh : i.opts.OpenScapHTML = true
        · simp only [hh, if_true] at hs ⊢
          cases hhtml : env.ReadFile s.HTMLResultsFileName with
          | error err =>
            simp only [hhtml, OpenSCAPMetadata.SetError] at hs
            cases hs
          | ok html => simp
        · simp [hh]

/-- C14: the handler of `/api/v1/openscap` answers with the stored primary report
when the status is Success, with 500 and the stored error message when it is
Error, and with an empty body otherwise; the handler of
`/api/v1/openscap-report` answers 404 when HTML reporting was not requested,
whatever the status, and otherwise follows the same rules with the stored
HTML report. After an `Inspect` that ends in Success, the stored reports are
the bytes read back from the result files of the scan. -/
theorem openscapHandler_status (opts : ImageInspectorOptions) (i : openscapImageInspector) :
    (i.meta.OpenSCAP.Status = ScanStatus.StatusSuccess →
      openscapHandler i = ⟨200, i.scanReport⟩)
    ∧ (i.meta.OpenSCAP.Status = ScanStatus.StatusError →
      openscapHandler i
        = ⟨500, "OpenSCAP Error: ".toList ++ i.meta.OpenSCAP.ErrorMessage ++ "\n".toList⟩)
    ∧ (i.meta.OpenSCAP.Status = ScanStatus.StatusNotRequested →
      openscapHandler i = ⟨200, []⟩)
    ∧ (opts.OpenScapHTML = false → (openscapReportHandler opts i).code = 404)
    ∧ (opts.OpenScapHTML = true →
        (i.meta.OpenSCAP.Status = ScanStatus.StatusSuccess →
          openscapReportHandler opts i = ⟨200, i.htmlScanReport⟩)
        ∧ (i.meta.OpenSCAP.Status = ScanStatus.StatusError →
          openscapReportHandler opts i
            = ⟨500, "OpenSCAP Error: ".toList ++ i.meta.OpenSCAP.ErrorMessage ++ "\n".toList⟩)
        ∧ (i.meta.OpenSCAP.Status = ScanStatus.StatusNotRequested →
          openscapReportHandler opts i = ⟨200, []⟩))
    ∧ (∀ (env : Env) (fs : FS) (m : InspectorMetadata),
        m.OpenSCAP.Status ≠ ScanStatus.StatusSuccess →
        (Inspect env fs (NewOpenscapImageInspector opts m)).inspector.meta.OpenSCAP.Status
          = ScanStatus.StatusSuccess →
        ∃ fs1 dir primary,
          inspectOutputDir env fs (NewOpenscapImageInspector opts m) = (fs1, .ok dir)
          ∧ env.ReadFile
              (inspectScanner env (NewOpenscapImageInspector opts m) dir).ResultsFileName
            = .ok primary
          ∧ openscapHandler (Inspect env fs (NewOpenscapImageInspector opts m)).inspector
            = ⟨200, primary⟩
          ∧ (opts.OpenScapHTML = true → ∃ html,
              env.ReadFile
                (inspectScanner env (NewOpenscapImageInspector opts m) dir).HTMLResultsFileName
                = .ok html
              ∧ openscapReportHandler opts
                  (Inspect env fs (NewOpenscapImageInspector opts m)).inspector
                = ⟨200, html⟩)) := by
  refine ⟨?_, ?_, ?_, ?_, ?_, ?_⟩
  · intro h
    simp only [openscapHandler, h, StatusOK]
  · intro h
    simp only [openscapHandler, h, httpError, StatusInternalServerError]
    rfl
  · intro h
    simp only [openscapHandler, h, StatusOK]
  · intro h
    simp only [openscapReportHandler, h, httpError, StatusNotFound]
    rfl
  · intro hh
    refine ⟨?_, ?_, ?_⟩
    · intro h
      simp [openscapReportHandler, hh, h, StatusOK]
    · intro h
      simp [openscapReportHandler, hh, h, httpError, StatusInternalServerError]
    · intro h
      simp [openscapReportHandler, hh, h, StatusOK]
  · intro env fs m h0 hs
    obtain ⟨fs1, dir, h1, h2, h3⟩ :=
      Inspect_success_reports env fs (NewOpenscapImageInspector opts m) h0 hs
    refine ⟨fs1, dir, _, h1, h2, ?_, ?_⟩
    · simp only [openscapHandler, hs, StatusOK]
    · intro hh
      refine ⟨_, h3 hh, ?_⟩
      simp [openscapReportHandler, hh, hs, StatusOK]

/-- C14, at an inspector whose scan succeeded with the reports `arf` and `html`:
the two routes answer with these, and without HTML reporting the second
answers 404. -/
theorem openscapHandler_status_witness :
    openscapHandler scannedInspector = ⟨200, "arf".toList⟩
    ∧ openscapReportHandler scannedInspector.opts scannedInspector = ⟨200, "html".toList⟩
    ∧ (openscapReportHandler imageOptions scannedInspector).code = 404 :=
  ⟨(openscapHandler_status scannedInspector.opts scannedInspector).1 rfl,
   ((openscapHandler_status scannedInspector.opts scannedInspector).2.2.2.2.1 rfl).1 rfl,
   (openscapHandler_status imageOptions scannedInspector).2.2.2.1 rfl⟩

/-! ## C15: the bytes reported for a pull -/

theorem wrapInt_emod (x : Int) : (wrapInt x - x) % 2 ^ 64 = 0 := by
  unfold wrapInt; omega

theorem wrapInt_congr (a b : Int) (h : (a - b) % 2 ^ 64 = 0) : wrapInt a = wrapInt b := by
  unfold wrapInt; omega

theorem wrapInt_id (x : Int) (h1 : -2 ^ 63 ≤ x) (h2 : x < 2 ^ 63) : wrapInt x = x := by
  unfold wrapInt; omega

theorem layerGet_layerSet (layers : List (List Char × Int)) (id : List Char) (bytes : Int)
    (k : List Char) :
    layerGet (layerSet layers id bytes) k = if id = k then some bytes else layerGet layers k := by
  induction layers with
  | nil => simp [layerSet, layerGet]
  | cons p rest ih =>
    obtain ⟨k1, v1⟩ := p
    unfold layerSet
    by_cases h1 : k1 = id
    · rw [if_pos h1]
      by_cases h2 : id = k
      · simp [layerGet, h2]
      · have h3 : ¬ k1 = k := by rw [h1]; exact h2
        simp [layerGet, h2, h3]
    · rw [if_neg h1]
      by_cases h3 : k1 = k
      · have h2 : ¬ id = k := by rw [← h3]; exact fun h => h1 h.symm
        simp [layerGet, h2, h3]
      · simp only [layerGet, if_neg h3, ih]

theorem sum_map_update (f : List Char → Int) (a : List Char) (c : Int) :
    ∀ l : List (List Char), l.Nodup →
      (l.map (fun x => if a = x then c else f x)).sum
        = (l.map f).sum + (if a ∈ l then c - f a else 0)
  | [], _ => by simp
  | x :: l, hnd => by
    rw [List.nodup_cons] at hnd
    have ih := sum_map_update f a c l hnd.2
    simp only [List.map_cons, List.sum_cons, ih, List.mem_cons]
    by_cases hx : a = x
    · have hl : a ∉ l := by rw [hx]; exact hnd.1
      simp only [hx, if_true, true_or]
      rw [hx] at hl
      rw [if_neg hl]
      omega
    · by_cases hl : a ∈ l
      · simp only [hx, hl, if_false, if_true, false_or]
        omega
      · simp only [hx, hl, if_false, false_or]
        omega

theorem layerIds_cons (v : pullMessage) (messages : List pullMessage) :
    layerIds (v :: messages)
      = if isDownloading v = true ∧ v.Id ∉ layerIds messages then v.Id :: layerIds messages
        else layerIds messages := by
  unfold layerIds
  rw [List.filter_cons]
  cases hd : isDownloading v with
  | false => simp
  | true =>
    simp only [if_true, List.map_cons, true_and]
    by_cases hm : v.Id ∈ (List.map (fun v => v.Id) (List.filter isDownloading messages))
    · rw [List.dedup_cons_of_mem hm, if_neg (by rw [List.mem_dedup]; exact fun h => h hm)]
    · rw [List.dedup_cons_of_not_mem hm, if_pos (by rw [List.mem_dedup]; exact hm)]

theorem mem_layerIds (id : List Char) (messages : List pullMessage) :
    id ∈ layerIds messages
      ↔ messages.filter (fun v => isDownloading v && decide (v.Id = id)) ≠ [] := by
  unfold layerIds
  rw [List.mem_dedup, List.mem_map, Ne, List.filter_eq_nil_iff]
  constructor
  · rintro ⟨w, hw, hid⟩ h
    rw [List.mem_filter] at hw
    exact h w hw.1 (by simp [hw.2, hid])
  · intro h
    by_contra hc
    apply h
    intro w hw hp
    rw [Bool.and_eq_true] at hp
    exact hc ⟨w, List.mem_filter.2 ⟨hw, hp.1⟩, of_decide_eq_true hp.2⟩

theorem lastCurrent_of_not_mem (id : List Char) (messages : List pullMessage)
    (h : id ∉ layerIds messages) : lastCurrent id messages = 0 := by
  have hnil : messages.filter (fun v => isDownloading v && decide (v.Id = id)) = [] := by
    by_contra hc; exact h ((mem_layerIds id messages).2 hc)
  unfold lastCurrent
  rw [hnil]
  rfl

theorem lastCurrent_cons (id : List Char) (v : pullMessage) (messages : List pullMessage) :
    lastCurrent id (v :: messages)
      = if id ∈ layerIds messages then lastCurrent id messages
        else if isDownloading v = true ∧ v.Id = id then v.ProgressDetail.Current else 0 := by
  have hmem := mem_layerIds id messages
  unfold lastCurrent
  rw [List.filter_cons]
  by_cases hp : (isDownloading v && decide (v.Id = id)) = true
  · rw [if_pos hp, List.getLast?_cons]
    rw [Bool.and_eq_true] at hp
    cases hl : (messages.filter (fun v => isDownloading v && decide (v.Id = id))).getLast? with
    | none =>
      have hnil := List.getLast?_eq_none_iff.1 hl
      rw [if_neg (by rw [hmem, hnil]; exact fun h => h rfl),
        if_pos ⟨hp.1, of_decide_eq_true hp.2⟩]
      rfl
    | some w =>
      have hne : messages.filter (fun v => isDownloading v && decide (v.Id = id)) ≠ [] := by
        intro h; rw [h] at hl; cases hl
      rw [if_pos (hmem.2 hne)]
      rfl
  · rw [if_neg hp]
    have hp2 : ¬ (isDownloading v = true ∧ v.Id = id) := by
      intro h; apply hp; rw [Bool.and_eq_true]; exact ⟨h.1, decide_eq_true h.2⟩
    rw [if_neg hp2]
    by_cases hm : id ∈ layerIds messages
    · rw [if_pos hm]
    · rw [if_neg hm]
      have hnil : messages.filter (fun v => isDownloading v && decide (v.Id = id)) = [] := by
        by_contra hc; exact hm (hmem.2 hc)
      rw [hnil]
      rfl

theorem lastCurrentTotal_cons (v : pullMessage) (messages : List pullMessage) :
    lastCurrentTotal (v :: messages)
      = lastCurrentTotal messages
        + (if isDownloading v = true ∧ v.Id ∉ layerIds messages then v.ProgressDetail.Current
          else 0) := by
  have hold : (layerIds messages).map (fun id => lastCurrent id (v :: messages))
      = (layerIds messages).map (fun id => lastCurrent id messages) := by
    apply List.map_congr_left
    intro id hid
    rw [lastCurrent_cons, if_pos hid]
  unfold lastCurrentTotal
  rw [layerIds_cons]
  by_cases h : isDownloading v = true ∧ v.Id ∉ layerIds messages
  · rw [if_pos h, if_pos h, List.map_cons, List.sum_cons, hold, lastCurrent_cons,
      if_neg h.2, if_pos ⟨h.1, rfl⟩]
    omega
  · rw [if_neg h, if_neg h, hold]
    omega

/-- The value `last` of the loop: the entry of the map, and 0 when there is none. -/
theorem decodeLoop_cons (layers : List (List Char × Int)) (v : pullMessage)
    (rest : List pullMessage) (h : isDownloading v = true) :
    decodeLoop layers (v :: rest)
      = wrapInt (v.ProgressDetail.Current - (layerGet layers v.Id).getD 0)
        :: decodeLoop (layerSet layers v.Id v.ProgressDetail.Current) rest := by
  have hs : v.Status = "Downloading".toList := of_decide_eq_true h
  rw [decodeLoop, if_pos hs]
  cases layerGet layers v.Id <;> rfl

theorem decodeLoop_cons_skip (layers : List (List Char × Int)) (v : pullMessage)
    (rest : List pullMessage) (h : isDownloading v = false) :
    decodeLoop layers (v :: rest) = decodeLoop layers rest := by
  have hs : ¬ v.Status = "Downloading".toList := of_decide_eq_false h
  rw [decodeLoop, if_neg hs]

theorem decodeLoop_sum (messages : List pullMessage) :
    ∀ layers : List (List Char × Int),
      ((decodeLoop layers messages).sum
        - (lastCurrentTotal messages
          - ((layerIds messages).map (fun id => (layerGet layers id).getD 0)).sum)) % 2 ^ 64
        = 0 := by
  induction messages with
  | nil => intro layers; rfl
  | cons v rest ih =>
    intro layers
    cases hd : isDownloading v with
    | false =>
      have h1 := ih layers
      rw [decodeLoop_cons_skip layers v rest hd, lastCurrentTotal_cons, layerIds_cons,
        if_neg (by rw [hd]; exact fun h => Bool.noConfusion h.1),
        if_neg (by rw [hd]; exact fun h => Bool.noConfusion h.1)]
      rw [Int.add_zero]
      exact h1
    | true =>
      have h1 := ih (layerSet layers v.Id v.ProgressDetail.Current)
      have h2 : (layerIds rest).map
            (fun id => (layerGet (layerSet layers v.Id v.ProgressDetail.Current) id).getD 0)
          = (layerIds rest).map
            (fun id => if v.Id = id then v.ProgressDetail.Current
              else (layerGet layers id).getD 0) := by
        apply List.map_congr_left
        intro id _
        rw [layerGet_layerSet]
        by_cases hid : v.Id = id
        · rw [if_pos hid, if_pos hid]; rfl
        · rw [if_neg hid, if_neg hid]
      have h3 := sum_map_update (fun id => (layerGet layers id).getD 0) v.Id
        v.ProgressDetail.Current (layerIds rest) (List.nodup_dedup _)
      have h4 := wrapInt_emod (v.ProgressDetail.Current - (layerGet layers v.Id).getD 0)
      beta_reduce at h3
      rw [h2, h3] at h1
      rw [decodeLoop_cons layers v rest hd, List.sum_cons, lastCurrentTotal_cons, layerIds_cons]
      by_cases hm : v.Id ∈ layerIds rest
      · rw [if_pos hm] at h1
        rw [if_neg (fun h => h.2 hm), if_neg (fun h => h.2 hm)]
        omega
      · rw [if_neg hm] at h1
        rw [if_pos ⟨hd, hm⟩, if_pos ⟨hd, hm⟩, List.map_cons, List.sum_cons]
        omega

theorem aggregateLoop_emod (turns : List SelectCase) :
    ∀ bytesDownloaded : Int,
      (aggregateLoop bytesDownloaded turns - (bytesDownloaded + (received turns).sum)) % 2 ^ 64
        = 0 := by
  induction turns with
  | nil => intro b; simp [aggregateLoop, received]
  | cons t rest ih =>
    intro b
    cases t with
    | recv bytes =>
      have h1 := ih (wrapInt (b + bytes))
      have h2 := wrapInt_emod (b + bytes)
      simp only [aggregateLoop, received, List.sum_cons]
      omega
    | tick =>
      simp only [aggregateLoop, received]
      exact ih b

theorem aggregateLoop_range (turns : List SelectCase) :
    ∀ bytesDownloaded : Int, wrapInt bytesDownloaded = bytesDownloaded →
      wrapInt (aggregateLoop bytesDownloaded turns) = aggregateLoop bytesDownloaded turns := by
  induction turns with
  | nil => intro b hb; exact hb
  | cons t rest ih =>
    intro b hb
    cases t with
    | recv bytes =>
      simp only [aggregateLoop]
      exact ih _ (by unfold wrapInt; omega)
    | tick =>
      simp only [aggregateLoop]
      exact ih b hb

theorem aggregate_decode (messages : List pullMessage) (turns : List SelectCase)
    (h : received turns = decodeDockerPullMessages messages) :
    aggregateBytesAndReport turns = wrapInt (lastCurrentTotal messages) := by
  have h1 := aggregateLoop_emod turns 0
  have h2 := aggregateLoop_range turns 0 (by decide)
  have h3 := decodeLoop_sum messages []
  have h4 : ((layerIds messages).map (fun id => (layerGet [] id).getD 0)).sum = 0 := by
    have : ∀ l : List (List Char), (l.map (fun id => (layerGet [] id).getD 0)).sum = 0 := by
      intro l
      induction l with
      | nil => rfl
      | cons a l ihl => rw [List.map_cons, List.sum_cons, ihl]; rfl
    exact this _
  unfold aggregateBytesAndReport
  unfold decodeDockerPullMessages at h
  rw [h] at h1
  rw [h4] at h3
  rw [← h2]
  apply wrapInt_congr
  omega

theorem decodeLoop_append (pre rest : List pullMessage) :
    ∀ layers : List (List Char × Int),
      decodeLoop layers (pre ++ rest)
        = decodeLoop layers pre ++ decodeLoop (layersAfter layers pre) rest := by
  induction pre with
  | nil => intro layers; rfl
  | cons v pre ih =>
    intro layers
    cases hd : isDownloading v with
    | false =>
      have hs : ¬ v.Status = "Downloading".toList := of_decide_eq_false hd
      rw [List.cons_append, decodeLoop_cons_skip _ _ _ hd, decodeLoop_cons_skip _ _ _ hd,
        layersAfter, if_neg hs, ih]
    | true =>
      have hs : v.Status = "Downloading".toList := of_decide_eq_true hd
      rw [List.cons_append, decodeLoop_cons _ _ _ hd, decodeLoop_cons _ _ _ hd,
        layersAfter, if_pos hs, ih, List.cons_append]

theorem layerGet_layersAfter (id : List Char) (messages : List pullMessage) :
    ∀ layers : List (List Char × Int),
      (layerGet (layersAfter layers messages) id).getD 0
        = if id ∈ layerIds messages then lastCurrent id messages
          else (layerGet layers id).getD 0 := by
  induction messages with
  | nil => intro layers; rfl
  | cons v rest ih =>
    intro layers
    have e1 := lastCurrent_cons id v rest
    have e2 := layerIds_cons v rest
    cases hd : isDownloading v with
    | false =>
      have hs : ¬ v.Status = "Downloading".toList := of_decide_eq_false hd
      rw [hd] at e1 e2
      simp only [Bool.false_eq_true, false_and, if_false] at e1 e2
      rw [layersAfter, if_neg hs, ih, e2, e1]
      by_cases hm : id ∈ layerIds rest
      · rw [if_pos hm, if_pos hm, if_pos hm]
      · rw [if_neg hm, if_neg hm]
    | true =>
      have hs : v.Status = "Downloading".toList := of_decide_eq_true hd
      rw [hd] at e1 e2
      simp only [true_and] at e1 e2
      rw [layersAfter, if_pos hs, ih, layerGet_layerSet, e2, e1]
      by_cases hm : id ∈ layerIds rest
      · by_cases hv : v.Id ∈ layerIds rest
        · simp only [hm, hv, if_true, not_true_eq_false, if_false]
        · simp only [hm, hv, if_true, not_false_eq_true, List.mem_cons, or_true]
      · by_cases hid : v.Id = id
        · subst hid
          simp only [hm, if_true, if_false, not_false_eq_true, List.mem_cons, true_or,
            Option.getD_some]
        · have hid2 : ¬ id = v.Id := fun h => hid h.symm
          by_cases hv : v.Id ∈ layerIds rest
          · simp only [hm, hv, hid, if_false, not_true_eq_false]
          · simp only [hm, hv, hid, hid2, if_false, if_true, not_false_eq_true, List.mem_cons,
              or_false]

theorem decodeLoop_filter (messages : List pullMessage) :
    ∀ layers : List (List Char × Int),
      decodeLoop layers messages = decodeLoop layers (messages.filter isDownloading)
      ∧ (decodeLoop layers messages).length = (messages.filter isDownloading).length := by
  induction messages with
  | nil => intro layers; exact ⟨rfl, rfl⟩
  | cons v rest ih =>
    intro layers
    cases hd : isDownloading v with
    | false =>
      rw [decodeLoop_cons_skip _ _ _ hd, List.filter_cons_of_neg (by rw [hd]; decide)]
      exact ih layers
    | true =>
      rw [decodeLoop_cons _ _ _ hd, List.filter_cons_of_pos hd, decodeLoop_cons _ _ _ hd,
        List.length_cons, List.length_cons,
        ← (ih (layerSet layers v.Id v.ProgressDetail.Current)).1,
        (ih (layerSet layers v.Id v.ProgressDetail.Current)).2]
      exact ⟨rfl, rfl⟩

/-- C15, counterexample: two layers whose last `Current` values are the largest
`int` and 1025. The values pushed are these two, and the total that
`aggregateBytesAndReport` holds when the channel is closed has wrapped
around: it is negative, and not the sum of the two `Current` values. -/
theorem aggregateBytesAndReport_wraps :
    decodeDockerPullMessages hugePullMessages = [9223372036854775807, 1025]
    ∧ received [.recv 9223372036854775807, .recv 1025]
      = decodeDockerPullMessages hugePullMessages
    ∧ lastCurrentTotal hugePullMessages = 9223372036854776832
    ∧ aggregateBytesAndReport [.recv 9223372036854775807, .recv 1025] = -9223372036854774784
    ∧ aggregateBytesAndReport [.recv 9223372036854775807, .recv 1025]
      ≠ lastCurrentTotal hugePullMessages := by
  decide

/-- C15, amended: for every finite sequence of pull progress messages, the messages
whose status is not `Downloading` push nothing to `bytesChan`; every
`Downloading` message pushes, in order, the difference between its `Current`
and the `Current` of the previous `Downloading` message of the same layer (0
when there is none), as a Go `int`; and however the ticks fall between the
values received, the total `aggregateBytesAndReport` holds when the channel is
closed, which is the sum of the values pushed, is, as a Go `int`, the sum over
all layer ids of the `Current` of the last `Downloading` message of the layer:
that sum itself when it fits in an `int`. -/
theorem decodeDockerPullMessages_total (messages : List pullMessage) :
    decodeDockerPullMessages messages
      = decodeDockerPullMessages (messages.filter isDownloading)
    ∧ (decodeDockerPullMessages messages).length = (messages.filter isDownloading).length
    ∧ (∀ (pre post : List pullMessage) (v : pullMessage),
        messages = pre ++ v :: post → isDownloading v = true →
        ∃ later, decodeDockerPullMessages messages
          = decodeDockerPullMessages pre
            ++ wrapInt (v.ProgressDetail.Current - lastCurrent v.Id pre) :: later)
    ∧ wrapInt (decodeDockerPullMessages messages).sum = wrapInt (lastCurrentTotal messages)
    ∧ (∀ turns : List SelectCase, received turns = decodeDockerPullMessages messages →
        aggregateBytesAndReport turns = wrapInt (lastCurrentTotal messages)
        ∧ (-2 ^ 63 ≤ lastCurrentTotal messages → lastCurrentTotal messages < 2 ^ 63 →
          aggregateBytesAndReport turns = lastCurrentTotal messages)) := by
  refine ⟨(decodeLoop_filter messages []).1, (decodeLoop_filter messages []).2, ?_, ?_, ?_⟩
  · intro pre post v hmsg hd
    refine ⟨decodeLoop (layerSet (layersAfter [] pre) v.Id v.ProgressDetail.Current) post, ?_⟩
    have hl := layerGet_layersAfter v.Id pre []
    have hz : lastCurrent v.Id pre = (layerGet (layersAfter [] pre) v.Id).getD 0 := by
      rw [hl]
      by_cases hm : v.Id ∈ layerIds pre
      · rw [if_pos hm]
      · rw [if_neg hm, lastCurrent_of_not_mem _ _ hm]
        rfl
    unfold decodeDockerPullMessages
    rw [hmsg, decodeLoop_append, decodeLoop_cons _ _ _ hd, hz]
  · have h3 := decodeLoop_sum messages []
    have h4 : ∀ l : List (List Char), (l.map (fun id => (layerGet [] id).getD 0)).sum = 0 := by
      intro l
      induction l with
      | nil => rfl
      | cons a l ihl => rw [List.map_cons, List.sum_cons, ihl]; rfl
    rw [h4] at h3
    apply wrapInt_congr
    unfold decodeDockerPullMessages
    omega
  · intro turns hr
    refine ⟨aggregate_decode messages turns hr, fun h1 h2 => ?_⟩
    rw [aggregate_decode messages turns hr, wrapInt_id _ h1 h2]

/-- C15, amended, at a pull of two layers with ticks between the values received. -/
theorem decodeDockerPullMessages_total_witness :
    received [.recv 10, .tick, .recv 5, .recv 20, .tick, .tick, .recv 15]
      = decodeDockerPullMessages pullMessages
    ∧ lastCurrentTotal pullMessages = 50
    ∧ aggregateBytesAndReport [.recv 10, .tick, .recv 5, .recv 20, .tick, .tick, .recv 15]
      = 50 :=
  ⟨by decide, by decide,
    ((decodeDockerPullMessages_total pullMessages).2.2.2.2
      [.recv 10, .tick, .recv 5, .recv 20, .tick, .tick, .recv 15] (by decide)).2
      (by decide) (by decide)⟩

/-! ## C16: the scan types after validation -/

theorem checkScanTypes_none (ScanOptions l : List (List Char))
    (h : checkScanTypes ScanOptions l = none) : ∀ x ∈ l, x ∈ ScanOptions := by
  induction l with
  | nil => intro x hx; cases hx
  | cons a rest ih =>
    unfold checkScanTypes at h
    split at h
    · next ha =>
      intro x hx
      rcases List.mem_cons.1 hx with h1 | h1
      · subst h1
        simp only [List.any_eq_true, beq_iff_eq] at ha
        obtain ⟨y, hy, hxy⟩ := ha
        rw [hxy]
        exact hy
      · exact ih h x h1
    · cases h

theorem Validate_eq_validateScans (stat : List Char → StatResult)
    (ScanOptions : List (List Char)) (i : ImageInspectorOptions)
    (h : (Validate stat ScanOptions i).err = none) :
    Validate stat ScanOptions i = validateScans ScanOptions i := by
  unfold Validate at h ⊢
  split
  · next hc => rw [if_pos hc] at h; cases h
  · next hc1 =>
    rw [if_neg hc1] at h
    split
    · next hc => rw [if_pos hc] at h; cases h
    · next hc2 =>
      rw [if_neg hc2] at h
      split
      · next hc => rw [if_pos hc] at h; cases h
      · next hc3 =>
        rw [if_neg hc3] at h
        split
        · next hc => rw [if_pos hc] at h; cases h
        · next hc4 =>
          rw [if_neg hc4] at h
          split
          · next hc => rw [if_pos hc] at h; cases h
          · next hc5 =>
            rw [if_neg hc5] at h
            split
            · next hc => rw [if_pos hc] at h; cases h
            · next hc6 =>
              rw [if_neg hc6] at h
              split
              · next hc => rw [if_pos hc] at h; cases h
              · next hc7 =>
                rw [if_neg hc7] at h
                split
                · next hc => rw [if_pos hc] at h; cases h
                · next hc8 =>
                  rw [if_neg hc8] at h
                  split
                  · next hc => rw [if_pos hc] at h; cases h
                  · next hc9 =>
                    rw [if_neg hc9] at h
                    split
                    · next err he => rw [he] at h; cases h
                    · rfl

theorem RunScanner_found (env : Env) (opts : ImageInspectorOptions)
    (name scanType : List Char) (s : CustomScan) (hs : s ∈ opts.CustomScans)
    (hn : s.Name = name) : RunScanner env opts name scanType ≠ RunOutcome.notFound := by
  unfold RunScanner
  rw [runScannerLoop_eq_find]
  cases hf : opts.CustomScans.find? (fun s => decide (s.Name = name)) with
  | none =>
    have := List.find?_eq_none.1 hf s hs
    simp [hn] at this
  | some s1 => exact runScannerBody_ne_notFound _ _ _ _

/-- C16: starting from the registry `["openscap"]`, if `Validate` returns nil
then every selected scan type is `openscap` or the name of an entry of the
`CustomScans` of the validated options, so `RunScanner` on these options
does not return the "not found" error for a selected scan type other than
`openscap`; and the registry `ScanOptions` has no duplicate names. -/
theorem Validate_scan_types (stat : List Char → StatResult) (i : ImageInspectorOptions)
    (h : (Validate stat initialScanOptions i).err = none) :
    (∀ name ∈ (Validate stat initialScanOptions i).opts.ScanType,
        name = "openscap".toList
        ∨ ∃ s ∈ (Validate stat initialScanOptions i).opts.CustomScans, s.Name = name)
    ∧ (∀ (env : Env) (name scanType : List Char),
        name ∈ (Validate stat initialScanOptions i).opts.ScanType → name ≠ "openscap".toList →
        RunScanner env (Validate stat initialScanOptions i).opts name scanType
          ≠ RunOutcome.notFound)
    ∧ (Validate stat initialScanOptions i).ScanOptions.Nodup := by
  have hv := Validate_eq_validateScans stat initialScanOptions i h
  rw [hv] at h ⊢
  have key : (∀ name ∈ (validateScans initialScanOptions i).opts.ScanType,
        name = "openscap".toList
        ∨ ∃ s ∈ (validateScans initialScanOptions i).opts.CustomScans, s.Name = name)
      ∧ (validateScans initialScanOptions i).ScanOptions.Nodup := by
    unfold validateScans at h ⊢
    by_cases hc : i.CustomScanConf.length ≠ 0
    · rw [if_pos hc] at h ⊢
      have hreg : registerCustomScans initialScanOptions initialScanOptions hardCodedCustomScans
          = (["openscap".toList, "occlamdscan".toList], none) := by decide
      simp only [hreg] at h ⊢
      refine ⟨?_, by decide⟩
      intro name hname
      have := checkScanTypes_none _ _ h name hname
      simp only [List.mem_cons, List.mem_singleton, List.not_mem_nil, or_false] at this
      rcases this with h1 | h1
      · exact Or.inl h1
      · right
        refine ⟨⟨"occlamdscan".toList, ["occlamdscan".toList, "--image".toList],
          ["occlamdscan".toList, "--container".toList],
          ["occlamdscan".toList, "--volume".toList]⟩, by decide, ?_⟩
        rw [h1]
    · rw [if_neg hc] at h ⊢
      simp only at h ⊢
      refine ⟨?_, by decide⟩
      intro name hname
      have := checkScanTypes_none _ _ h name hname
      left
      simpa [initialScanOptions] using this
  refine ⟨key.1, ?_, key.2⟩
  intro env name scanType hname hne
  rcases key.1 name hname with h1 | ⟨s, hs, hsn⟩
  · exact absurd h1 hne
  · exact RunScanner_found env _ name scanType s hs hsn

/-- C16, at options that select `occlamdscan` and `openscap` with a custom scan
configuration file: validation succeeds and `occlamdscan` is found. -/
theorem Validate_scan_types_witness :
    (Validate (fun _ => StatResult.notDir) initialScanOptions customOptions).err = none
    ∧ RunScanner (okEnv ⟨[], none⟩)
        (Validate (fun _ => StatResult.notDir) initialScanOptions customOptions).opts
        "occlamdscan".toList ScannerImage ≠ RunOutcome.notFound
    ∧ (Validate (fun _ => StatResult.notDir) initialScanOptions customOptions).ScanOptions.Nodup :=
  ⟨by decide,
   (Validate_scan_types (fun _ => StatResult.notDir) customOptions (by decide)).2.1
     (okEnv ⟨[], none⟩) "occlamdscan".toList ScannerImage (by decide) (by decide),
   (Validate_scan_types (fun _ => StatResult.notDir) customOptions (by decide)).2.2⟩

end ImageInspector
